import Mathlib

/-!
# Command-line argument parsing examples: a verification development

The repository holds four small C programs, each a `main` that calls one of the C library's
command-line parsers (`getopt`, `getsubopt`, `argp_parse`) and dispatches on what the parser
returns.  Three of them are treated here: `getopt/main.c`, `getsubopt/main.c` and
`argp/1_minimal-program-using-argp/main.c`.

The development has two layers.

* The C library functions the programs call (`getopt`, `getsubopt`, `atoi`, and `argp_parse`
  with a null parser) are not part of the repository.  They are modelled after their documented
  behaviour (POSIX.1, the GNU C library manual and the GNU C library's implementation), as
  executable functions on explicit state.  `getopt` scans in the GNU way (`PERMUTE`) or in the
  POSIX way (`REQUIRE_ORDER`), according to the environment variable `POSIXLY_CORRECT`; the
  programs are parametrised by that choice and the statements hold for both.
* Each `main` is translated statement by statement on top of these functions.

Conventions: a C string is the list of its characters (the bytes before the terminating NUL);
`stdout` and `stderr` are the lists of the chunks the program has written to the stream, in
order, one chunk per `printf`/`fprintf` call; a process ends in a `Status`.  Loops whose
termination is not structural take a fuel, computed by `main` from its arguments, and give
`none` when it runs out; `GetoptDemo.main_total` and `GetsuboptDemo.main_returns` show that
it never does.
-/

/-- A C string: the characters before the terminating NUL. -/
abbrev CStr := List Char

/-- How a process ends: `exit(code)` / `return code` from `main`, or `abort()`. -/
inductive Status where
  | exited (code : Nat)
  | aborted
  deriving DecidableEq, Repr

/-! ## The C library: `getopt` -/

/-- The three scanning modes of `getopt` (`REQUIRE_ORDER` is the POSIX behaviour,
`PERMUTE` is the GNU default). -/
inductive GetoptOrdering where
  | REQUIRE_ORDER
  | PERMUTE
  | RETURN_IN_ORDER
  deriving DecidableEq, Repr

/-- The state `getopt` keeps between calls: the (possibly permuted) argument
vector, the public variables `optind` and `optarg`, the rest of the option
cluster being scanned (`nextchar`, empty when a new element must be fetched),
and the bounds `[first_nonopt, last_nonopt)` of the non-options skipped so far. -/
structure GetoptData where
  argv : List CStr
  optind : Nat
  optarg : Option CStr
  nextchar : CStr
  first_nonopt : Nat
  last_nonopt : Nat
  deriving DecidableEq, Repr

/-- What one call of `getopt` produces: the return value (`none` stands for `-1`,
`some c` for the character code `c`), the new state, and the diagnostic lines the
call wrote to `stderr`. -/
structure GetoptResult where
  ret : Option Char
  data : GetoptData
  diag : List CStr
  deriving DecidableEq, Repr

/-- The state before the first call: `optind = 1`, nothing scanned. -/
def GetoptData.init (argv : List CStr) : GetoptData :=
  { argv := argv, optind := 1, optarg := none, nextchar := [],
    first_nonopt := 1, last_nonopt := 1 }

/-- The C function `strchr` for a non-NUL character: the suffix that starts at the first
occurrence of `c`, or `none` (a null pointer). -/
def strchr : CStr → Char → Option CStr
  | [], _ => none
  | x :: xs, c => if c = x then some (x :: xs) else strchr xs c

/-- The scanning mode: a leading `-` or `+` of the option string selects it, otherwise the
environment variable `POSIXLY_CORRECT` does. -/
def getoptOrdering (posixly_correct : Bool) (optstring : CStr) : GetoptOrdering :=
  if optstring.head? = some '-' then .RETURN_IN_ORDER
  else if optstring.head? = some '+' then .REQUIRE_ORDER
  else if posixly_correct then .REQUIRE_ORDER
  else .PERMUTE

/-- The option string without its leading mode character. -/
def skipOrderingMark (optstring : CStr) : CStr :=
  if optstring.head? = some '-' ∨ optstring.head? = some '+' then optstring.tail else optstring

/-- The test `NONOPTION_P`: an element is a non-option unless it starts with `-` and has a
second character. -/
def isNonoption (s : CStr) : Bool :=
  match s with
  | c :: _ :: _ => c != '-'
  | _ => true

/-- Swap the skipped non-options `[first_nonopt, last_nonopt)` with the options
`[last_nonopt, optind)` that follow them, so that the options come first. -/
def exchange (d : GetoptData) : GetoptData :=
  { d with
    argv := d.argv.take d.first_nonopt ++
      ((d.argv.drop d.last_nonopt).take (d.optind - d.last_nonopt) ++
        ((d.argv.drop d.first_nonopt).take (d.last_nonopt - d.first_nonopt) ++
          d.argv.drop d.optind)),
    first_nonopt := d.first_nonopt + (d.optind - d.last_nonopt),
    last_nonopt := d.optind }

/-- In `PERMUTE` mode, before a new element is fetched: move the options just processed in
front of the non-options skipped before them, then skip the non-options that follow. -/
def permuteStep (d : GetoptData) : GetoptData :=
  let d := if d.first_nonopt ≠ d.last_nonopt ∧ d.last_nonopt ≠ d.optind then exchange d
    else if d.last_nonopt ≠ d.optind then { d with first_nonopt := d.optind }
    else d
  let optind := d.optind + ((d.argv.drop d.optind).takeWhile isNonoption).length
  { d with optind := optind, last_nonopt := optind }

/-- The element `--` ends the options: it is skipped like an option and everything after it is
a non-option. -/
def dashDash (d : GetoptData) : GetoptData :=
  let d := { d with optind := d.optind + 1 }
  let d := if d.first_nonopt ≠ d.last_nonopt ∧ d.last_nonopt ≠ d.optind then exchange d
    else if d.first_nonopt = d.last_nonopt then { d with first_nonopt := d.optind }
    else d
  { d with last_nonopt := d.argv.length, optind := d.argv.length }

/-- The diagnostic of `getopt` for an option character that is not in the option string. -/
def invalidOptionMsg (argv0 : CStr) (c : Char) : CStr :=
  argv0 ++ ": invalid option -- '".toList ++ [c] ++ "'\n".toList

/-- The diagnostic of `getopt` for an option whose required argument is missing. -/
def requiresArgumentMsg (argv0 : CStr) (c : Char) : CStr :=
  argv0 ++ ": option requires an argument -- '".toList ++ [c] ++ "'\n".toList

/-- Handle the next short option character of the cluster in `nextchar`. -/
def getoptShort (optstring : CStr) (print_errors : Bool) (d : GetoptData) : GetoptResult :=
  match d.nextchar with
  | [] => { ret := none, data := d, diag := [] }
  | c :: nc =>
    let d := { d with nextchar := nc }
    let d := if nc = [] then { d with optind := d.optind + 1 } else d
    match strchr optstring c with
    | none =>
      { ret := some '?', data := d,
        diag := if print_errors then [invalidOptionMsg (d.argv.headD []) c] else [] }
    | some temp =>
      if c = ':' ∨ c = ';' then
        { ret := some '?', data := d,
          diag := if print_errors then [invalidOptionMsg (d.argv.headD []) c] else [] }
      else if temp[1]? = some ':' then
        if temp[2]? = some ':' then
          if nc ≠ [] then
            { ret := some c,
              data := { d with optarg := some nc, optind := d.optind + 1, nextchar := [] },
              diag := [] }
          else
            { ret := some c, data := { d with optarg := none, nextchar := [] }, diag := [] }
        else if nc ≠ [] then
          { ret := some c,
            data := { d with optarg := some nc, optind := d.optind + 1, nextchar := [] },
            diag := [] }
        else
          match d.argv.drop d.optind with
          | [] =>
            { ret := some (if optstring.head? = some ':' then ':' else '?'),
              data := { d with nextchar := [] },
              diag := if print_errors then [requiresArgumentMsg (d.argv.headD []) c] else [] }
          | a :: _ =>
            { ret := some c,
              data := { d with optarg := some a, optind := d.optind + 1, nextchar := [] },
              diag := [] }
      else
        { ret := some c, data := d, diag := [] }

/-- The first half of fetching a new element: bring the non-option bounds back behind
`optind`, permute and skip non-options in `PERMUTE` mode, and handle the element `--`. -/
def getoptAdvance (ordering : GetoptOrdering) (d : GetoptData) : GetoptData :=
  let d := { d with
    last_nonopt := min d.last_nonopt d.optind,
    first_nonopt := min d.first_nonopt d.optind }
  let d := if ordering = .PERMUTE then permuteStep d else d
  if (d.argv.drop d.optind).head? = some ['-', '-'] then dashDash d else d

/-- The second half: stop at the end of the vector or (in `REQUIRE_ORDER` mode) at a
non-option, otherwise start scanning the element at `optind` after its initial `-`. -/
def getoptFetch (ordering : GetoptOrdering) (optstring : CStr) (print_errors : Bool)
    (d : GetoptData) : GetoptResult :=
  match d.argv.drop d.optind with
  | [] =>
    { ret := none,
      data := if d.first_nonopt ≠ d.last_nonopt then { d with optind := d.first_nonopt } else d,
      diag := [] }
  | a :: _ =>
    if isNonoption a then
      if ordering = .REQUIRE_ORDER then { ret := none, data := d, diag := [] }
      else
        { ret := some (Char.ofNat 1),
          data := { d with optarg := some a, optind := d.optind + 1 }, diag := [] }
    else getoptShort optstring print_errors { d with nextchar := a.tail }

/-- One call `getopt(argc, argv, optstring)`, with `opterr` at its default of 1.
`posixly_correct` tells whether `POSIXLY_CORRECT` is set in the environment. -/
def getopt (posixly_correct : Bool) (optstring : CStr) (d : GetoptData) : GetoptResult :=
  if d.argv.length < 1 then { ret := none, data := d, diag := [] } else
  let d := { d with optarg := none }
  let ordering := getoptOrdering posixly_correct optstring
  let optstring := skipOrderingMark optstring
  let print_errors : Bool := optstring.head? ≠ some ':'
  if d.nextchar ≠ [] then getoptShort optstring print_errors d
  else getoptFetch ordering optstring print_errors (getoptAdvance ordering d)

/-- An upper bound on the number of `getopt` calls that return an option: every such call
consumes a character or an element of the argument vector. -/
def getoptFuel (argv : List CStr) : Nat :=
  (argv.map (fun s => s.length + 1)).sum + 1

/-! ## `getopt/main.c` -/

namespace GetoptDemo

/-- The option string `"ab:"`. -/
def optstring : CStr := ['a', 'b', ':']

/-- The process as seen from outside: how it ended and what it wrote. -/
structure Proc where
  status : Status
  stdout : List CStr
  stderr : List CStr
  deriving DecidableEq, Repr

/-- The text of `printf("Option -a\n")`. -/
def optionALine : CStr := "Option -a\n".toList

/-- The text of `printf("Option -b with value '%s'\n", optarg)`; a null `optarg` prints as
`(null)`. -/
def optionBLine (optarg : Option CStr) : CStr :=
  "Option -b with value '".toList ++ optarg.getD "(null)".toList ++ "'\n".toList

/-- The text of `fprintf(stderr, "Usage: %s [-a] [-b value]\n", argv[0])`. -/
def usageLine (argv0 : CStr) : CStr :=
  "Usage: ".toList ++ argv0 ++ " [-a] [-b value]\n".toList

/-- The text of `printf("Argument: %s\n", argv[i])`. -/
def argumentLine (arg : CStr) : CStr :=
  "Argument: ".toList ++ arg ++ "\n".toList

/-- The `while ((opt = getopt(argc, argv, "ab:")) != -1)` loop of `main`, followed by the
`for` loop over the remaining arguments.  `none` means the fuel ran out. -/
def main_loop (posixly_correct : Bool) :
    Nat → GetoptData → List CStr → List CStr → Option Proc
  | 0, _, _, _ => none
  | fuel + 1, d, out, err =>
    let r := getopt posixly_correct optstring d
    let err := err ++ r.diag
    match r.ret with
    | none =>
      some { status := .exited 0,
             stdout := out ++ (r.data.argv.drop r.data.optind).map argumentLine,
             stderr := err }
    | some opt =>
      if opt = 'a' then
        main_loop posixly_correct fuel r.data (out ++ [optionALine]) err
      else if opt = 'b' then
        main_loop posixly_correct fuel r.data (out ++ [optionBLine r.data.optarg]) err
      else
        some { status := .exited 1, stdout := out,
               stderr := err ++ [usageLine (r.data.argv.headD [])] }

/-- The program `getopt/main.c` run on the argument vector `argv` (`argv[0]` included). -/
def main (posixly_correct : Bool) (argv : List CStr) : Option Proc :=
  main_loop posixly_correct (getoptFuel argv) (GetoptData.init argv) [] []

end GetoptDemo

/-! ## The C library: `getsubopt` and `atoi` -/

/-- The search loop of `getsubopt`: the index of the first token equal to `name`, counting
from `cnt`. -/
def matchToken (name : CStr) : List CStr → Nat → Option Nat
  | [], _ => none
  | t :: ts, cnt => if name = t then some cnt else matchToken name ts (cnt + 1)

/-- What one call of `getsubopt` produces: the return value (`none` stands for `-1`), the new
`*optionp` and the new `*valuep` (`none` is a null pointer). -/
structure GetsuboptResult where
  ret : Option Nat
  optionp : CStr
  valuep : Option CStr
  deriving DecidableEq, Repr

/-- One call `getsubopt(&optionp, tokens, &valuep)`.  The suboption is the text up to the next
comma, its name the part before the first `=`.  A known name returns its index and the text
after the `=` (null without `=`); an unknown name returns `-1` and the whole suboption. -/
def getsubopt (optionp : CStr) (tokens : List CStr) (valuep : Option CStr) : GetsuboptResult :=
  if optionp = [] then { ret := none, optionp := optionp, valuep := valuep } else
  let subopt := optionp.takeWhile (fun c => c != ',')
  let next := (optionp.dropWhile (fun c => c != ',')).drop 1
  let name := subopt.takeWhile (fun c => c != '=')
  match matchToken name tokens 0 with
  | some cnt =>
    { ret := some cnt, optionp := next,
      valuep := if name.length < subopt.length then some (subopt.drop (name.length + 1))
        else none }
  | none => { ret := none, optionp := next, valuep := some subopt }

/-- The C function `isspace` in the C locale. -/
def isspace (c : Char) : Bool :=
  c = ' ' ∨ c = '\t' ∨ c = '\n' ∨ c = Char.ofNat 11 ∨ c = Char.ofNat 12 ∨ c = '\r'

/-- The C function `isdigit`. -/
def isdigit (c : Char) : Bool :=
  '0'.toNat ≤ c.toNat ∧ c.toNat ≤ '9'.toNat

/-- The value of the leading decimal digits of a string, continuing from `acc`. -/
def digitsValue : CStr → Nat → Nat
  | [], acc => acc
  | c :: cs, acc =>
    if isdigit c then digitsValue cs (10 * acc + (c.toNat - '0'.toNat)) else acc

/-- The largest `long` (64 bits). -/
def LONG_MAX : Int := 2 ^ 63 - 1

/-- The smallest `long` (64 bits). -/
def LONG_MIN : Int := -(2 ^ 63)

/-- The call `strtol(s, NULL, 10)`: white space, an optional sign, decimal digits; a value out
of range is clamped to `LONG_MIN` or `LONG_MAX`. -/
def strtol (s : CStr) : Int :=
  match s.dropWhile isspace with
  | [] => 0
  | c :: cs =>
    if c = '-' then max LONG_MIN (-(digitsValue cs 0 : Int))
    else if c = '+' then min LONG_MAX (digitsValue cs 0 : Int)
    else min LONG_MAX (digitsValue (c :: cs) 0 : Int)

/-- Conversion of a `long` to `int` (32 bits, two's complement). -/
def toInt (x : Int) : Int :=
  (x + 2 ^ 31) % 2 ^ 32 - 2 ^ 31

/-- The C function `atoi`, which the C library defines as `(int) strtol(s, NULL, 10)`. -/
def atoi (s : CStr) : Int :=
  toInt (strtol s)

/-! ## `getsubopt/main.c` -/

namespace GetsuboptDemo

/-- The option string `"at:o:"`. -/
def optstring : CStr := ['a', 't', ':', 'o', ':']

/-- The enumeration constant `RO_OPTION`. -/
def RO_OPTION : Nat := 0

/-- The enumeration constant `RW_OPTION`. -/
def RW_OPTION : Nat := 1

/-- The enumeration constant `READ_SIZE_OPTION`. -/
def READ_SIZE_OPTION : Nat := 2

/-- The enumeration constant `WRITE_SIZE_OPTION`. -/
def WRITE_SIZE_OPTION : Nat := 3

/-- The table `mount_opts`, without its terminating null pointer. -/
def mount_opts : List CStr :=
  [['r', 'o'], ['r', 'w'], ['r', 's', 'i', 'z', 'e'], ['w', 's', 'i', 'z', 'e']]

/-- The program's global variables; `none` is a null `type`. -/
structure Globals where
  do_all : Int
  type : Option CStr
  read_size : Int
  write_size : Int
  read_only : Int
  deriving DecidableEq, Repr

/-- The values the globals have when the program starts (static storage is zeroed). -/
def Globals.init : Globals :=
  { do_all := 0, type := none, read_size := 0, write_size := 0, read_only := 0 }

/-- The process as seen from outside, together with the final values of its globals. -/
structure Proc where
  status : Status
  stdout : List CStr
  stderr : List CStr
  globals : Globals
  deriving DecidableEq, Repr

/-- The text of the `printf` for an unknown suboption; a null `value` prints as `(null)`. -/
def unknownLine (value : Option CStr) : CStr :=
  "Unknown suboption `".toList ++ value.getD "(null)".toList ++ "'\n".toList

/-- How the suboption loop ends: it falls through to the `break` of `case 'o'`, or the
process is aborted. -/
inductive Flow where
  | next (g : Globals) (out : List CStr) (value : Option CStr)
  | abort (g : Globals) (out : List CStr)
  deriving DecidableEq, Repr

/-- The loop `while (*subopts != '\0') switch (getsubopt(&subopts, mount_opts, &value))`.
`none` means the fuel ran out. -/
def subopts_loop : Nat → CStr → Option CStr → Globals → List CStr → Option Flow
  | 0, _, _, _, _ => none
  | fuel + 1, subopts, value, g, out =>
    if subopts = [] then some (.next g out value) else
    let r := getsubopt subopts mount_opts value
    if r.ret = some RO_OPTION then
      subopts_loop fuel r.optionp r.valuep { g with read_only := 1 } out
    else if r.ret = some RW_OPTION then
      subopts_loop fuel r.optionp r.valuep { g with read_only := 0 } out
    else if r.ret = some READ_SIZE_OPTION then
      match r.valuep with
      | none => some (.abort g out)
      | some v => subopts_loop fuel r.optionp r.valuep { g with read_size := atoi v } out
    else if r.ret = some WRITE_SIZE_OPTION then
      match r.valuep with
      | none => some (.abort g out)
      | some v => subopts_loop fuel r.optionp r.valuep { g with write_size := atoi v } out
    else
      subopts_loop fuel r.optionp r.valuep g (out ++ [unknownLine r.valuep])

/-- The loop `while ((opt = getopt(argc, argv, "at:o:")) != -1) switch (opt)` of `main` and the
final `return 0`.  `value` is the local variable of that name.  `none` means that the fuel ran
out, or that `optarg` is null in `case 'o'` (which `getopt` excludes). -/
def main_loop (posixly_correct : Bool) :
    Nat → GetoptData → Option CStr → Globals → List CStr → List CStr → Option Proc
  | 0, _, _, _, _, _ => none
  | fuel + 1, d, value, g, out, err =>
    let r := getopt posixly_correct optstring d
    let err := err ++ r.diag
    match r.ret with
    | none => some { status := .exited 0, stdout := out, stderr := err, globals := g }
    | some opt =>
      if opt = 'a' then
        main_loop posixly_correct fuel r.data value { g with do_all := 1 } out err
      else if opt = 't' then
        main_loop posixly_correct fuel r.data value { g with type := r.data.optarg } out err
      else if opt = 'o' then
        match r.data.optarg with
        | none => none
        | some subopts =>
          match subopts_loop (subopts.length + 1) subopts value g out with
          | none => none
          | some (.abort g out) =>
            some { status := .aborted, stdout := out, stderr := err, globals := g }
          | some (.next g out value) => main_loop posixly_correct fuel r.data value g out err
      else
        some { status := .aborted, stdout := out, stderr := err, globals := g }

/-- The program `getsubopt/main.c` run on the argument vector `argv` (`argv[0]` included).
The local `value` starts uninitialised; it is written before it is read. -/
def main (posixly_correct : Bool) (argv : List CStr) : Option Proc :=
  main_loop posixly_correct (getoptFuel argv) (GetoptData.init argv) none Globals.init [] []

end GetsuboptDemo

/-! ## The C library: `argp_parse` with a null parser -/

namespace Argp

/-- The options of argp's default parser: `--help` (`-?`), `--usage`, and the hidden
`--program-name=NAME` and `--HANG[=SECS]`. -/
inductive Key where
  | help
  | usage
  | program_name
  | hang
  deriving DecidableEq, Repr

/-- The long option names handed to `getopt_long`, in table order. -/
def longOptions : List (CStr × Key) :=
  [(['h', 'e', 'l', 'p'], .help),
   (['u', 's', 'a', 'g', 'e'], .usage),
   (['p', 'r', 'o', 'g', 'r', 'a', 'm', '-', 'n', 'a', 'm', 'e'], .program_name),
   (['H', 'A', 'N', 'G'], .hang)]

/-- How `getopt_long` resolves the name of a long option. -/
inductive LongMatch where
  | found (key : Key)
  | ambiguous
  | notFound
  deriving DecidableEq, Repr

/-- Look a long option name up: an exact match wins, otherwise the name must abbreviate exactly
one option. -/
def lookupLong (nm : CStr) : LongMatch :=
  match longOptions.filter (fun o => o.1 = nm) with
  | o :: _ => .found o.2
  | [] =>
    match longOptions.filter (fun o => o.1.take nm.length = nm) with
    | [] => .notFound
    | [o] => .found o.2
    | _ :: _ :: _ => .ambiguous

/-- What `argp_parse` does: it returns 0 to its caller, or it ends the process itself
after writing to the standard streams. -/
inductive ArgpResult where
  | returned
  | exited (code : Nat) (stdout stderr : List CStr)
  deriving DecidableEq, Repr

/-- The exit status `argp_err_exit_status`, which is `EX_USAGE`. -/
def EX_USAGE : Nat := 64

/-- The part of a path after its last `/`. -/
def basename (s : CStr) : CStr :=
  (s.reverse.takeWhile (fun c => c != '/')).reverse

/-- The hint argp prints after a usage error. -/
def tryLine (name : CStr) : CStr :=
  "Try `".toList ++ name ++ " --help' or `".toList ++ name ++
    " --usage' for more information.\n".toList

/-- The output of `--help` for a parser without options of its own. -/
def helpText (name : CStr) : CStr :=
  "Usage: ".toList ++ name ++ " [OPTION...]\n\n".toList ++
    "  -?, --help                 Give this help list\n".toList ++
    "      --usage                Give a short usage message\n".toList

/-- The output of `--usage` for a parser without options of its own. -/
def usageText (name : CStr) : CStr :=
  "Usage: ".toList ++ name ++ " [-?] [--help] [--usage]\n".toList

/-- A usage error: the message, the hint, and `exit(EX_USAGE)`. -/
def usageError (name : CStr) (msg : CStr) : ArgpResult :=
  .exited EX_USAGE [] [msg, tryLine name]

/-- The error for arguments that no parser accepts. -/
def tooManyArguments (name : CStr) : ArgpResult :=
  usageError name (name ++ ": Too many arguments\n".toList)

/-- The scan of `argp_parse(0, argc, argv, 0, 0, 0)` over the elements after `argv[0]`.
`name` is the program name used in argp's own messages, `skipped` tells whether a non-option
has been passed over (in `PERMUTE` mode options are handled first). -/
def scan (posixly_correct : Bool) (argv0 : CStr) : CStr → Bool → List CStr → ArgpResult
  | name, skipped, [] => if skipped then tooManyArguments name else .returned
  | name, skipped, tok :: rest =>
    if tok = ['-', '-'] then
      if skipped ∨ rest ≠ [] then tooManyArguments name else .returned
    else if isNonoption tok then
      if posixly_correct then tooManyArguments name
      else scan posixly_correct argv0 name true rest
    else if tok.take 2 = ['-', '-'] then
      let body := tok.drop 2
      let nm := body.takeWhile (fun c => c != '=')
      let arg : Option CStr :=
        if nm.length < body.length then some (body.drop (nm.length + 1)) else none
      match lookupLong nm with
      | .found .help =>
        match arg with
        | some _ =>
          usageError name (argv0 ++ ": option '--help' doesn't allow an argument\n".toList)
        | none => .exited 0 [helpText name] []
      | .found .usage =>
        match arg with
        | some _ =>
          usageError name (argv0 ++ ": option '--usage' doesn't allow an argument\n".toList)
        | none => .exited 0 [usageText name] []
      | .found .program_name =>
        match arg with
        | some a => scan posixly_correct argv0 (basename a) skipped rest
        | none =>
          match rest with
          | [] =>
            usageError name
              (argv0 ++ ": option '--program-name' requires an argument\n".toList)
          | a :: rest' => scan posixly_correct argv0 (basename a) skipped rest'
      | .found .hang => scan posixly_correct argv0 name skipped rest
      | .ambiguous =>
        usageError name
          (argv0 ++ ": option '".toList ++ tok ++
            ("' is ambiguous; possibilities: '--help' '--usage' '--program-name' " ++
              "'--HANG'\n").toList)
      | .notFound =>
        usageError name (argv0 ++ ": unrecognized option '".toList ++ tok ++ "'\n".toList)
    else if tok.tail.head? = some '?' then .exited 0 [helpText name] []
    else usageError name (invalidOptionMsg argv0 (tok.tail.headD '-'))

/-- The call `argp_parse(0, argc, argv, 0, 0, 0)`. -/
def argp_parse (posixly_correct : Bool) (argv : List CStr) : ArgpResult :=
  scan posixly_correct (argv.headD []) (basename (argv.headD [])) false argv.tail

end Argp

/-! ## `argp/1_minimal-program-using-argp/main.c` -/

namespace MinimalArgp

/-- The process as seen from outside. -/
structure Proc where
  status : Status
  stdout : List CStr
  stderr : List CStr
  deriving DecidableEq, Repr

/-- The program: `argp_parse(0, argc, argv, 0, 0, 0); exit(0);`. -/
def main (posixly_correct : Bool) (argv : List CStr) : Proc :=
  match Argp.argp_parse posixly_correct argv with
  | .exited code out err => { status := .exited code, stdout := out, stderr := err }
  | .returned => { status := .exited 0, stdout := [], stderr := [] }

end MinimalArgp

/-! ## The vocabulary of the statements

The command lines the claims speak of (options, flags and suboptions as they are written), the
effect the specification expects of them, and the auxiliary notions of the proofs. -/

/-- The state of `getopt` between two elements. -/
def scanAt (pre rest : List CStr) (oa : Option CStr) (f : Nat) : GetoptData :=
  { argv := pre ++ rest, optind := pre.length, optarg := oa, nextchar := [],
    first_nonopt := f, last_nonopt := f }

/-- An option string that starts with none of the mode characters. -/
def PlainOptstring (os : CStr) : Prop :=
  os.head? ≠ some '-' ∧ os.head? ≠ some '+' ∧ os.head? ≠ some ':'

/-- The scanning mode of a plain option string. -/
def plainOrdering (pc : Bool) : GetoptOrdering :=
  if pc then .REQUIRE_ORDER else .PERMUTE

/-- An element that `getopt` scans as a cluster of options. -/
def IsOptionElement (tok : CStr) : Prop :=
  isNonoption tok = false ∧ tok ≠ ['-', '-']

namespace GetoptDemo

/-- A recognised option as it is written on the command line: `-a`, or `-b V`. -/
inductive Opt where
  | a
  | b (value : CStr)
  deriving DecidableEq, Repr

/-- The elements of the argument vector that spell an option. -/
def Opt.args : Opt → List CStr
  | .a => [['-', 'a']]
  | .b v => [['-', 'b'], v]

/-- The line the program is expected to print for an option. -/
def Opt.line : Opt → CStr
  | .a => "Option -a\n".toList
  | .b v => "Option -b with value '".toList ++ v ++ "'\n".toList

/-- The elements that spell a list of options, in order. -/
def optArgs : List Opt → List CStr
  | [] => []
  | o :: os => o.args ++ optArgs os

end GetoptDemo

/-- What `getsubopt` reports for the suboption `subopt` when `next` is what follows it. -/
def suboptResult (subopt : CStr) (tokens : List CStr) (next : CStr) : GetsuboptResult :=
  match matchToken (subopt.takeWhile (fun c => c != '=')) tokens 0 with
  | some cnt =>
    { ret := some cnt, optionp := next,
      valuep :=
        if (subopt.takeWhile (fun c => c != '=')).length < subopt.length then
          some (subopt.drop ((subopt.takeWhile (fun c => c != '=')).length + 1))
        else none }
  | none => { ret := none, optionp := next, valuep := some subopt }

namespace GetsuboptDemo

/-- A suboption as it is written in the value of `-o`: one of the four known ones, or a text
whose name is not in `mount_opts`. -/
inductive Sub where
  | ro
  | rw
  | rsize (value : CStr)
  | wsize (value : CStr)
  | unknown (text : CStr)
  deriving DecidableEq, Repr

/-- The text of a suboption. -/
def Sub.text : Sub → CStr
  | .ro => ['r', 'o']
  | .rw => ['r', 'w']
  | .rsize v => ['r', 's', 'i', 'z', 'e', '='] ++ v
  | .wsize v => ['w', 's', 'i', 'z', 'e', '='] ++ v
  | .unknown t => t

/-- A suboption is well formed when its text has no comma and, for an unknown one, is not
empty and its name (the text before the first `=`) is not in `mount_opts`. -/
def Sub.WF : Sub → Prop
  | .ro => True
  | .rw => True
  | .rsize v => ',' ∉ v
  | .wsize v => ',' ∉ v
  | .unknown t => ',' ∉ t ∧ t ≠ [] ∧ t.takeWhile (fun c => c != '=') ∉ mount_opts

instance (s : Sub) : Decidable s.WF := by
  cases s <;> simp only [Sub.WF] <;> infer_instance

/-- The effect of a suboption on the globals, as the specification describes it. -/
def Sub.apply (g : Globals) : Sub → Globals
  | .ro => { g with read_only := 1 }
  | .rw => { g with read_only := 0 }
  | .rsize v => { g with read_size := atoi v }
  | .wsize v => { g with write_size := atoi v }
  | .unknown _ => g

/-- The lines a suboption makes the program print. -/
def Sub.output : Sub → List CStr
  | .unknown t => [unknownLine (some t)]
  | _ => []

/-- The lines a list of suboptions makes the program print. -/
def subsOutput : List Sub → List CStr
  | [] => []
  | s :: ss => s.output ++ subsOutput ss

/-- The texts joined by commas: the value of `-o`. -/
def joinComma : List CStr → CStr
  | [] => []
  | [t] => t
  | t :: u :: ts => t ++ ',' :: joinComma (u :: ts)

/-- The texts, each followed by a comma. -/
def commaTerminated : List CStr → CStr
  | [] => []
  | t :: ts => t ++ ',' :: commaTerminated ts

/-- The globals after a list of suboptions. -/
def applySubs (g : Globals) : List Sub → Globals
  | [] => g
  | s :: ss => applySubs (s.apply g) ss

end GetsuboptDemo

/-- The decimal numeral of an integer, with a leading `-` when it is negative. -/
def decimal (n : Int) : CStr :=
  if n < 0 then '-' :: Nat.toDigits 10 n.natAbs else Nat.toDigits 10 n.toNat

/-- The least value of an `int` (32 bits). -/
def INT_MIN : Int := -(2 ^ 31)

/-- The largest value of an `int` (32 bits). -/
def INT_MAX : Int := 2 ^ 31 - 1

/-- Whether a string starts, after the white space `atoi` skips and an optional sign, with no
decimal digit: then it has no leading integer. -/
def noLeadingInteger (v : CStr) : Bool :=
  match v.dropWhile isspace with
  | [] => true
  | c :: cs =>
    if c = '-' ∨ c = '+' then
      match cs with
      | [] => true
      | d :: _ => !isdigit d
    else !isdigit c

namespace GetsuboptDemo

/-- A recognised flag as it is written on the command line: `-a`, `-t V`, or `-o` followed by
a comma-separated list of suboptions. -/
inductive Flag where
  | a
  | t (value : CStr)
  | o (subs : List Sub)
  deriving DecidableEq, Repr

/-- The elements of the argument vector that spell a flag. -/
def Flag.args : Flag → List CStr
  | .a => [['-', 'a']]
  | .t v => [['-', 't'], v]
  | .o subs => [['-', 'o'], joinComma (subs.map Sub.text)]

/-- A flag is well formed when its suboptions are. -/
def Flag.WF : Flag → Prop
  | .o subs => ∀ s ∈ subs, s.WF
  | _ => True

instance (fl : Flag) : Decidable fl.WF := by
  cases fl <;> simp only [Flag.WF] <;> infer_instance

/-- The effect of a flag on the globals, as the specification describes it. -/
def Flag.apply (g : Globals) : Flag → Globals
  | .a => { g with do_all := 1 }
  | .t v => { g with type := some v }
  | .o subs => applySubs g subs

/-- The lines a flag makes the program print. -/
def Flag.output : Flag → List CStr
  | .o subs => subsOutput subs
  | _ => []

/-- The elements that spell a list of flags, in order. -/
def flagArgs : List Flag → List CStr
  | [] => []
  | fl :: fls => fl.args ++ flagArgs fls

/-- The globals after a list of flags. -/
def applyFlags (g : Globals) : List Flag → Globals
  | [] => g
  | fl :: fls => applyFlags (fl.apply g) fls

/-- The lines a list of flags makes the program print. -/
def flagsOutput : List Flag → List CStr
  | [] => []
  | fl :: fls => fl.output ++ flagsOutput fls

end GetsuboptDemo

namespace Argp

/-- A usage error of argp: exit status 64, nothing on `stdout`, a message on `stderr`. -/
def IsUsageError (r : ArgpResult) : Prop :=
  ∃ err, r = .exited EX_USAGE [] err ∧ err ≠ []

/-- No help, usage or program-name option: no element starts with `-?`, `--h`, `--u`
or `--p`. -/
def NoHelpOption (args : List CStr) : Prop :=
  ∀ x ∈ args, x.take 2 ≠ ['-', '?'] ∧ x.take 3 ≠ ['-', '-', 'h'] ∧ x.take 3 ≠ ['-', '-', 'u'] ∧
    x.take 3 ≠ ['-', '-', 'p']

end Argp

/-- The last value a list of occurrences gives to a variable: `tgt` tells which value, if
any, an occurrence assigns. -/
def lastAssigned {α β : Type} (tgt : α → Option β) (l : List α) : Option β :=
  (l.filterMap tgt).getLast?

namespace GetsuboptDemo

/-- An assignment to one of the program's globals; `type` is a pointer and may be given
null. -/
inductive Assign where
  | do_all (v : Int)
  | type (v : Option CStr)
  | read_size (v : Int)
  | write_size (v : Int)
  | read_only (v : Int)
  deriving DecidableEq, Repr

/-- Carrying an assignment out. -/
def Assign.perform (g : Globals) : Assign → Globals
  | .do_all v => { g with do_all := v }
  | .type v => { g with type := v }
  | .read_size v => { g with read_size := v }
  | .write_size v => { g with write_size := v }
  | .read_only v => { g with read_only := v }

/-- The assignment a suboption occurrence stands for, if any. -/
def Sub.assigns : Sub → List Assign
  | .ro => [.read_only 1]
  | .rw => [.read_only 0]
  | .rsize v => [.read_size (atoi v)]
  | .wsize v => [.write_size (atoi v)]
  | .unknown _ => []

/-- The assignments a flag occurrence stands for, in order. -/
def Flag.assigns : Flag → List Assign
  | .a => [.do_all 1]
  | .t v => [.type (some v)]
  | .o subs => subs.flatMap Sub.assigns

/-- The assignments of a command line, in command-line order. -/
def assignments (flags : List Flag) : List Assign :=
  flags.flatMap Flag.assigns

/-- The value an assignment gives to `do_all`, if it targets it. -/
def Assign.toDoAll : Assign → Option Int
  | .do_all v => some v
  | _ => none

/-- The value an assignment gives to `type`, if it targets it. -/
def Assign.toType : Assign → Option (Option CStr)
  | .type v => some v
  | _ => none

/-- The value an assignment gives to `read_size`, if it targets it. -/
def Assign.toReadSize : Assign → Option Int
  | .read_size v => some v
  | _ => none

/-- The value an assignment gives to `write_size`, if it targets it. -/
def Assign.toWriteSize : Assign → Option Int
  | .write_size v => some v
  | _ => none

/-- The value an assignment gives to `read_only`, if it targets it. -/
def Assign.toReadOnly : Assign → Option Int
  | .read_only v => some v
  | _ => none

end GetsuboptDemo

/-- The option characters that successive calls of `getopt` return, from the state `d` on,
until a call returns `-1` (or the fuel runs out). -/
def getoptReturns (posixly_correct : Bool) (optstring : CStr) : Nat → GetoptData → List Char
  | 0, _ => []
  | fuel + 1, d =>
    match (getopt posixly_correct optstring d).ret with
    | none => []
    | some c => c :: getoptReturns posixly_correct optstring fuel
        (getopt posixly_correct optstring d).data

/-- What `getopt` keeps true of its state: `argv[0]` stays in place, and `optind` and the start
of the skipped non-options stay behind it. -/
def GetoptInv (argv0 : CStr) (d : GetoptData) : Prop :=
  d.argv.head? = some argv0 ∧ 1 ≤ d.first_nonopt ∧ 1 ≤ d.optind

/-- The size of the elements of `argv` from index `k` on: one more than its length for each. -/
def remaining (argv : List CStr) (k : Nat) : Nat :=
  ((argv.drop k).map (fun s => s.length + 1)).sum

/-- What is left for `getopt` to scan: the rest of the current cluster and the elements after
it, or the elements from `optind` on. -/
def getoptMeasure (d : GetoptData) : Nat :=
  if d.nextchar = [] then remaining d.argv d.optind
  else d.nextchar.length + remaining d.argv (d.optind + 1)

/-- The bounds of the skipped non-options are ordered and lie within the argument vector, and
a cluster being scanned belongs to an element of the vector. -/
def GetoptBounds (d : GetoptData) : Prop :=
  d.first_nonopt ≤ d.last_nonopt ∧ d.last_nonopt ≤ d.optind ∧ d.optind ≤ d.argv.length ∧
    (d.nextchar ≠ [] → d.optind < d.argv.length)

namespace GetsuboptDemo

/-- The assignments that the suboptions of a value of `-o` stand for, as `getsubopt` reports
them one after the other: `ro` and `rw` assign `read_only`, `rsize` and `wsize` with a value
assign `read_size` and `write_size`, anything else assigns nothing. -/
def suboptAssigns : Nat → CStr → List Assign
  | 0, _ => []
  | fuel + 1, s =>
    if s = [] then [] else
    let r := getsubopt s mount_opts none
    (if r.ret = some RO_OPTION then [Assign.read_only 1]
     else if r.ret = some RW_OPTION then [Assign.read_only 0]
     else if r.ret = some READ_SIZE_OPTION then
       (match r.valuep with
        | some v => [Assign.read_size (atoi v)]
        | none => [])
     else if r.ret = some WRITE_SIZE_OPTION then
       (match r.valuep with
        | some v => [Assign.write_size (atoi v)]
        | none => [])
     else []) ++ suboptAssigns fuel r.optionp

/-- The assignments that the flags of a command line stand for, as `getopt` reports them one
after the other from the state `d` on: `a` assigns `do_all`, `t` assigns `type`, `o` stands
for the assignments of its suboptions. -/
def flagAssigns (posixly_correct : Bool) : Nat → GetoptData → List Assign
  | 0, _ => []
  | fuel + 1, d =>
    let r := getopt posixly_correct optstring d
    match r.ret with
    | none => []
    | some c =>
      (if c = 'a' then [Assign.do_all 1]
       else if c = 't' then [Assign.type r.data.optarg]
       else if c = 'o' then
         (match r.data.optarg with
          | some s => suboptAssigns (s.length + 1) s
          | none => [])
       else []) ++ flagAssigns posixly_correct fuel r.data

/-- The occurrences of a command line: the assignments its flags and suboptions stand for, in
the order in which `getopt` and `getsubopt` report them. -/
def occurrences (posixly_correct : Bool) (argv : List CStr) : List Assign :=
  flagAssigns posixly_correct (getoptFuel argv) (GetoptData.init argv)

/-- Last occurrence wins: each global has the value given by the last assignment of the list
that targets it, and its initial value (0, or null for `type`) when none does. -/
def LastWins (g : Globals) (l : List Assign) : Prop :=
  g.do_all = (lastAssigned Assign.toDoAll l).getD 0 ∧
  g.type = (lastAssigned Assign.toType l).getD none ∧
  g.read_size = (lastAssigned Assign.toReadSize l).getD 0 ∧
  g.write_size = (lastAssigned Assign.toWriteSize l).getD 0 ∧
  g.read_only = (lastAssigned Assign.toReadOnly l).getD 0

instance (g : Globals) (l : List Assign) : Decidable (LastWins g l) := by
  unfold LastWins
  infer_instance

end GetsuboptDemo

/-- The tokens of a comma-separated list, in order: the texts between the commas; what follows
the last comma is a token only when it is not empty. -/
def splitComma : CStr → List CStr
  | [] => []
  | c :: cs =>
    if c = ',' then [] :: splitComma cs
    else
      match splitComma cs with
      | [] => [[c]]
      | t :: ts => (c :: t) :: ts

/-- The name of a token: the text before its first `=`. -/
def tokenName (t : CStr) : CStr :=
  t.takeWhile (fun c => c != '=')

/-- The value of a token: the text after its first `=`; a token without `=` has none. -/
def tokenValue : CStr → Option CStr
  | [] => none
  | c :: cs => if c = '=' then some cs else tokenValue cs

namespace GetsuboptDemo

/-- Whether the name of a token is none of `ro`, `rw`, `rsize`, `wsize`. -/
def unknownToken (t : CStr) : Bool :=
  tokenName t ≠ ['r', 'o'] ∧ tokenName t ≠ ['r', 'w'] ∧ tokenName t ≠ ['r', 's', 'i', 'z', 'e'] ∧
    tokenName t ≠ ['w', 's', 'i', 'z', 'e']

/-- Whether a token is `rsize` or `wsize` without a value. -/
def valuelessSize (t : CStr) : Bool :=
  t = ['r', 's', 'i', 'z', 'e'] ∨ t = ['w', 's', 'i', 'z', 'e']

/-- The assignment a token of the `-o` list stands for: `ro` and `rw` set `read_only` to 1 and
to 0, `rsize=V` and `wsize=V` set `read_size` and `write_size` to `atoi(V)`; a token of another
name stands for none. -/
def tokenAssigns (t : CStr) : List Assign :=
  if tokenName t = ['r', 'o'] then [.read_only 1]
  else if tokenName t = ['r', 'w'] then [.read_only 0]
  else if tokenName t = ['r', 's', 'i', 'z', 'e'] then
    match tokenValue t with
    | some v => [.read_size (atoi v)]
    | none => []
  else if tokenName t = ['w', 's', 'i', 'z', 'e'] then
    match tokenValue t with
    | some v => [.write_size (atoi v)]
    | none => []
  else []

/-- The line the program is expected to print for a token: the `Unknown suboption` message with
the text of the token when its name is unknown, nothing otherwise. -/
def tokenLine (t : CStr) : Option CStr :=
  if unknownToken t then some ("Unknown suboption `".toList ++ t ++ "'\n".toList) else none

/-- The line the program is expected to print for a suboption: the `Unknown suboption` message
with the text of an unknown one, nothing for a known one. -/
def Sub.expectedLine : Sub → Option CStr
  | .unknown t => some ("Unknown suboption `".toList ++ t ++ "'\n".toList)
  | _ => none

/-- The lines the program is expected to print for a flag: the `Unknown suboption` line of each
unknown suboption of a `-o` list, nothing for `-a` and `-t`. -/
def Flag.expectedLines : Flag → List CStr
  | .o subs => subs.filterMap Sub.expectedLine
  | _ => []

/-- A suboption of the documented form: `ro`, `rw`, `rsize=N` or `wsize=N`, with `N` a decimal
integer. -/
inductive MountOpt where
  | ro
  | rw
  | rsize (n : Int)
  | wsize (n : Int)
  deriving DecidableEq, Repr

/-- The suboption as it is written. -/
def MountOpt.toSub : MountOpt → Sub
  | .ro => .ro
  | .rw => .rw
  | .rsize n => .rsize (decimal n)
  | .wsize n => .wsize (decimal n)

/-- The numbers of the suboption are in the range of `int`. -/
def MountOpt.InRange : MountOpt → Prop
  | .rsize n => INT_MIN ≤ n ∧ n ≤ INT_MAX
  | .wsize n => INT_MIN ≤ n ∧ n ≤ INT_MAX
  | _ => True

instance (m : MountOpt) : Decidable m.InRange := by
  cases m <;> simp only [MountOpt.InRange] <;> infer_instance

/-- The value the suboption gives to `read_only`: 1 for `ro`, 0 for `rw`. -/
def MountOpt.toReadOnly : MountOpt → Option Int
  | .ro => some 1
  | .rw => some 0
  | _ => none

/-- The value the suboption gives to `read_size`: `N` for `rsize=N`. -/
def MountOpt.toReadSize : MountOpt → Option Int
  | .rsize n => some n
  | _ => none

/-- The value the suboption gives to `write_size`: `N` for `wsize=N`. -/
def MountOpt.toWriteSize : MountOpt → Option Int
  | .wsize n => some n
  | _ => none

/-- The suboption `rsize=V` (for `false`) or `wsize=V` (for `true`). -/
def sizeSub (w : Bool) (v : CStr) : Sub :=
  if w then .wsize v else .rsize v

/-- The name `rsize` (for `false`) or `wsize` (for `true`). -/
def sizeName (w : Bool) : CStr :=
  if w then "wsize".toList else "rsize".toList

/-- The global `read_size` (for `false`) or `write_size` (for `true`). -/
def sizeGlobal (w : Bool) (g : Globals) : Int :=
  if w then g.write_size else g.read_size

end GetsuboptDemo

/-! ## Lemmas: the library functions and the loops of the programs -/

theorem getoptOrdering_plain (pc : Bool) (os : CStr) (h : PlainOptstring os) :
    getoptOrdering pc os = plainOrdering pc := by
  obtain ⟨h1, h2, _⟩ := h
  simp [getoptOrdering, plainOrdering, h1, h2]

theorem skipOrderingMark_plain (os : CStr) (h : PlainOptstring os) :
    skipOrderingMark os = os := by
  obtain ⟨h1, h2, _⟩ := h
  simp [skipOrderingMark, h1, h2]

theorem permuteStep_scanAt (pre rest : List CStr) (oa : Option CStr) (f : Nat) :
    permuteStep (scanAt pre rest oa f) =
      { argv := pre ++ rest, optind := pre.length + (rest.takeWhile isNonoption).length,
        optarg := oa, nextchar := [], first_nonopt := pre.length,
        last_nonopt := pre.length + (rest.takeWhile isNonoption).length } := by
  by_cases h : f = pre.length
  · subst h
    simp [permuteStep, scanAt]
  · simp [permuteStep, scanAt, h]

theorem getopt_scanAt (pc : Bool) (os : CStr) (hos : PlainOptstring os)
    (pre rest : List CStr) (oa : Option CStr) (f : Nat) (hpre : pre ≠ []) :
    getopt pc os (scanAt pre rest oa f) =
      getoptFetch (plainOrdering pc) os true
        (getoptAdvance (plainOrdering pc) (scanAt pre rest none f)) := by
  have hlen : 0 < pre.length := List.length_pos.mpr hpre
  have : ¬ (pre.length + rest.length < 1) := by omega
  simp [getopt, scanAt, getoptOrdering_plain _ _ hos, skipOrderingMark_plain _ hos, hos.2.2, this]

theorem getoptAdvance_option (pc : Bool) (pre rest : List CStr) (tok : CStr) (oa : Option CStr)
    (f : Nat) (hf : f ≤ pre.length) (htok : IsOptionElement tok) :
    ∃ f', f' ≤ pre.length ∧
      getoptAdvance (plainOrdering pc) (scanAt pre (tok :: rest) oa f) =
        scanAt pre (tok :: rest) oa f' := by
  obtain ⟨h1, h2⟩ := htok
  cases pc
  · refine ⟨pre.length, le_refl _, ?_⟩
    have hp := permuteStep_scanAt pre (tok :: rest) oa f
    simp only [scanAt] at hp
    simp [getoptAdvance, plainOrdering, scanAt, hf, hp, h1, h2]
  · refine ⟨f, hf, ?_⟩
    simp [getoptAdvance, plainOrdering, scanAt, hf, h2]

theorem getoptFetch_option (ord : GetoptOrdering) (os : CStr) (pe : Bool)
    (pre rest : List CStr) (tok : CStr) (oa : Option CStr) (f : Nat)
    (htok : isNonoption tok = false) :
    getoptFetch ord os pe (scanAt pre (tok :: rest) oa f) =
      getoptShort os pe { scanAt pre (tok :: rest) oa f with nextchar := tok.tail } := by
  simp [getoptFetch, scanAt, htok]

theorem takeWhile_isNonoption (pos : List CStr) (hpos : ∀ p ∈ pos, p.head? ≠ some '-') :
    pos.takeWhile isNonoption = pos := by
  rw [List.takeWhile_eq_self_iff]
  intro p hp
  have := hpos p hp
  match p, this with
  | [], _ => rfl
  | [c], h => rfl
  | c :: _ :: _, h => simpa [isNonoption] using h

theorem getopt_end (pc : Bool) (os : CStr) (hos : PlainOptstring os)
    (pre pos : List CStr) (oa : Option CStr) (f : Nat) (hpre : pre ≠ []) (hf : f ≤ pre.length)
    (hpos : ∀ p ∈ pos, p.head? ≠ some '-') :
    ∃ d, getopt pc os (scanAt pre pos oa f) = { ret := none, data := d, diag := [] } ∧
      d.argv = pre ++ pos ∧ d.argv.drop d.optind = pos := by
  rw [getopt_scanAt pc os hos pre pos oa f hpre]
  have hdd : pos.head? ≠ some ['-', '-'] := by
    cases pos with
    | nil => simp
    | cons p ps =>
      have := hpos p (List.mem_cons_self _ _)
      intro h
      simp at h
      subst h
      simp at this
  cases pc
  · have hp := permuteStep_scanAt pre pos none f
    simp only [scanAt] at hp
    simp only [getoptAdvance, plainOrdering, scanAt, Nat.min_eq_left hf]
    simp [hp, takeWhile_isNonoption pos hpos, getoptFetch]
    cases pos with
    | nil => simp
    | cons p ps => simp
  · simp only [getoptAdvance, plainOrdering, scanAt, Nat.min_eq_left hf]
    have hnon : ∀ p ∈ pos, isNonoption p = true := by
      intro p hp
      have h := List.takeWhile_eq_self_iff.mp (takeWhile_isNonoption pos hpos)
      exact h p hp
    cases pos with
    | nil => simp [getoptFetch]
    | cons p ps =>
      have := hnon p (List.mem_cons_self _ _)
      have hp2 : p ≠ ['-', '-'] := by simpa using hdd
      simp [getoptFetch, hp2, this]

theorem strchr_head (os : CStr) (c : Char) (temp : CStr) (h : strchr os c = some temp) :
    temp.head? = some c := by
  induction os with
  | nil => simp [strchr] at h
  | cons x xs ih =>
    by_cases hx : c = x
    · simp [strchr, hx] at h
      subst h
      simp [hx]
    · simp [strchr, hx] at h
      exact ih h

/-- A single flag that takes no argument, written as an element of its own. -/
theorem getopt_flag (pc : Bool) (os : CStr) (hos : PlainOptstring os)
    (pre rest : List CStr) (oa : Option CStr) (f : Nat) (c : Char) (temp : CStr)
    (hpre : pre ≠ []) (hf : f ≤ pre.length)
    (hc : strchr os c = some temp) (hcd : c ≠ '-') (hc1 : c ≠ ':') (hc2 : c ≠ ';')
    (hnoarg : temp[1]? ≠ some ':') :
    ∃ f', f' ≤ (pre ++ [['-', c]]).length ∧
      getopt pc os (scanAt pre (['-', c] :: rest) oa f) =
        { ret := some c, data := scanAt (pre ++ [['-', c]]) rest none f', diag := [] } := by
  rw [getopt_scanAt pc os hos pre _ oa f hpre]
  have htok : IsOptionElement ['-', c] := by
    constructor
    · simp [isNonoption]
    · simp [hcd]
  obtain ⟨f', hf', hadv⟩ := getoptAdvance_option pc pre rest ['-', c] none f hf htok
  rw [hadv, getoptFetch_option _ _ _ _ _ _ _ _ htok.1]
  refine ⟨f', by simp; omega, ?_⟩
  simp [getoptShort, scanAt, hc, hc1, hc2, hnoarg]

/-- A flag that requires an argument, the argument being the next element. -/
theorem getopt_flag_arg (pc : Bool) (os : CStr) (hos : PlainOptstring os)
    (pre rest : List CStr) (oa : Option CStr) (f : Nat) (c : Char) (temp v : CStr)
    (hpre : pre ≠ []) (hf : f ≤ pre.length)
    (hc : strchr os c = some temp) (hcd : c ≠ '-') (hc1 : c ≠ ':') (hc2 : c ≠ ';')
    (harg : temp[1]? = some ':') (hopt : temp[2]? ≠ some ':') :
    ∃ f', f' ≤ (pre ++ [['-', c], v]).length ∧
      getopt pc os (scanAt pre (['-', c] :: v :: rest) oa f) =
        { ret := some c, data := scanAt (pre ++ [['-', c], v]) rest (some v) f', diag := [] } := by
  rw [getopt_scanAt pc os hos pre _ oa f hpre]
  have htok : IsOptionElement ['-', c] := by
    constructor
    · simp [isNonoption]
    · simp [hcd]
  obtain ⟨f', hf', hadv⟩ := getoptAdvance_option pc pre (v :: rest) ['-', c] none f hf htok
  rw [hadv, getoptFetch_option _ _ _ _ _ _ _ _ htok.1]
  refine ⟨f', by simp; omega, ?_⟩
  simp [getoptShort, scanAt, hc, hc1, hc2, harg, hopt]

/-- An element whose first option character is not a valid option. -/
theorem getopt_invalid (pc : Bool) (os : CStr) (hos : PlainOptstring os)
    (pre rest : List CStr) (oa : Option CStr) (f : Nat) (c : Char) (tl : CStr)
    (hpre : pre ≠ []) (hf : f ≤ pre.length)
    (hc : strchr os c = none ∨ c = ':' ∨ c = ';') (hdd : ¬ (c = '-' ∧ tl = [])) :
    ∃ d, getopt pc os (scanAt pre (('-' :: c :: tl) :: rest) oa f) =
        { ret := some '?', data := d, diag := [invalidOptionMsg (pre.headD []) c] } ∧
      d.argv = pre ++ ('-' :: c :: tl) :: rest := by
  rw [getopt_scanAt pc os hos pre _ oa f hpre]
  have htok : IsOptionElement ('-' :: c :: tl) := by
    constructor
    · simp [isNonoption]
    · simpa using hdd
  obtain ⟨f', hf', hadv⟩ := getoptAdvance_option pc pre rest _ none f hf htok
  rw [hadv, getoptFetch_option _ _ _ _ _ _ _ _ htok.1]
  obtain ⟨p, ps, rfl⟩ := List.exists_cons_of_ne_nil hpre
  cases hs : strchr os c with
  | none =>
    by_cases htl : tl = [] <;> simp [getoptShort, scanAt, hs, htl]
  | some temp =>
    have hc' : c = ':' ∨ c = ';' := by
      rcases hc with h | h
      · rw [hs] at h; cases h
      · exact h
    by_cases htl : tl = [] <;> simp [getoptShort, scanAt, hs, htl, hc']

namespace GetoptDemo

theorem optstring_ab_plain : PlainOptstring optstring := by
  simp [PlainOptstring, optstring]

theorem main_loop_opts (pc : Bool) (opts : List Opt) :
    ∀ (pre rest : List CStr) (oa : Option CStr) (f n : Nat) (out err : List CStr),
      pre ≠ [] → f ≤ pre.length →
      ∃ oa' f', f' ≤ (pre ++ optArgs opts).length ∧
        main_loop pc (n + opts.length) (scanAt pre (optArgs opts ++ rest) oa f) out err =
          main_loop pc n (scanAt (pre ++ optArgs opts) rest oa' f')
            (out ++ opts.map Opt.line) err := by
  induction opts with
  | nil =>
    intro pre rest oa f n out err _ hf
    exact ⟨oa, f, by simpa [optArgs] using hf, by simp [optArgs]⟩
  | cons o os ih =>
    intro pre rest oa f n out err hpre hf
    cases o with
    | a =>
      obtain ⟨f1, hf1, hg⟩ := getopt_flag pc optstring optstring_ab_plain pre (optArgs os ++ rest) oa f
        'a' ['a', 'b', ':'] hpre hf (by simp [optstring, strchr]) (by decide) (by decide)
        (by decide) (by decide)
      obtain ⟨oa', f', hf', hl⟩ := ih (pre ++ [['-', 'a']]) rest none f1 n
        (out ++ [optionALine]) err (by simp) hf1
      refine ⟨oa', f', by simpa [optArgs, Opt.args] using hf', ?_⟩
      have hn : n + (Opt.a :: os).length = (n + os.length) + 1 := by simp; omega
      rw [hn]
      simp only [main_loop, optArgs, Opt.args, List.cons_append, List.nil_append, hg,
        List.append_nil, if_true]
      rw [hl]
      simp [Opt.line, optionALine]
    | b v =>
      obtain ⟨f1, hf1, hg⟩ := getopt_flag_arg pc optstring optstring_ab_plain pre
        (optArgs os ++ rest) oa f 'b' ['b', ':'] v hpre hf (by simp [optstring, strchr])
        (by decide) (by decide) (by decide) (by decide) (by decide)
      obtain ⟨oa', f', hf', hl⟩ := ih (pre ++ [['-', 'b'], v]) rest (some v) f1 n
        (out ++ [optionBLine (some v)]) err (by simp) hf1
      refine ⟨oa', f', by simpa [optArgs, Opt.args] using hf', ?_⟩
      have hn : n + (Opt.b v :: os).length = (n + os.length) + 1 := by simp; omega
      rw [hn]
      have hba : ('b' : Char) ≠ 'a' := by decide
      simp only [main_loop, optArgs, Opt.args, List.cons_append, List.nil_append, hg,
        List.append_nil, if_true, hba, if_false]
      rw [show (scanAt (pre ++ [['-', 'b'], v]) (optArgs os ++ rest) (some v) f1).optarg = some v
        from rfl, hl]
      simp [Opt.line, optionBLine]

theorem length_le_sum (l : List CStr) : l.length ≤ (l.map (fun s => s.length + 1)).sum := by
  induction l with
  | nil => simp
  | cons x xs ih => simp; omega

theorem length_le_optArgs (opts : List Opt) : opts.length ≤ (optArgs opts).length := by
  induction opts with
  | nil => simp
  | cons o os ih => cases o <;> simp [optArgs, Opt.args] <;> omega

theorem opts_fuel_enough (prog : CStr) (opts : List Opt) (rest : List CStr) :
    ∃ m, getoptFuel (prog :: (optArgs opts ++ rest)) = (m + 1) + opts.length := by
  have h1 := length_le_sum (prog :: (optArgs opts ++ rest))
  have h2 := length_le_optArgs opts
  refine ⟨getoptFuel (prog :: (optArgs opts ++ rest)) - 1 - opts.length, ?_⟩
  simp only [getoptFuel] at *
  simp only [List.length_cons, List.length_append] at h1
  omega

theorem main_success (pc : Bool) (prog : CStr) (opts : List Opt) (pos : List CStr)
    (hpos : ∀ p ∈ pos, p.head? ≠ some '-') :
    main pc (prog :: (optArgs opts ++ pos)) =
      some { status := .exited 0,
             stdout := opts.map Opt.line ++ pos.map argumentLine,
             stderr := [] } := by
  obtain ⟨m, hm⟩ := opts_fuel_enough prog opts pos
  have hinit : GetoptData.init (prog :: (optArgs opts ++ pos)) =
      scanAt [prog] (optArgs opts ++ pos) none 1 := rfl
  obtain ⟨oa', f', hf', hl⟩ := main_loop_opts pc opts [prog] pos none 1 (m + 1) [] []
    (by simp) (by simp)
  rw [main, hm, hinit, hl]
  obtain ⟨d, hg, _, hd⟩ := getopt_end pc optstring optstring_ab_plain ([prog] ++ optArgs opts) pos
    oa' f' (by simp) hf' hpos
  simp only [main_loop, hg]
  simp [hd]

theorem main_invalid (pc : Bool) (prog : CStr) (opts : List Opt) (c : Char) (tl : CStr)
    (rest : List CStr) (ha : c ≠ 'a') (hb : c ≠ 'b') (hdd : ¬ (c = '-' ∧ tl = [])) :
    main pc (prog :: (optArgs opts ++ ('-' :: c :: tl) :: rest)) =
      some { status := .exited 1,
             stdout := opts.map Opt.line,
             stderr := [invalidOptionMsg prog c, usageLine prog] } := by
  obtain ⟨m, hm⟩ := opts_fuel_enough prog opts (('-' :: c :: tl) :: rest)
  have hinit : GetoptData.init (prog :: (optArgs opts ++ ('-' :: c :: tl) :: rest)) =
      scanAt [prog] (optArgs opts ++ ('-' :: c :: tl) :: rest) none 1 := rfl
  obtain ⟨oa', f', hf', hl⟩ := main_loop_opts pc opts [prog] (('-' :: c :: tl) :: rest) none 1
    (m + 1) [] [] (by simp) (by simp)
  rw [main, hm, hinit, hl]
  have hc : strchr optstring c = none ∨ c = ':' ∨ c = ';' := by
    by_cases h : c = ':'
    · exact Or.inr (Or.inl h)
    · left; simp [optstring, strchr, ha, hb, h]
  obtain ⟨d, hg, hd⟩ := getopt_invalid pc optstring optstring_ab_plain ([prog] ++ optArgs opts) rest
    oa' f' c tl (by simp) hf' hc hdd
  have hq1 : ('?' : Char) ≠ 'a' := by decide
  have hq2 : ('?' : Char) ≠ 'b' := by decide
  simp only [main_loop, hg]
  simp [hd, hq1, hq2]

end GetoptDemo

theorem takeWhile_ne_append (sep : Char) (tok rest : CStr) (h : sep ∉ tok) :
    (tok ++ sep :: rest).takeWhile (fun c => c != sep) = tok := by
  induction tok with
  | nil => simp
  | cons x xs ih =>
    have hx : x ≠ sep := fun e => h (by simp [e])
    have hxs : sep ∉ xs := fun e => h (by simp [e])
    have hb : (x != sep) = true := by simpa using hx
    simp [List.takeWhile, hb, ih hxs]

theorem dropWhile_ne_append (sep : Char) (tok rest : CStr) (h : sep ∉ tok) :
    (tok ++ sep :: rest).dropWhile (fun c => c != sep) = sep :: rest := by
  induction tok with
  | nil => simp
  | cons x xs ih =>
    have hx : x ≠ sep := fun e => h (by simp [e])
    have hxs : sep ∉ xs := fun e => h (by simp [e])
    have hb : (x != sep) = true := by simpa using hx
    simp [List.dropWhile, hb, ih hxs]

theorem takeWhile_ne_self (sep : Char) (tok : CStr) (h : sep ∉ tok) :
    tok.takeWhile (fun c => c != sep) = tok := by
  rw [List.takeWhile_eq_self_iff]
  intro c hc
  have : c ≠ sep := fun e => h (e ▸ hc)
  simpa using this

theorem dropWhile_ne_self (sep : Char) (tok : CStr) (h : sep ∉ tok) :
    tok.dropWhile (fun c => c != sep) = [] := by
  rw [List.dropWhile_eq_nil_iff]
  intro c hc
  have : c ≠ sep := fun e => h (e ▸ hc)
  simpa using this

theorem getsubopt_middle (subopt rest : CStr) (tokens : List CStr) (v : Option CStr)
    (h : ',' ∉ subopt) :
    getsubopt (subopt ++ ',' :: rest) tokens v = suboptResult subopt tokens rest := by
  simp only [getsubopt, suboptResult, takeWhile_ne_append ',' subopt rest h,
    dropWhile_ne_append ',' subopt rest h]
  cases matchToken (subopt.takeWhile (fun c => c != '=')) tokens 0 <;> simp

theorem getsubopt_last (subopt : CStr) (tokens : List CStr) (v : Option CStr)
    (h : ',' ∉ subopt) (hne : subopt ≠ []) :
    getsubopt subopt tokens v = suboptResult subopt tokens [] := by
  simp only [getsubopt, suboptResult, takeWhile_ne_self ',' subopt h,
    dropWhile_ne_self ',' subopt h]
  cases matchToken (subopt.takeWhile (fun c => c != '=')) tokens 0 <;> simp [hne]

namespace GetsuboptDemo

theorem Sub.text_ne_nil (s : Sub) (h : s.WF) : s.text ≠ [] := by
  cases s <;> simp [Sub.text]
  exact h.2.1

theorem Sub.comma_not_mem (s : Sub) (h : s.WF) : ',' ∉ s.text := by
  cases s <;> simp [Sub.text, Sub.WF] at h ⊢
  · exact h
  · exact h
  · exact h.1

theorem matchToken_none (name : CStr) (tokens : List CStr) (n : Nat) (h : name ∉ tokens) :
    matchToken name tokens n = none := by
  induction tokens generalizing n with
  | nil => rfl
  | cons t ts ih =>
    have h1 : name ≠ t := fun e => h (by simp [e])
    have h2 : name ∉ ts := fun e => h (by simp [e])
    simp [matchToken, h1, ih _ h2]

theorem takeWhile_eq_known (name v : CStr) (h : '=' ∉ name) :
    (name ++ '=' :: v).takeWhile (fun c => c != '=') = name :=
  takeWhile_ne_append '=' name v h

/-- One round of the suboption loop on a well-formed suboption. -/
theorem subopts_step (s : Sub) (h : s.WF) (next : CStr) (n : Nat) (v : Option CStr)
    (g : Globals) (out : List CStr)
    (hr : ∀ v', getsubopt (s.text ++ next) mount_opts v' = suboptResult s.text mount_opts
      (next.drop 1)) :
    ∃ v', subopts_loop (n + 1) (s.text ++ next) v g out =
      subopts_loop n (next.drop 1) v' (s.apply g) (out ++ s.output) := by
  have hne : s.text ++ next ≠ [] := by
    simp [Sub.text_ne_nil s h]
  cases s with
  | ro =>
    refine ⟨none, ?_⟩
    simp only [subopts_loop, hne, if_false, hr]
    simp [suboptResult, Sub.text, mount_opts, matchToken, RO_OPTION, Sub.apply, Sub.output]
  | rw =>
    refine ⟨none, ?_⟩
    simp only [subopts_loop, hne, if_false, hr]
    simp [suboptResult, Sub.text, mount_opts, matchToken, RO_OPTION, RW_OPTION, Sub.apply,
      Sub.output]
  | rsize val =>
    refine ⟨some val, ?_⟩
    simp only [subopts_loop, hne, if_false, hr]
    simp [suboptResult, Sub.text, mount_opts, matchToken, RO_OPTION, RW_OPTION,
      READ_SIZE_OPTION, Sub.apply, Sub.output]
  | wsize val =>
    refine ⟨some val, ?_⟩
    simp only [subopts_loop, hne, if_false, hr]
    simp [suboptResult, Sub.text, mount_opts, matchToken, RO_OPTION, RW_OPTION,
      READ_SIZE_OPTION, WRITE_SIZE_OPTION, Sub.apply, Sub.output]
  | unknown t =>
    refine ⟨some t, ?_⟩
    simp only [subopts_loop, hne, if_false, hr]
    simp [suboptResult, Sub.text, matchToken_none _ _ 0 h.2.2, Sub.apply, Sub.output]

theorem joinComma_concat (ts : List CStr) (t : CStr) :
    joinComma (ts ++ [t]) = commaTerminated ts ++ t := by
  induction ts with
  | nil => simp [joinComma, commaTerminated]
  | cons x xs ih =>
    cases xs with
    | nil => simp [joinComma, commaTerminated]
    | cons y ys =>
      have ih' : joinComma (y :: (ys ++ [t])) = commaTerminated (y :: ys) ++ t := by
        simpa using ih
      show joinComma (x :: y :: (ys ++ [t])) = _
      rw [joinComma, ih']
      simp [commaTerminated]

theorem subsOutput_append (xs ys : List Sub) :
    subsOutput (xs ++ ys) = subsOutput xs ++ subsOutput ys := by
  induction xs with
  | nil => simp [subsOutput]
  | cons x xs ih => simp [subsOutput, ih]

theorem applySubs_append (g : Globals) (xs ys : List Sub) :
    applySubs g (xs ++ ys) = applySubs (applySubs g xs) ys := by
  induction xs generalizing g with
  | nil => simp [applySubs]
  | cons x xs ih => simp [applySubs, ih]

theorem subopts_loop_mono (n k : Nat) (s : CStr) (v : Option CStr) (g : Globals)
    (out : List CStr) (r : Flow) (h : subopts_loop n s v g out = some r) :
    subopts_loop (n + k) s v g out = some r := by
  induction n generalizing s v g out with
  | zero => simp [subopts_loop] at h
  | succ n ih =>
    have hn : n + 1 + k = (n + k) + 1 := by omega
    rw [hn]
    simp only [subopts_loop] at h ⊢
    by_cases hs : s = []
    · simpa [hs] using h
    · simp only [hs, if_false] at h ⊢
      split_ifs at h ⊢ with h1 h2 h3 h4
      · exact ih _ _ _ _ h
      · exact ih _ _ _ _ h
      · cases hv : (getsubopt s mount_opts v).valuep with
        | none => simpa [hv] using h
        | some val =>
          simp only [hv] at h ⊢
          exact ih _ _ _ _ h
      · cases hv : (getsubopt s mount_opts v).valuep with
        | none => simpa [hv] using h
        | some val =>
          simp only [hv] at h ⊢
          exact ih _ _ _ _ h
      · exact ih _ _ _ _ h

/-- The loop on a run of well-formed suboptions, each followed by a comma. -/
theorem subopts_loop_terminated (subs : List Sub) (hwf : ∀ s ∈ subs, s.WF) :
    ∀ (n : Nat) (x : CStr) (v : Option CStr) (g : Globals) (out : List CStr),
      ∃ v', subopts_loop (n + subs.length) (commaTerminated (subs.map Sub.text) ++ x) v g out =
        subopts_loop n x v' (applySubs g subs) (out ++ subsOutput subs) := by
  induction subs with
  | nil =>
    intro n x v g out
    exact ⟨v, by simp [commaTerminated, applySubs, subsOutput]⟩
  | cons s ss ih =>
    intro n x v g out
    have hs : s.WF := hwf s (List.mem_cons_self _ _)
    have hss : ∀ t ∈ ss, t.WF := fun t ht => hwf t (List.mem_cons_of_mem _ ht)
    obtain ⟨v1, h1⟩ := subopts_step s hs (',' :: (commaTerminated (ss.map Sub.text) ++ x))
      (n + ss.length) v g out
      (fun v' => by
        simpa using getsubopt_middle s.text (commaTerminated (ss.map Sub.text) ++ x) mount_opts v'
          (Sub.comma_not_mem s hs))
    obtain ⟨v2, h2⟩ := ih hss n x v1 (s.apply g) (out ++ s.output)
    refine ⟨v2, ?_⟩
    have hn : n + (s :: ss).length = (n + ss.length) + 1 := by simp; omega
    rw [hn]
    simp only [List.map_cons, commaTerminated, List.append_assoc, List.cons_append] at h1 ⊢
    rw [h1]
    simp only [List.drop_succ_cons, List.drop_zero]
    rw [h2]
    simp [applySubs, subsOutput]

theorem length_le_commaTerminated (ts : List CStr) : ts.length ≤ (commaTerminated ts).length := by
  induction ts with
  | nil => simp [commaTerminated]
  | cons t ts ih => simp [commaTerminated]; omega

/-- The loop on a whole value of `-o` made of well-formed suboptions. -/
theorem subopts_loop_subs (subs : List Sub) (hwf : ∀ s ∈ subs, s.WF) (v : Option CStr)
    (g : Globals) (out : List CStr) :
    ∃ v', subopts_loop ((joinComma (subs.map Sub.text)).length + 1)
        (joinComma (subs.map Sub.text)) v g out =
      some (.next (applySubs g subs) (out ++ subsOutput subs) v') := by
  rcases List.eq_nil_or_concat subs with rfl | ⟨ss, s, hsubs⟩
  · exact ⟨v, by simp [joinComma, subopts_loop, applySubs, subsOutput]⟩
  · rw [List.concat_eq_append] at hsubs
    subst hsubs
    have hs : s.WF := hwf s (by simp)
    have hss : ∀ t ∈ ss, t.WF := fun t ht => hwf t (by simp [ht])
    obtain ⟨v1, h1⟩ := subopts_loop_terminated ss hss 2 s.text v g out
    have hlast : ∀ v' : Option CStr, getsubopt (s.text ++ []) mount_opts v' =
        suboptResult s.text mount_opts (List.drop 1 []) := by
      intro v'
      rw [List.append_nil]
      exact getsubopt_last s.text mount_opts v' (Sub.comma_not_mem s hs) (Sub.text_ne_nil s hs)
    obtain ⟨v2, h2⟩ := subopts_step s hs [] 1 v1 (applySubs g ss) (out ++ subsOutput ss) hlast
    refine ⟨v2, ?_⟩
    have hjoin : joinComma ((ss ++ [s]).map Sub.text) =
        commaTerminated (ss.map Sub.text) ++ s.text := by
      simp [joinComma_concat]
    have hlen : ss.length + 1 ≤ (joinComma ((ss ++ [s]).map Sub.text)).length := by
      rw [hjoin]
      have := length_le_commaTerminated (ss.map Sub.text)
      have hne := Sub.text_ne_nil s hs
      have : 0 < s.text.length := List.length_pos.mpr hne
      simp only [List.length_append, List.length_map] at *
      omega
    obtain ⟨k, hk⟩ := Nat.exists_eq_add_of_le hlen
    have hf : (joinComma ((ss ++ [s]).map Sub.text)).length + 1 = (2 + ss.length) + k := by
      omega
    rw [hf]
    apply subopts_loop_mono
    rw [hjoin, h1]
    simp only [List.append_nil] at h2
    rw [h2]
    simp [subopts_loop, applySubs_append, subsOutput_append, applySubs, subsOutput]

end GetsuboptDemo

theorem isdigit_digitChar (d : Nat) (h : d < 10) :
    isdigit (Nat.digitChar d) = true ∧ (Nat.digitChar d).toNat - '0'.toNat = d := by
  interval_cases d <;> decide

theorem digitsValue_toDigitsCore (fuel : Nat) :
    ∀ (n : Nat) (acc : CStr), n < fuel →
      ∃ k, ∀ a, digitsValue (Nat.toDigitsCore 10 fuel n acc) a =
        digitsValue acc (a * 10 ^ k + n) := by
  induction fuel with
  | zero => intro n acc h; omega
  | succ fuel ih =>
    intro n acc h
    obtain ⟨hd, hv⟩ := isdigit_digitChar (n % 10) (Nat.mod_lt _ (by decide))
    by_cases hn : n / 10 = 0
    · refine ⟨1, fun a => ?_⟩
      have hlt : n < 10 := by omega
      have hmod : n % 10 = n := Nat.mod_eq_of_lt hlt
      simp only [Nat.toDigitsCore, hn, if_true, digitsValue, hd, hv]
      rw [hmod]
      congr 1
      omega
    · have hlt : n / 10 < fuel := by omega
      obtain ⟨k, hk⟩ := ih (n / 10) (Nat.digitChar (n % 10) :: acc) hlt
      refine ⟨k + 1, fun a => ?_⟩
      simp only [Nat.toDigitsCore, hn, if_false]
      rw [hk a]
      simp only [digitsValue, hd, hv, if_true]
      congr 1
      rw [pow_succ]
      have := Nat.div_add_mod n 10
      nlinarith

theorem toDigitsCore_head (fuel : Nat) :
    ∀ (n : Nat) (acc : CStr), (0 < fuel ∨ ∃ c cs, acc = c :: cs ∧ isdigit c = true) →
      ∃ c cs, Nat.toDigitsCore 10 fuel n acc = c :: cs ∧ isdigit c = true := by
  induction fuel with
  | zero =>
    intro n acc h
    rcases h with h | h
    · omega
    · simpa [Nat.toDigitsCore] using h
  | succ fuel ih =>
    intro n acc _
    obtain ⟨hd, _⟩ := isdigit_digitChar (n % 10) (Nat.mod_lt _ (by decide))
    by_cases hn : n / 10 = 0
    · exact ⟨_, acc, by simp [Nat.toDigitsCore, hn], hd⟩
    · simp only [Nat.toDigitsCore, hn, if_false]
      exact ih _ _ (Or.inr ⟨_, acc, rfl, hd⟩)

theorem digitsValue_toDigits (n : Nat) : digitsValue (Nat.toDigits 10 n) 0 = n := by
  obtain ⟨k, hk⟩ := digitsValue_toDigitsCore (n + 1) n [] (by omega)
  rw [Nat.toDigits, hk 0]
  simp [digitsValue]

theorem isdigit_not_special (c : Char) (h : isdigit c = true) :
    isspace c = false ∧ c ≠ '-' ∧ c ≠ '+' := by
  refine ⟨?_, ?_, ?_⟩
  · by_contra hs
    simp only [Bool.not_eq_false, isspace, decide_eq_true_eq] at hs
    rcases hs with rfl | rfl | rfl | rfl | rfl | rfl <;> revert h <;> decide
  · rintro rfl; revert h; decide
  · rintro rfl; revert h; decide

theorem strtol_toDigits (n : Nat) : strtol (Nat.toDigits 10 n) = min LONG_MAX (n : Int) := by
  obtain ⟨c, cs, hc, hd⟩ := toDigitsCore_head (n + 1) n [] (Or.inl (by omega))
  have hv := digitsValue_toDigits n
  rw [Nat.toDigits] at hv ⊢
  rw [hc] at hv ⊢
  obtain ⟨h1, h2, h3⟩ := isdigit_not_special c hd
  simp [strtol, List.dropWhile, h1, h2, h3, hv]

theorem strtol_neg_toDigits (n : Nat) :
    strtol ('-' :: Nat.toDigits 10 n) = max LONG_MIN (-(n : Int)) := by
  have h1 : isspace '-' = false := by decide
  simp [strtol, List.dropWhile, h1, digitsValue_toDigits]

/-- On the decimal numeral of a value in the range of `int`, `atoi` gives the value back. -/
theorem atoi_decimal (n : Int) (h1 : INT_MIN ≤ n) (h2 : n ≤ INT_MAX) : atoi (decimal n) = n := by
  simp only [INT_MIN, INT_MAX] at h1 h2
  by_cases hn : n < 0
  · simp only [atoi, decimal, hn, if_true, strtol_neg_toDigits, toInt, LONG_MIN]
    have : ((n.natAbs : Nat) : Int) = -n := by omega
    rw [this]
    omega
  · simp only [atoi, decimal, hn, if_false, strtol_toDigits, toInt, LONG_MAX]
    have : ((n.toNat : Nat) : Int) = n := by omega
    rw [this]
    omega

theorem digitsValue_no_digit (cs : CStr) (a : Nat)
    (h : (match cs with
      | [] => true
      | d :: _ => !isdigit d) = true) :
    digitsValue cs a = a := by
  cases cs with
  | nil => rfl
  | cons c cs =>
    have hc : isdigit c = false := by simpa using h
    simp [digitsValue, hc]

theorem atoi_noLeadingInteger (v : CStr) (h : noLeadingInteger v = true) : atoi v = 0 := by
  unfold noLeadingInteger at h
  unfold atoi strtol
  cases hv : v.dropWhile isspace with
  | nil => simp [toInt]
  | cons c cs =>
    rw [hv] at h
    simp only at h ⊢
    by_cases hm : c = '-'
    · have := digitsValue_no_digit cs 0 (by simpa [hm] using h)
      simp [hm, this, LONG_MIN, toInt]
    · by_cases hp : c = '+'
      · have := digitsValue_no_digit cs 0 (by simpa [hp] using h)
        simp [hp, this, LONG_MAX, toInt]
      · have hc : isdigit c = false := by simpa [hm, hp] using h
        simp [hm, hp, digitsValue, hc, LONG_MAX, toInt]

namespace GetsuboptDemo

theorem optstring_ato_plain : PlainOptstring optstring := by
  simp [PlainOptstring, optstring]

theorem main_loop_flags (pc : Bool) (flags : List Flag) (hwf : ∀ fl ∈ flags, fl.WF) :
    ∀ (pre rest : List CStr) (oa : Option CStr) (f n : Nat) (v : Option CStr) (g : Globals)
      (out err : List CStr), pre ≠ [] → f ≤ pre.length →
      ∃ oa' f' v', f' ≤ (pre ++ flagArgs flags).length ∧
        main_loop pc (n + flags.length) (scanAt pre (flagArgs flags ++ rest) oa f) v g out err =
          main_loop pc n (scanAt (pre ++ flagArgs flags) rest oa' f') v' (applyFlags g flags)
            (out ++ flagsOutput flags) err := by
  induction flags with
  | nil =>
    intro pre rest oa f n v g out err _ hf
    exact ⟨oa, f, v, by simpa [flagArgs] using hf, by simp [flagArgs, applyFlags, flagsOutput]⟩
  | cons fl fls ih =>
    intro pre rest oa f n v g out err hpre hf
    have hfls : ∀ x ∈ fls, x.WF := fun x hx => hwf x (List.mem_cons_of_mem _ hx)
    have hn : n + (fl :: fls).length = (n + fls.length) + 1 := by simp; omega
    have hta : ('t' : Char) ≠ 'a' := by decide
    have hoa : ('o' : Char) ≠ 'a' := by decide
    have hot : ('o' : Char) ≠ 't' := by decide
    cases fl with
    | a =>
      obtain ⟨f1, hf1, hg⟩ := getopt_flag pc optstring optstring_ato_plain pre (flagArgs fls ++ rest)
        oa f 'a' ['a', 't', ':', 'o', ':'] hpre hf (by simp [optstring, strchr]) (by decide)
        (by decide) (by decide) (by decide)
      obtain ⟨oa', f', v', hf', hl⟩ := ih hfls (pre ++ [['-', 'a']]) rest none f1 n v
        { g with do_all := 1 } out err (by simp) hf1
      refine ⟨oa', f', v', by simpa [flagArgs, Flag.args] using hf', ?_⟩
      rw [hn]
      simp only [main_loop, flagArgs, Flag.args, List.cons_append, List.nil_append, hg,
        List.append_nil, if_true]
      rw [hl]
      simp [applyFlags, Flag.apply, flagsOutput, Flag.output]
    | t val =>
      obtain ⟨f1, hf1, hg⟩ := getopt_flag_arg pc optstring optstring_ato_plain pre
        (flagArgs fls ++ rest) oa f 't' ['t', ':', 'o', ':'] val hpre hf
        (by simp [optstring, strchr]) (by decide) (by decide) (by decide) (by decide)
        (by decide)
      obtain ⟨oa', f', v', hf', hl⟩ := ih hfls (pre ++ [['-', 't'], val]) rest (some val) f1 n v
        { g with type := some val } out err (by simp) hf1
      refine ⟨oa', f', v', by simpa [flagArgs, Flag.args] using hf', ?_⟩
      rw [hn]
      simp only [main_loop, flagArgs, Flag.args, List.cons_append, List.nil_append, hg,
        List.append_nil, if_true, hta, if_false]
      rw [show (scanAt (pre ++ [['-', 't'], val]) (flagArgs fls ++ rest) (some val) f1).optarg =
        some val from rfl, hl]
      simp [applyFlags, Flag.apply, flagsOutput, Flag.output]
    | o subs =>
      have hsubs : ∀ s ∈ subs, s.WF := hwf (.o subs) (List.mem_cons_self _ _)
      obtain ⟨f1, hf1, hg⟩ := getopt_flag_arg pc optstring optstring_ato_plain pre
        (flagArgs fls ++ rest) oa f 'o' ['o', ':'] (joinComma (subs.map Sub.text)) hpre hf
        (by simp [optstring, strchr]) (by decide) (by decide) (by decide) (by decide)
        (by decide)
      obtain ⟨v1, hsl⟩ := subopts_loop_subs subs hsubs v g out
      obtain ⟨oa', f', v', hf', hl⟩ := ih hfls (pre ++ [['-', 'o'], joinComma (subs.map Sub.text)])
        rest (some (joinComma (subs.map Sub.text))) f1 n v1 (applySubs g subs)
        (out ++ subsOutput subs) err (by simp) hf1
      refine ⟨oa', f', v', by simpa [flagArgs, Flag.args] using hf', ?_⟩
      rw [hn]
      simp only [main_loop, flagArgs, Flag.args, List.cons_append, List.nil_append, hg,
        List.append_nil, if_true, hoa, hot, if_false]
      rw [show (scanAt (pre ++ [['-', 'o'], joinComma (subs.map Sub.text)]) (flagArgs fls ++ rest)
        (some (joinComma (subs.map Sub.text))) f1).optarg =
        some (joinComma (subs.map Sub.text)) from rfl]
      simp only [hsl]
      rw [hl]
      simp [applyFlags, Flag.apply, flagsOutput, Flag.output]

theorem length_le_flagArgs (flags : List Flag) : flags.length ≤ (flagArgs flags).length := by
  induction flags with
  | nil => simp
  | cons o os ih => cases o <;> simp [flagArgs, Flag.args] <;> omega

theorem flags_fuel_enough (prog : CStr) (flags : List Flag) (rest : List CStr) :
    ∃ m, getoptFuel (prog :: (flagArgs flags ++ rest)) = (m + 1) + flags.length := by
  have h1 := GetoptDemo.length_le_sum (prog :: (flagArgs flags ++ rest))
  have h2 := length_le_flagArgs flags
  refine ⟨getoptFuel (prog :: (flagArgs flags ++ rest)) - 1 - flags.length, ?_⟩
  simp only [getoptFuel] at *
  simp only [List.length_cons, List.length_append] at h1
  omega

/-- Well-formed flags followed by positional arguments: the run ends with `return 0`. -/
theorem main_flags (pc : Bool) (prog : CStr) (flags : List Flag) (pos : List CStr)
    (hwf : ∀ fl ∈ flags, fl.WF) (hpos : ∀ p ∈ pos, p.head? ≠ some '-') :
    main pc (prog :: (flagArgs flags ++ pos)) =
      some { status := .exited 0, stdout := flagsOutput flags, stderr := [],
             globals := applyFlags Globals.init flags } := by
  obtain ⟨m, hm⟩ := flags_fuel_enough prog flags pos
  have hinit : GetoptData.init (prog :: (flagArgs flags ++ pos)) =
      scanAt [prog] (flagArgs flags ++ pos) none 1 := rfl
  obtain ⟨oa', f', v', hf', hl⟩ := main_loop_flags pc flags hwf [prog] pos none 1 (m + 1) none
    Globals.init [] [] (by simp) (by simp)
  rw [main, hm, hinit, hl]
  obtain ⟨d, hg, _, hd⟩ := getopt_end pc optstring optstring_ato_plain ([prog] ++ flagArgs flags) pos
    oa' f' (by simp) hf' hpos
  simp only [main_loop, hg]
  simp

/-- Well-formed flags followed by an element whose first option character is none of `a`, `t`,
`o`: the run ends in `abort()`. -/
theorem main_flags_invalid (pc : Bool) (prog : CStr) (flags : List Flag) (c : Char) (tl : CStr)
    (rest : List CStr) (hwf : ∀ fl ∈ flags, fl.WF)
    (ha : c ≠ 'a') (ht : c ≠ 't') (ho : c ≠ 'o') (hdd : ¬ (c = '-' ∧ tl = [])) :
    main pc (prog :: (flagArgs flags ++ ('-' :: c :: tl) :: rest)) =
      some { status := .aborted, stdout := flagsOutput flags,
             stderr := [invalidOptionMsg prog c],
             globals := applyFlags Globals.init flags } := by
  obtain ⟨m, hm⟩ := flags_fuel_enough prog flags (('-' :: c :: tl) :: rest)
  have hinit : GetoptData.init (prog :: (flagArgs flags ++ ('-' :: c :: tl) :: rest)) =
      scanAt [prog] (flagArgs flags ++ ('-' :: c :: tl) :: rest) none 1 := rfl
  obtain ⟨oa', f', v', hf', hl⟩ := main_loop_flags pc flags hwf [prog] (('-' :: c :: tl) :: rest)
    none 1 (m + 1) none Globals.init [] [] (by simp) (by simp)
  rw [main, hm, hinit, hl]
  have hc : strchr optstring c = none ∨ c = ':' ∨ c = ';' := by
    by_cases h : c = ':'
    · exact Or.inr (Or.inl h)
    · left; simp [optstring, strchr, ha, ht, ho, h]
  obtain ⟨d, hg, hd⟩ := getopt_invalid pc optstring optstring_ato_plain ([prog] ++ flagArgs flags)
    rest oa' f' c tl (by simp) hf' hc hdd
  have hq1 : ('?' : Char) ≠ 'a' := by decide
  have hq2 : ('?' : Char) ≠ 't' := by decide
  have hq3 : ('?' : Char) ≠ 'o' := by decide
  simp only [main_loop, hg]
  simp [hq1, hq2, hq3]

end GetsuboptDemo

namespace Argp

theorem usageError_isUsageError (name msg : CStr) : IsUsageError (usageError name msg) :=
  ⟨_, rfl, by simp⟩

theorem tooManyArguments_isUsageError (name : CStr) : IsUsageError (tooManyArguments name) :=
  usageError_isUsageError _ _

theorem head?_of_take_eq (name nm : CStr) (hne : nm ≠ []) (h : name.take nm.length = nm) :
    nm.head? = name.head? := by
  cases nm with
  | nil => exact absurd rfl hne
  | cons c cs =>
    cases name with
    | nil => simp at h
    | cons d ds =>
      simp only [List.length_cons, List.take_succ_cons, List.cons.injEq] at h
      simp [h.1]

/-- A long option name that resolves to an option starts like that option's name. -/
theorem lookupLong_found (nm : CStr) (k : Key) (h : lookupLong nm = .found k) :
    ∃ name, (name, k) ∈ longOptions ∧ name.head? = nm.head? := by
  unfold lookupLong at h
  split at h
  next o os heq =>
    have hmem : o ∈ longOptions.filter (fun o => o.1 = nm) := by rw [heq]; simp
    rw [List.mem_filter] at hmem
    obtain ⟨hm, hp⟩ := hmem
    simp only [LongMatch.found.injEq] at h
    refine ⟨o.1, ?_, ?_⟩
    · rw [← h]; exact hm
    · simp only [decide_eq_true_eq] at hp
      rw [hp]
  next heq =>
    split at h
    · cases h
    next o heq2 =>
      have hmem : o ∈ longOptions.filter (fun o => o.1.take nm.length = nm) := by
        rw [heq2]; simp
      rw [List.mem_filter] at hmem
      obtain ⟨hm, hp⟩ := hmem
      simp only [LongMatch.found.injEq] at h
      simp only [decide_eq_true_eq] at hp
      have hne : nm ≠ [] := by
        rintro rfl
        simp [longOptions] at heq2
      refine ⟨o.1, ?_, (head?_of_take_eq _ _ hne hp).symm⟩
      rw [← h]; exact hm
    · cases h

theorem lookupLong_help (nm : CStr) (h : lookupLong nm = .found .help) :
    nm.head? = some 'h' := by
  obtain ⟨name, hm, hh⟩ := lookupLong_found nm _ h
  simp [longOptions] at hm
  rw [← hh, hm]
  rfl

theorem lookupLong_usage (nm : CStr) (h : lookupLong nm = .found .usage) :
    nm.head? = some 'u' := by
  obtain ⟨name, hm, hh⟩ := lookupLong_found nm _ h
  simp [longOptions] at hm
  rw [← hh, hm]
  rfl

theorem lookupLong_program_name (nm : CStr) (h : lookupLong nm = .found .program_name) :
    nm.head? = some 'p' := by
  obtain ⟨name, hm, hh⟩ := lookupLong_found nm _ h
  simp [longOptions] at hm
  rw [← hh, hm]
  rfl

/-- The third character of a long option is the first character of its name. -/
theorem take_three (tok : CStr) (c : Char) (h2 : tok.take 2 = ['-', '-'])
    (hc : ((tok.drop 2).takeWhile (fun c => c != '=')).head? = some c) :
    tok.take 3 = ['-', '-', c] := by
  match tok, h2, hc with
  | [_], h2, _ => simp at h2
  | [_, _], _, hc => simp at hc
  | a :: b :: d :: tl, h2, hc =>
    simp only [List.take_succ_cons, List.take_zero, List.cons.injEq, and_true] at h2
    obtain ⟨rfl, rfl⟩ := h2
    simp only [List.drop_succ_cons, List.drop_zero, List.takeWhile] at hc
    by_cases hd : (d != '=') = true
    · simp [hd] at hc
      simp [hc]
    · simp [hd] at hc

theorem scan_usageError (pc : Bool) (argv0 : CStr) (args : List CStr) :
    ∀ (name : CStr) (skipped : Bool), NoHelpOption args →
      (skipped = true ∨ ∃ x ∈ args, x.head? ≠ some '-') →
      IsUsageError (scan pc argv0 name skipped args) := by
  induction args with
  | nil =>
    intro name skipped _ hpos
    rcases hpos with h | ⟨x, hx, _⟩
    · simp [scan, h, tooManyArguments_isUsageError]
    · simp at hx
  | cons tok rest ih =>
    intro name skipped hno hpos
    have hrest : NoHelpOption rest := fun x hx => hno x (List.mem_cons_of_mem _ hx)
    obtain ⟨t1, t2, t3, t4⟩ := hno tok (List.mem_cons_self _ _)
    unfold scan
    by_cases hdd : tok = ['-', '-']
    · have : skipped = true ∨ rest ≠ [] := by
        rcases hpos with h | ⟨x, hx, hxh⟩
        · exact Or.inl h
        · right
          rcases List.mem_cons.mp hx with rfl | hx'
          · rw [hdd] at hxh; simp at hxh
          · exact List.ne_nil_of_mem hx'
      simp only [hdd, if_true, this, tooManyArguments_isUsageError]
    · simp only [hdd, if_false]
      by_cases hnon : isNonoption tok = true
      · simp only [hnon, if_true]
        cases pc
        · simp only [Bool.false_eq_true, if_false]
          exact ih name true hrest (Or.inl rfl)
        · simp only [if_true]
          exact tooManyArguments_isUsageError _
      · have hstart : tok.head? = some '-' := by
          match tok, hnon with
          | [], h => simp [isNonoption] at h
          | [_], h => simp [isNonoption] at h
          | c :: _ :: _, h => simpa [isNonoption] using h
        have hpos' : skipped = true ∨ ∃ x ∈ rest, x.head? ≠ some '-' := by
          rcases hpos with h | ⟨x, hx, hxh⟩
          · exact Or.inl h
          · right
            rcases List.mem_cons.mp hx with rfl | hx'
            · exact absurd hstart hxh
            · exact ⟨x, hx', hxh⟩
        simp only [hnon, Bool.false_eq_true, if_false]
        by_cases hlong : tok.take 2 = ['-', '-']
        · simp only [hlong, if_true]
          cases hl : lookupLong ((tok.drop 2).takeWhile (fun c => c != '=')) with
          | found k =>
            cases k with
            | help => exact absurd (take_three tok 'h' hlong (lookupLong_help _ hl)) t2
            | usage => exact absurd (take_three tok 'u' hlong (lookupLong_usage _ hl)) t3
            | program_name =>
              exact absurd (take_three tok 'p' hlong (lookupLong_program_name _ hl)) t4
            | hang => exact ih name skipped hrest hpos'
          | ambiguous => exact usageError_isUsageError _ _
          | notFound => exact usageError_isUsageError _ _
        · simp only [hlong, if_false]
          have hq : tok.tail.head? ≠ some '?' := by
            match tok, hstart, t1 with
            | [_], _, _ => simp
            | a :: b :: tl, hs, t1 =>
              simp only [List.head?_cons, Option.some.injEq] at hs
              subst hs
              intro hb
              simp only [List.tail_cons, List.head?_cons, Option.some.injEq] at hb
              subst hb
              simp at t1
          simp only [hq, if_false]
          exact usageError_isUsageError _ _

end Argp

theorem foldl_lastAssigned {σ α β : Type} (step : σ → α → σ) (proj : σ → β)
    (tgt : α → Option β) (l : List α) :
    ∀ (s : σ), (∀ a ∈ l, ∀ s, proj (step s a) = (tgt a).getD (proj s)) →
      proj (l.foldl step s) = (lastAssigned tgt l).getD (proj s) := by
  induction l with
  | nil => intro s _; simp [lastAssigned]
  | cons a l ih =>
    intro s h
    have ha := h a (List.mem_cons_self _ _) s
    have hl : ∀ b ∈ l, ∀ s, proj (step s b) = (tgt b).getD (proj s) :=
      fun b hb => h b (List.mem_cons_of_mem _ hb)
    rw [List.foldl_cons, ih (step s a) hl, ha]
    unfold lastAssigned
    cases hta : tgt a with
    | none => simp [List.filterMap_cons, hta]
    | some b =>
      simp only [List.filterMap_cons, hta, Option.getD_some]
      rw [List.getLast?_cons]
      simp

namespace GetoptDemo

/-- A line of the option loop never starts like an `Argument:` line. -/
theorem main_loop_no_argument (pc : Bool) (n : Nat) :
    ∀ (d : GetoptData) (out err : List CStr) (p : Proc),
      (∀ l ∈ out, l.take 10 ≠ "Argument: ".toList) →
      main_loop pc n d out err = some p → p.status = .exited 1 →
      ∀ l ∈ p.stdout, l.take 10 ≠ "Argument: ".toList := by
  induction n with
  | zero => intro d out err p _ h; simp [main_loop] at h
  | succ n ih =>
    intro d out err p hout h hs
    simp only [main_loop] at h
    split at h
    · simp only [Option.some.injEq] at h
      subst h
      simp at hs
    · split_ifs at h
      · refine ih _ _ _ p ?_ h hs
        intro l hl
        rcases List.mem_append.mp hl with hl | hl
        · exact hout l hl
        · simp only [List.mem_singleton] at hl
          subst hl
          decide
      · refine ih _ _ _ p ?_ h hs
        intro l hl
        rcases List.mem_append.mp hl with hl | hl
        · exact hout l hl
        · simp only [List.mem_singleton] at hl
          subst hl
          simp [optionBLine]
      · simp only [Option.some.injEq] at h
        subst h
        exact hout

end GetoptDemo

theorem toDigitsCore_mem (fuel : Nat) :
    ∀ (n : Nat) (acc : CStr) (c : Char), c ∈ Nat.toDigitsCore 10 fuel n acc →
      c ∈ acc ∨ isdigit c = true := by
  induction fuel with
  | zero => intro n acc c h; exact Or.inl (by simpa [Nat.toDigitsCore] using h)
  | succ fuel ih =>
    intro n acc c h
    obtain ⟨hd, _⟩ := isdigit_digitChar (n % 10) (Nat.mod_lt _ (by decide))
    by_cases hn : n / 10 = 0
    · simp only [Nat.toDigitsCore, hn, if_true, List.mem_cons] at h
      rcases h with rfl | h
      · exact Or.inr hd
      · exact Or.inl h
    · simp only [Nat.toDigitsCore, hn, if_false] at h
      rcases ih _ _ _ h with h | h
      · rcases List.mem_cons.mp h with rfl | h
        · exact Or.inr hd
        · exact Or.inl h
      · exact Or.inr h

theorem comma_not_mem_decimal (n : Int) : ',' ∉ decimal n := by
  have hd : ∀ m : Nat, ',' ∉ Nat.toDigits 10 m := by
    intro m h
    rcases toDigitsCore_mem _ _ _ _ h with h | h
    · simp at h
    · revert h; decide
  unfold decimal
  split_ifs
  · simp only [List.mem_cons, not_or]
    exact ⟨by decide, hd _⟩
  · exact hd _

namespace GetsuboptDemo

/-- A bare `rsize` or `wsize`, at the end of the list or before a comma, aborts. -/
theorem subopts_loop_abort (k post : CStr)
    (hk : k = ['r', 's', 'i', 'z', 'e'] ∨ k = ['w', 's', 'i', 'z', 'e'])
    (hpost : post = [] ∨ post.head? = some ',') (n : Nat) (v : Option CStr) (g : Globals)
    (out : List CStr) :
    subopts_loop (n + 1) (k ++ post) v g out = some (.abort g out) := by
  have hcomma : ',' ∉ k := by rcases hk with rfl | rfl <;> decide
  have hne : k ≠ [] := by rcases hk with rfl | rfl <;> decide
  have hr : ∃ next, getsubopt (k ++ post) mount_opts v = suboptResult k mount_opts next := by
    rcases hpost with rfl | hp
    · exact ⟨[], by simpa using getsubopt_last k mount_opts v hcomma hne⟩
    · cases post with
      | nil => simp at hp
      | cons c cs =>
        simp only [List.head?_cons, Option.some.injEq] at hp
        subst hp
        exact ⟨cs, getsubopt_middle k cs mount_opts v hcomma⟩
  obtain ⟨next, hr⟩ := hr
  have hne' : k ++ post ≠ [] := by simp [hne]
  simp only [subopts_loop, hne', if_false, hr]
  rcases hk with rfl | rfl <;>
    simp [suboptResult, mount_opts, matchToken, RO_OPTION, RW_OPTION, READ_SIZE_OPTION,
      WRITE_SIZE_OPTION]

theorem applySubs_eq_foldl (g : Globals) (subs : List Sub) :
    applySubs g subs = subs.foldl Sub.apply g := by
  induction subs generalizing g with
  | nil => rfl
  | cons s ss ih => simp [applySubs, ih]

theorem applyFlags_eq_foldl (g : Globals) (flags : List Flag) :
    applyFlags g flags = flags.foldl Flag.apply g := by
  induction flags generalizing g with
  | nil => rfl
  | cons s ss ih => simp [applyFlags, ih]

theorem applyFlags_append (g : Globals) (xs ys : List Flag) :
    applyFlags g (xs ++ ys) = applyFlags (applyFlags g xs) ys := by
  simp [applyFlags_eq_foldl]

theorem flagsOutput_append (xs ys : List Flag) :
    flagsOutput (xs ++ ys) = flagsOutput xs ++ flagsOutput ys := by
  induction xs with
  | nil => simp [flagsOutput]
  | cons x xs ih => simp [flagsOutput, ih]

theorem flagArgs_append (xs ys : List Flag) :
    flagArgs (xs ++ ys) = flagArgs xs ++ flagArgs ys := by
  induction xs with
  | nil => simp [flagArgs]
  | cons x xs ih => simp [flagArgs, ih]

/-- Well-formed flags, then `-o` with a list in which a bare `rsize` or `wsize` follows
well-formed suboptions: the run ends in `abort()` at that suboption. -/
theorem main_flags_abort (pc : Bool) (prog : CStr) (flags : List Flag) (subs : List Sub)
    (k post : CStr) (rest : List CStr) (hwf : ∀ fl ∈ flags, fl.WF) (hsubs : ∀ s ∈ subs, s.WF)
    (hk : k = ['r', 's', 'i', 'z', 'e'] ∨ k = ['w', 's', 'i', 'z', 'e'])
    (hpost : post = [] ∨ post.head? = some ',') :
    main pc (prog :: (flagArgs flags ++
        ['-', 'o'] :: (commaTerminated (subs.map Sub.text) ++ (k ++ post)) :: rest)) =
      some { status := .aborted, stdout := flagsOutput flags ++ subsOutput subs, stderr := [],
             globals := applySubs (applyFlags Globals.init flags) subs } := by
  obtain ⟨m, hm⟩ := flags_fuel_enough prog flags
    (['-', 'o'] :: (commaTerminated (subs.map Sub.text) ++ (k ++ post)) :: rest)
  have hinit : GetoptData.init (prog :: (flagArgs flags ++
      ['-', 'o'] :: (commaTerminated (subs.map Sub.text) ++ (k ++ post)) :: rest)) =
      scanAt [prog] (flagArgs flags ++
        ['-', 'o'] :: (commaTerminated (subs.map Sub.text) ++ (k ++ post)) :: rest) none 1 := rfl
  obtain ⟨oa', f', v', hf', hl⟩ := main_loop_flags pc flags hwf [prog]
    (['-', 'o'] :: (commaTerminated (subs.map Sub.text) ++ (k ++ post)) :: rest)
    none 1 (m + 1) none Globals.init [] [] (by simp) (by simp)
  rw [main, hm, hinit, hl]
  obtain ⟨f1, _, hg⟩ := getopt_flag_arg pc optstring optstring_ato_plain ([prog] ++ flagArgs flags)
    rest oa' f' 'o' ['o', ':'] (commaTerminated (subs.map Sub.text) ++ (k ++ post)) (by simp) hf'
    (by simp [optstring, strchr]) (by decide) (by decide) (by decide) (by decide) (by decide)
  have hoa : ('o' : Char) ≠ 'a' := by decide
  have hot : ('o' : Char) ≠ 't' := by decide
  obtain ⟨v1, h1⟩ := subopts_loop_terminated subs hsubs 1 (k ++ post) v'
    (applyFlags Globals.init flags) ([] ++ flagsOutput flags)
  have h2 := subopts_loop_abort k post hk hpost 0 v1
    (applySubs (applyFlags Globals.init flags) subs) ([] ++ flagsOutput flags ++ subsOutput subs)
  have hlen : 1 + subs.length ≤
      (commaTerminated (subs.map Sub.text) ++ (k ++ post)).length + 1 := by
    have := length_le_commaTerminated (subs.map Sub.text)
    simp only [List.length_append, List.length_map] at *
    omega
  obtain ⟨e, he⟩ := Nat.exists_eq_add_of_le hlen
  have h3 := subopts_loop_mono (1 + subs.length) e _ v' (applyFlags Globals.init flags)
    ([] ++ flagsOutput flags) _ (h1.trans h2)
  rw [← he] at h3
  simp only [main_loop, hg, hoa, hot, if_false, if_true]
  rw [show (scanAt ([prog] ++ flagArgs flags ++
      [['-', 'o'], commaTerminated (subs.map Sub.text) ++ (k ++ post)]) rest
      (some (commaTerminated (subs.map Sub.text) ++ (k ++ post))) f1).optarg =
      some (commaTerminated (subs.map Sub.text) ++ (k ++ post)) from rfl]
  simp only [h3]
  simp

theorem applySubs_assigns (g : Globals) (subs : List Sub) :
    applySubs g subs = (subs.flatMap Sub.assigns).foldl Assign.perform g := by
  induction subs generalizing g with
  | nil => rfl
  | cons s ss ih =>
    cases s <;>
      simp [applySubs, ih, List.flatMap_cons, Sub.assigns, Sub.apply, Assign.perform]

theorem applyFlags_assignments (g : Globals) (flags : List Flag) :
    applyFlags g flags = (assignments flags).foldl Assign.perform g := by
  induction flags generalizing g with
  | nil => rfl
  | cons fl fls ih =>
    cases fl <;>
      simp [applyFlags, ih, assignments, List.flatMap_cons, Flag.assigns, Flag.apply,
        Assign.perform, applySubs_assigns]

end GetsuboptDemo

theorem head?_take_append (l rest : List CStr) (n : Nat) (hn : 1 ≤ n) (a : CStr)
    (h : l.head? = some a) : (l.take n ++ rest).head? = some a := by
  cases l with
  | nil => simp at h
  | cons x xs =>
    obtain ⟨m, rfl⟩ := Nat.exists_eq_add_of_le hn
    simp only [List.head?_cons, Option.some.injEq] at h
    subst h
    simp [Nat.add_comm 1 m]

theorem exchange_inv (a : CStr) (d : GetoptData) (h : GetoptInv a d) :
    GetoptInv a (exchange d) := by
  obtain ⟨h1, h2, h3⟩ := h
  refine ⟨?_, ?_, ?_⟩
  · simp only [exchange]
    exact head?_take_append _ _ _ h2 a h1
  · simp only [exchange]; omega
  · simpa [exchange] using h3

theorem permuteStep_inv (a : CStr) (d : GetoptData) (h : GetoptInv a d) :
    GetoptInv a (permuteStep d) := by
  unfold permuteStep
  simp only
  split_ifs with c1 c2
  · obtain ⟨h1, h2, h3⟩ := exchange_inv a d h
    exact ⟨h1, h2, by simp only; omega⟩
  · obtain ⟨h1, h2, h3⟩ := h
    exact ⟨h1, h3, by simp only; omega⟩
  · obtain ⟨h1, h2, h3⟩ := h
    exact ⟨h1, h2, by simp only; omega⟩

theorem length_pos_of_inv (a : CStr) (d : GetoptData) (h : GetoptInv a d) :
    1 ≤ d.argv.length := by
  obtain ⟨h1, _, _⟩ := h
  cases hd : d.argv with
  | nil => rw [hd] at h1; simp at h1
  | cons x xs => simp

theorem dashDash_inv (a : CStr) (d : GetoptData) (h : GetoptInv a d) :
    GetoptInv a (dashDash d) := by
  have hlen := length_pos_of_inv a d h
  obtain ⟨h1, h2, h3⟩ := h
  unfold dashDash
  simp only
  split_ifs with c1 c2
  · have := exchange_inv a { d with optind := d.optind + 1 } ⟨h1, h2, by simp⟩
    obtain ⟨e1, e2, _⟩ := this
    refine ⟨e1, e2, ?_⟩
    have : (exchange { d with optind := d.optind + 1 }).argv.length = d.argv.length ∨ True :=
      Or.inr trivial
    simp only
    cases he : (exchange { d with optind := d.optind + 1 }).argv with
    | nil => rw [he] at e1; simp at e1
    | cons x xs => simp
  · exact ⟨h1, by simp, hlen⟩
  · exact ⟨h1, h2, hlen⟩

theorem clamp_inv (a : CStr) (d : GetoptData) (h : GetoptInv a d) :
    GetoptInv a
      { d with
        last_nonopt := min d.last_nonopt d.optind,
        first_nonopt := min d.first_nonopt d.optind } := by
  obtain ⟨h1, h2, h3⟩ := h
  refine ⟨h1, ?_, h3⟩
  simp only
  omega

theorem getoptAdvance_inv (a : CStr) (ord : GetoptOrdering) (d : GetoptData)
    (h : GetoptInv a d) : GetoptInv a (getoptAdvance ord d) := by
  have h0 := clamp_inv a d h
  unfold getoptAdvance
  simp only
  split_ifs
  · exact dashDash_inv a _ (permuteStep_inv a _ h0)
  · exact permuteStep_inv a _ h0
  · exact dashDash_inv a _ h0
  · exact h0

theorem getoptShort_data (os : CStr) (pe : Bool) (d : GetoptData) :
    (getoptShort os pe d).data.argv = d.argv ∧
      (getoptShort os pe d).data.first_nonopt = d.first_nonopt ∧
      d.optind ≤ (getoptShort os pe d).data.optind := by
  unfold getoptShort
  repeat' split
  all_goals simp
  all_goals first
    | omega
    | (split <;> (simp; try omega))

theorem getoptShort_inv (a : CStr) (os : CStr) (pe : Bool) (d : GetoptData)
    (h : GetoptInv a d) : GetoptInv a (getoptShort os pe d).data := by
  obtain ⟨h1, h2, h3⟩ := h
  obtain ⟨e1, e2, e3⟩ := getoptShort_data os pe d
  exact ⟨by rw [e1]; exact h1, by rw [e2]; exact h2, by omega⟩

theorem getoptFetch_inv (a : CStr) (ord : GetoptOrdering) (os : CStr) (pe : Bool)
    (d : GetoptData) (h : GetoptInv a d) : GetoptInv a (getoptFetch ord os pe d).data := by
  unfold getoptFetch
  split
  · obtain ⟨h1, h2, h3⟩ := h
    simp only
    split_ifs
    · exact ⟨h1, h2, h2⟩
    · exact ⟨h1, h2, h3⟩
  · split_ifs
    · exact h
    · obtain ⟨h1, h2, h3⟩ := h
      exact ⟨h1, h2, by simp only; omega⟩
    · exact getoptShort_inv a os pe _ h

theorem getopt_inv (a : CStr) (pc : Bool) (os : CStr) (d : GetoptData) (h : GetoptInv a d) :
    GetoptInv a (getopt pc os d).data := by
  unfold getopt
  simp only
  split_ifs
  · exact h
  · exact getoptShort_inv a _ _ _ h
  · exact getoptFetch_inv a _ _ _ _ (getoptAdvance_inv a _ _ h)

theorem init_inv (a : CStr) (args : List CStr) : GetoptInv a (GetoptData.init (a :: args)) :=
  ⟨rfl, le_refl _, le_refl _⟩

theorem getoptReturns_nil_argv (pc : Bool) (os : CStr) (n : Nat) :
    getoptReturns pc os n (GetoptData.init []) = [] := by
  cases n with
  | zero => rfl
  | succ n => simp [getoptReturns, getopt, GetoptData.init]

namespace GetoptDemo

/-- As soon as a call of `getopt` returns a character other than `a` and `b`, the loop ends
with status 1 and the usage line as the last thing on the error stream. -/
theorem main_loop_rejects (pc : Bool) (a : CStr) (n : Nat) :
    ∀ (d : GetoptData) (out err : List CStr), GetoptInv a d →
      (∃ c ∈ getoptReturns pc optstring n d, c ≠ 'a' ∧ c ≠ 'b') →
      ∃ p, main_loop pc n d out err = some p ∧ p.status = .exited 1 ∧
        p.stderr.getLast? = some (usageLine a) := by
  induction n with
  | zero => intro d out err _ h; simp [getoptReturns] at h
  | succ n ih =>
    intro d out err hinv h
    have hinv' := getopt_inv a pc optstring d hinv
    simp only [getoptReturns] at h
    simp only [main_loop]
    cases hr : (getopt pc optstring d).ret with
    | none => simp [hr] at h
    | some c =>
      simp only [hr] at h ⊢
      by_cases ha : c = 'a'
      · simp only [ha, if_true]
        obtain ⟨x, hx, hxa, hxb⟩ := h
        rcases List.mem_cons.mp hx with rfl | hx'
        · exact absurd ha hxa
        · exact ih _ _ _ hinv' ⟨x, hx', hxa, hxb⟩
      · by_cases hb : c = 'b'
        · simp only [hb, if_true, show ('b' : Char) ≠ 'a' by decide, if_false]
          obtain ⟨x, hx, hxa, hxb⟩ := h
          rcases List.mem_cons.mp hx with rfl | hx'
          · exact absurd hb hxb
          · exact ih _ _ _ hinv' ⟨x, hx', hxa, hxb⟩
        · simp only [ha, hb, if_false]
          refine ⟨_, rfl, rfl, ?_⟩
          have : (getopt pc optstring d).data.argv.headD [] = a := by
            obtain ⟨h1, _, _⟩ := hinv'
            cases hd : (getopt pc optstring d).data.argv with
            | nil => rw [hd] at h1; simp at h1
            | cons x xs => rw [hd] at h1; simpa using h1
          rw [this]
          simp

end GetoptDemo

theorem getsubopt_shorter (s : CStr) (tokens : List CStr) (v : Option CStr) (hs : s ≠ []) :
    (getsubopt s tokens v).optionp.length < s.length := by
  have hlen : ((s.dropWhile (fun c => c != ',')).drop 1).length < s.length := by
    have h1 : (s.dropWhile (fun c => c != ',')).length ≤ s.length :=
      (List.dropWhile_sublist _).length_le
    have h2 : 0 < s.length := List.length_pos.mpr hs
    simp only [List.length_drop]
    omega
  unfold getsubopt
  simp only [hs, if_false]
  split <;> exact hlen

namespace GetsuboptDemo

/-- With a fuel above the length of the value, the suboption loop ends. -/
theorem subopts_loop_total (n : Nat) :
    ∀ (s : CStr) (v : Option CStr) (g : Globals) (out : List CStr), s.length < n →
      ∃ r, subopts_loop n s v g out = some r := by
  induction n with
  | zero => intro s v g out h; omega
  | succ n ih =>
    intro s v g out h
    simp only [subopts_loop]
    by_cases hs : s = []
    · simp [hs]
    · have hlt := getsubopt_shorter s mount_opts v hs
      have hn : (getsubopt s mount_opts v).optionp.length < n := by omega
      simp only [hs, if_false]
      split_ifs
      · exact ih _ _ _ _ hn
      · exact ih _ _ _ _ hn
      · split
        · exact ⟨_, rfl⟩
        · exact ih _ _ _ _ hn
      · split
        · exact ⟨_, rfl⟩
        · exact ih _ _ _ _ hn
      · exact ih _ _ _ _ hn

end GetsuboptDemo

/-- When `getoptShort` returns an option character that requires an argument, `optarg` is
not null. -/
theorem getoptShort_optarg (os : CStr) (pe : Bool) (d : GetoptData) (c : Char)
    (h : (getoptShort os pe d).ret = some c) (hq : c ≠ '?') (hcol : c ≠ ':')
    (harg : ∀ temp, strchr os c = some temp → temp[1]? = some ':' ∧ temp[2]? ≠ some ':') :
    ∃ s, (getoptShort os pe d).data.optarg = some s := by
  unfold getoptShort at h ⊢
  cases hnc : d.nextchar with
  | nil => simp [hnc] at h
  | cons c' nc =>
    simp only [hnc] at h ⊢
    cases hs : strchr os c' with
    | none =>
      simp only [hs, GetoptResult.ret, Option.some.injEq] at h
      exact absurd h.symm hq
    | some temp =>
      simp only [hs] at h ⊢
      by_cases h1 : c' = ':' ∨ c' = ';'
      · simp only [h1, if_true, Option.some.injEq] at h
        exact absurd h.symm hq
      · simp only [h1, if_false] at h ⊢
        by_cases h2 : temp[1]? = some ':'
        · simp only [h2, if_true] at h ⊢
          by_cases h3 : temp[2]? = some ':'
          · simp only [h3, if_true] at h
            have hc : c' = c := by
              by_cases hn : nc ≠ [] <;> simpa [hn] using h
            rw [hc] at hs
            exact absurd h3 (harg temp hs).2
          · simp only [h3, if_false] at h ⊢
            by_cases hn : nc ≠ []
            · simp [hn]
            · simp only [hn, if_false] at h ⊢
              split at h
              · simp only [Option.some.injEq] at h
                split_ifs at h
                · exact absurd h.symm hcol
                · exact absurd h.symm hq
              · rename_i a rest heq
                simp [heq]
        · simp only [h2, if_false, Option.some.injEq] at h
          rw [h] at hs
          exact absurd (harg temp hs).1 h2

theorem getoptFetch_optarg (ord : GetoptOrdering) (os : CStr) (pe : Bool) (d : GetoptData)
    (c : Char) (h : (getoptFetch ord os pe d).ret = some c) (hq : c ≠ '?') (hcol : c ≠ ':')
    (h1 : c ≠ Char.ofNat 1)
    (harg : ∀ temp, strchr os c = some temp → temp[1]? = some ':' ∧ temp[2]? ≠ some ':') :
    ∃ s, (getoptFetch ord os pe d).data.optarg = some s := by
  unfold getoptFetch at h ⊢
  cases hdrop : d.argv.drop d.optind with
  | nil => simp [hdrop] at h
  | cons a rest =>
    simp only [hdrop] at h ⊢
    by_cases c3 : isNonoption a = true
    · simp only [c3, if_true] at h
      split_ifs at h
      simp only [Option.some.injEq] at h
      exact absurd h.symm h1
    · simp only [c3, if_false] at h ⊢
      exact getoptShort_optarg _ _ _ c h hq hcol harg

theorem getopt_optarg (pc : Bool) (os : CStr) (d : GetoptData) (c : Char)
    (h : (getopt pc os d).ret = some c) (hq : c ≠ '?') (hcol : c ≠ ':') (h1 : c ≠ Char.ofNat 1)
    (harg : ∀ temp, strchr (skipOrderingMark os) c = some temp →
      temp[1]? = some ':' ∧ temp[2]? ≠ some ':') :
    ∃ s, (getopt pc os d).data.optarg = some s := by
  unfold getopt at h ⊢
  by_cases c1 : d.argv.length < 1
  · simp [c1] at h
  · by_cases c2 : d.nextchar ≠ []
    · simp only [c1, if_false] at h ⊢
      rw [if_pos c2] at h ⊢
      exact getoptShort_optarg _ _ _ c h hq hcol harg
    · simp only [c1, if_false] at h ⊢
      rw [if_neg c2] at h ⊢
      exact getoptFetch_optarg _ _ _ _ c h hq hcol h1 harg

namespace GetsuboptDemo

theorem getopt_ret_o (pc : Bool) (d : GetoptData)
    (h : (getopt pc optstring d).ret = some 'o') :
    ∃ s, (getopt pc optstring d).data.optarg = some s := by
  refine getopt_optarg pc optstring d 'o' h (by decide) (by decide) (by decide) ?_
  intro temp ht
  have : temp = ['o', ':'] := by
    simpa [skipOrderingMark, optstring, strchr] using ht.symm
  subst this
  decide

/-- As soon as a call of `getopt` returns a character other than `a`, `t` and `o`, the loop
ends in `abort()`, if it has not already done so in a suboption. -/
theorem main_loop_aborts (pc : Bool) (n : Nat) :
    ∀ (d : GetoptData) (v : Option CStr) (g : Globals) (out err : List CStr),
      (∃ c ∈ getoptReturns pc optstring n d, c ≠ 'a' ∧ c ≠ 't' ∧ c ≠ 'o') →
      ∃ p, main_loop pc n d v g out err = some p ∧ p.status = .aborted := by
  induction n with
  | zero => intro d v g out err h; simp [getoptReturns] at h
  | succ n ih =>
    intro d v g out err h
    simp only [getoptReturns] at h
    simp only [main_loop]
    cases hr : (getopt pc optstring d).ret with
    | none => simp [hr] at h
    | some c =>
      simp only [hr] at h ⊢
      obtain ⟨x, hx, hxa, hxt, hxo⟩ := h
      by_cases ha : c = 'a'
      · simp only [ha, if_true]
        rcases List.mem_cons.mp hx with rfl | hx'
        · exact absurd ha hxa
        · exact ih _ _ _ _ _ ⟨x, hx', hxa, hxt, hxo⟩
      · by_cases ht : c = 't'
        · simp only [ht, if_true, show ('t' : Char) ≠ 'a' by decide, if_false]
          rcases List.mem_cons.mp hx with rfl | hx'
          · exact absurd ht hxt
          · exact ih _ _ _ _ _ ⟨x, hx', hxa, hxt, hxo⟩
        · by_cases ho : c = 'o'
          · simp only [ho, if_true, show ('o' : Char) ≠ 'a' by decide,
              show ('o' : Char) ≠ 't' by decide, if_false]
            obtain ⟨s, hs⟩ := getopt_ret_o pc d (ho ▸ hr)
            simp only [hs]
            obtain ⟨r, hr'⟩ := subopts_loop_total (s.length + 1) s v g out (by omega)
            simp only [hr']
            cases r with
            | abort g' out' => exact ⟨_, rfl, rfl⟩
            | next g' out' v' =>
              rcases List.mem_cons.mp hx with rfl | hx'
              · exact absurd ho hxo
              · exact ih _ _ _ _ _ ⟨x, hx', hxa, hxt, hxo⟩
          · simp only [ha, ht, ho, if_false]
            exact ⟨_, rfl, rfl⟩

end GetsuboptDemo

theorem remaining_succ_le (argv : List CStr) (k : Nat) :
    remaining argv (k + 1) ≤ remaining argv k := by
  unfold remaining
  induction argv generalizing k with
  | nil => simp
  | cons x xs ih =>
    cases k with
    | zero => simp
    | succ k => simpa using ih k

theorem remaining_mono (argv : List CStr) (k j : Nat) (h : k ≤ j) :
    remaining argv j ≤ remaining argv k := by
  induction h with
  | refl => exact le_refl _
  | step _ ih => exact le_trans (remaining_succ_le argv _) ih

theorem remaining_cons (argv : List CStr) (k : Nat) (a : CStr) (rest : List CStr)
    (h : argv.drop k = a :: rest) :
    remaining argv k = a.length + 1 + remaining argv (k + 1) := by
  have h2 : argv.drop (k + 1) = rest := by
    rw [← List.drop_drop, h]  -- drop 1 (drop k argv)
    rfl
  simp [remaining, h, h2]

theorem drop_append_of_length (pre rest : List CStr) (n : Nat) (h : pre.length = n) :
    (pre ++ rest).drop n = rest := by
  subst h
  exact List.drop_left _ _

theorem exchange_argv (d : GetoptData) (h1 : d.first_nonopt ≤ d.last_nonopt)
    (h2 : d.last_nonopt ≤ d.optind) (h3 : d.optind ≤ d.argv.length) :
    (exchange d).argv.drop d.optind = d.argv.drop d.optind ∧
      (exchange d).argv.length = d.argv.length := by
  have hlen : (d.argv.take d.first_nonopt ++
      ((d.argv.drop d.last_nonopt).take (d.optind - d.last_nonopt) ++
        (d.argv.drop d.first_nonopt).take (d.last_nonopt - d.first_nonopt))).length =
      d.optind := by
    simp only [List.length_append, List.length_take, List.length_drop]
    omega
  constructor
  · simp only [exchange]
    rw [← List.append_assoc, ← List.append_assoc]
    rw [List.append_assoc (d.argv.take d.first_nonopt)]
    exact drop_append_of_length _ _ _ hlen
  · simp only [exchange, List.length_append, List.length_take, List.length_drop]
    omega

theorem exchange_bounds (d : GetoptData) (h1 : d.first_nonopt ≤ d.last_nonopt)
    (h2 : d.last_nonopt ≤ d.optind) (h3 : d.optind ≤ d.argv.length) (hn : d.nextchar = []) :
    GetoptBounds (exchange d) ∧ (exchange d).optind = d.optind ∧
      (exchange d).nextchar = [] ∧
      remaining (exchange d).argv d.optind = remaining d.argv d.optind ∧
      (exchange d).argv.drop d.optind = d.argv.drop d.optind := by
  obtain ⟨e1, e2⟩ := exchange_argv d h1 h2 h3
  refine ⟨⟨?_, ?_, ?_, ?_⟩, rfl, hn, ?_, e1⟩
  · simp only [exchange]; omega
  · simp only [exchange]; omega
  · rw [e2]; exact h3
  · intro h; exact absurd hn h
  · simp only [remaining, e1]

/-- The skipping of non-options moves `optind` forward within the vector. -/
theorem skip_le (argv : List CStr) (k : Nat) (hk : k ≤ argv.length) :
    k + ((argv.drop k).takeWhile isNonoption).length ≤ argv.length := by
  have := (List.takeWhile_sublist isNonoption (l := argv.drop k)).length_le
  simp only [List.length_drop] at this
  omega

theorem permuteStep_bounds (d : GetoptData) (h : GetoptBounds d) (hn : d.nextchar = []) :
    GetoptBounds (permuteStep d) ∧ (permuteStep d).nextchar = [] ∧
      remaining (permuteStep d).argv (permuteStep d).optind ≤ remaining d.argv d.optind := by
  obtain ⟨h1, h2, h3, _⟩ := h
  unfold permuteStep
  simp only
  split_ifs with c1 c2
  · obtain ⟨⟨b1, b2, b3, _⟩, eo, en, er, ed⟩ := exchange_bounds d h1 h2 h3 hn
    have hs := skip_le (exchange d).argv (exchange d).optind b3
    refine ⟨⟨?_, le_refl _, hs, ?_⟩, en, ?_⟩
    · show (exchange d).first_nonopt ≤ (exchange d).optind + _
      omega
    · intro hc; exact absurd en hc
    · show remaining (exchange d).argv ((exchange d).optind + _) ≤ _
      rw [eo]
      exact le_trans (remaining_mono _ _ _ (Nat.le_add_right _ _)) (le_of_eq er)
  · have hs := skip_le d.argv d.optind h3
    refine ⟨⟨?_, le_refl _, hs, ?_⟩, hn, ?_⟩
    · show d.optind ≤ d.optind + _
      omega
    · intro hc; exact absurd hn hc
    · exact remaining_mono _ _ _ (Nat.le_add_right _ _)
  · have hs := skip_le d.argv d.optind h3
    refine ⟨⟨?_, le_refl _, hs, ?_⟩, hn, ?_⟩
    · show d.first_nonopt ≤ d.optind + _
      omega
    · intro hc; exact absurd hn hc
    · exact remaining_mono _ _ _ (Nat.le_add_right _ _)

theorem remaining_length (argv : List CStr) : remaining argv argv.length = 0 := by
  simp [remaining]

theorem dashDash_bounds (d : GetoptData) (h : GetoptBounds d) (hn : d.nextchar = [])
    (hlt : d.optind < d.argv.length) :
    GetoptBounds (dashDash d) ∧ (dashDash d).nextchar = [] ∧
      remaining (dashDash d).argv (dashDash d).optind ≤ remaining d.argv d.optind := by
  obtain ⟨h1, h2, h3, _⟩ := h
  unfold dashDash
  simp only
  split_ifs with c1 c2
  · have hb : d.last_nonopt ≤ d.optind + 1 := by omega
    have hc : d.optind + 1 ≤ d.argv.length := by omega
    obtain ⟨_, el⟩ := exchange_argv { d with optind := d.optind + 1 } h1 hb hc
    have ef : (exchange { d with optind := d.optind + 1 }).first_nonopt =
        d.first_nonopt + (d.optind + 1 - d.last_nonopt) := rfl
    have en : (exchange { d with optind := d.optind + 1 }).nextchar = [] := hn
    have el' : (exchange { d with optind := d.optind + 1 }).argv.length = d.argv.length := el
    refine ⟨⟨?_, le_refl _, le_refl _, ?_⟩, en, ?_⟩
    · show (exchange { d with optind := d.optind + 1 }).first_nonopt ≤
        (exchange { d with optind := d.optind + 1 }).argv.length
      rw [ef, el']
      omega
    · intro hc; exact absurd en hc
    · show remaining _ (exchange { d with optind := d.optind + 1 }).argv.length ≤ _
      rw [remaining_length]
      exact Nat.zero_le _
  · refine ⟨⟨?_, le_refl _, le_refl _, ?_⟩, hn, ?_⟩
    · show d.optind + 1 ≤ d.argv.length
      omega
    · intro hc; exact absurd hn hc
    · show remaining d.argv d.argv.length ≤ _
      rw [remaining_length]
      exact Nat.zero_le _
  · refine ⟨⟨?_, le_refl _, le_refl _, ?_⟩, hn, ?_⟩
    · show d.first_nonopt ≤ d.argv.length
      omega
    · intro hc; exact absurd hn hc
    · show remaining d.argv d.argv.length ≤ _
      rw [remaining_length]
      exact Nat.zero_le _

theorem getoptAdvance_bounds (ord : GetoptOrdering) (d : GetoptData) (h : GetoptBounds d)
    (hn : d.nextchar = []) :
    GetoptBounds (getoptAdvance ord d) ∧ (getoptAdvance ord d).nextchar = [] ∧
      remaining (getoptAdvance ord d).argv (getoptAdvance ord d).optind ≤
        remaining d.argv d.optind := by
  obtain ⟨h1, h2, h3, h4⟩ := h
  have h0 : GetoptBounds { d with
      last_nonopt := min d.last_nonopt d.optind,
      first_nonopt := min d.first_nonopt d.optind } := by
    refine ⟨?_, ?_, h3, h4⟩
    · simp only; omega
    · simp only; omega
  have hdd : ∀ e : GetoptData, GetoptBounds e → e.nextchar = [] →
      (e.argv.drop e.optind).head? = some ['-', '-'] → e.optind < e.argv.length := by
    intro e he _ hh
    by_contra hc
    have : e.argv.drop e.optind = [] := List.drop_eq_nil_of_le (by omega)
    rw [this] at hh
    simp at hh
  unfold getoptAdvance
  simp only
  split_ifs with c1 c2 c3
  · obtain ⟨p1, p2, p3⟩ := permuteStep_bounds _ h0 hn
    obtain ⟨q1, q2, q3⟩ := dashDash_bounds _ p1 p2 (hdd _ p1 p2 c2)
    exact ⟨q1, q2, le_trans q3 p3⟩
  · exact permuteStep_bounds _ h0 hn
  · obtain ⟨q1, q2, q3⟩ := dashDash_bounds _ h0 hn (hdd _ h0 hn c3)
    exact ⟨q1, q2, q3⟩
  · exact ⟨h0, hn, le_refl _⟩

theorem drop_succ_lt (argv : List CStr) (k : Nat) (a : CStr) (rest : List CStr)
    (h : argv.drop k = a :: rest) : k < argv.length := by
  by_contra hc
  have : argv.drop k = [] := List.drop_eq_nil_of_le (by omega)
  rw [this] at h
  cases h

/-- One step inside a cluster: the state stays within bounds and the measure drops below
that of the cluster. -/
theorem getoptShort_measure (os : CStr) (pe : Bool) (d : GetoptData) (c : Char) (nc : CStr)
    (hnc : d.nextchar = c :: nc) (h1 : d.first_nonopt ≤ d.last_nonopt)
    (h2 : d.last_nonopt ≤ d.optind) (h3 : d.optind < d.argv.length) :
    GetoptBounds (getoptShort os pe d).data ∧
      getoptMeasure (getoptShort os pe d).data < 1 + nc.length + remaining d.argv (d.optind + 1) := by
  have hr := remaining_succ_le d.argv (d.optind + 1)
  unfold getoptShort
  rw [hnc]
  simp only
  by_cases hn : nc = []
  · subst hn
    simp only [if_true]
    have hdrop : ∀ a rest, d.argv.drop (d.optind + 1) = a :: rest →
        d.optind + 1 < d.argv.length := fun a rest h => drop_succ_lt _ _ a rest h
    repeat' split
    all_goals simp only [GetoptBounds, getoptMeasure, ne_eq, not_true_eq_false, if_true,
      List.length_nil, false_implies, and_true, IsEmpty.forall_iff]
    all_goals first
      | (constructor <;> omega)
      | (rename_i a rest heq
         have := hdrop a rest heq
         constructor <;> omega)
      | contradiction
  · simp only [hn, if_false]
    repeat' split
    all_goals simp only [GetoptBounds, getoptMeasure, ne_eq, not_true_eq_false, if_true, hn,
      if_false, not_false_eq_true, List.length_nil, false_implies, true_implies, and_true,
      IsEmpty.forall_iff, forall_true_left]
    all_goals (constructor <;> omega)

theorem tail_of_option (a : CStr) (h : ¬ isNonoption a = true) :
    ∃ c nc, a.tail = c :: nc ∧ a.length = nc.length + 2 := by
  match a, h with
  | [], h => simp [isNonoption] at h
  | [_], h => simp [isNonoption] at h
  | _ :: y :: ys, _ => exact ⟨y, ys, rfl, by simp⟩

/-- A call of `getopt` that returns an option keeps the state within bounds and lowers the
measure. -/
theorem getopt_measure (pc : Bool) (os : CStr) (d : GetoptData) (h : GetoptBounds d) (c : Char)
    (hret : (getopt pc os d).ret = some c) :
    GetoptBounds (getopt pc os d).data ∧
      getoptMeasure (getopt pc os d).data < getoptMeasure d := by
  obtain ⟨h1, h2, h3, h4⟩ := h
  unfold getopt at hret ⊢
  by_cases c1 : d.argv.length < 1
  · simp [c1] at hret
  · simp only [c1, if_false] at hret ⊢
    by_cases c2 : d.nextchar ≠ []
    · rw [if_pos c2] at hret ⊢
      obtain ⟨x, nc, hx⟩ := List.exists_cons_of_ne_nil c2
      have hm := getoptShort_measure (skipOrderingMark os)
        (decide (List.head? (skipOrderingMark os) ≠ some ':')) { d with optarg := none } x nc hx
        h1 h2 (h4 c2)
      refine ⟨hm.1, lt_of_lt_of_le hm.2 ?_⟩
      show 1 + nc.length + remaining d.argv (d.optind + 1) ≤ getoptMeasure d
      simp only [getoptMeasure, hx, List.length_cons]
      rw [if_neg (List.cons_ne_nil x nc)]
      omega
    · rw [if_neg c2] at hret ⊢
      have hn : d.nextchar = [] := by simpa using c2
      obtain ⟨b, bn, br⟩ := getoptAdvance_bounds (getoptOrdering pc os)
        { d with optarg := none } ⟨h1, h2, h3, h4⟩ hn
      generalize getoptAdvance (getoptOrdering pc os) { d with optarg := none } = adv at *
      have hmd : getoptMeasure d = remaining d.argv d.optind := by
        simp [getoptMeasure, hn]
      rw [hmd]
      have br' : remaining adv.argv adv.optind ≤ remaining d.argv d.optind := br
      obtain ⟨b1, b2, b3, _⟩ := b
      unfold getoptFetch at hret ⊢
      cases hdrop : adv.argv.drop adv.optind with
      | nil => simp [hdrop] at hret
      | cons a rest =>
        have hlt := drop_succ_lt _ _ a rest hdrop
        have hrem := remaining_cons _ _ a rest hdrop
        simp only [hdrop] at hret ⊢
        by_cases c3 : isNonoption a = true
        · simp only [c3, if_true] at hret ⊢
          by_cases c4 : getoptOrdering pc os = GetoptOrdering.REQUIRE_ORDER
          · simp [c4] at hret
          · simp only [c4, if_false]
            refine ⟨⟨b1, by simp only; omega, by simp only; omega, ?_⟩, ?_⟩
            · intro hc; exact absurd bn hc
            · simp only [getoptMeasure, bn, if_true]
              omega
        · simp only [c3, if_false] at hret ⊢
          obtain ⟨x, nc, hx, hlen⟩ := tail_of_option a c3
          have hm := getoptShort_measure (skipOrderingMark os)
            (decide (List.head? (skipOrderingMark os) ≠ some ':'))
            { adv with nextchar := a.tail } x nc hx b1 b2 hlt
          refine ⟨hm.1, lt_of_lt_of_le hm.2 ?_⟩
          show 1 + nc.length + remaining adv.argv (adv.optind + 1) ≤ _
          omega

theorem remaining_init (argv : List CStr) : remaining argv 1 < getoptFuel argv := by
  have := remaining_succ_le argv 0
  simp only [remaining, getoptFuel, List.drop_zero, Nat.zero_add] at *
  omega

theorem init_bounds (a : CStr) (args : List CStr) : GetoptBounds (GetoptData.init (a :: args)) :=
  ⟨le_refl _, le_refl _, by simp [GetoptData.init], fun h => absurd rfl h⟩

namespace GetoptDemo

theorem main_loop_total (pc : Bool) (n : Nat) :
    ∀ (d : GetoptData) (out err : List CStr), GetoptBounds d → getoptMeasure d < n →
      ∃ p, main_loop pc n d out err = some p := by
  induction n with
  | zero => intro d out err _ h; omega
  | succ n ih =>
    intro d out err hb hm
    simp only [main_loop]
    cases hr : (getopt pc optstring d).ret with
    | none => exact ⟨_, rfl⟩
    | some c =>
      obtain ⟨hb', hm'⟩ := getopt_measure pc optstring d hb c hr
      simp only
      split_ifs
      · exact ih _ _ _ hb' (by omega)
      · exact ih _ _ _ hb' (by omega)
      · exact ⟨_, rfl⟩

/-- The program always ends: the fuel `getoptFuel argv` is never used up. -/
theorem main_total (pc : Bool) (argv : List CStr) : ∃ p, main pc argv = some p := by
  cases argv with
  | nil => exact ⟨_, by simp [main, getoptFuel, main_loop, getopt, GetoptData.init]; rfl⟩
  | cons a args =>
    exact main_loop_total pc _ _ [] [] (init_bounds a args) (by
      have := remaining_init (a :: args)
      simpa [getoptMeasure, GetoptData.init] using this)

end GetoptDemo

namespace GetsuboptDemo

theorem main_loop_returns (pc : Bool) (n : Nat) :
    ∀ (d : GetoptData) (v : Option CStr) (g : Globals) (out err : List CStr),
      GetoptBounds d → getoptMeasure d < n →
      ∃ p, main_loop pc n d v g out err = some p := by
  induction n with
  | zero => intro d v g out err _ h; omega
  | succ n ih =>
    intro d v g out err hb hm
    simp only [main_loop]
    cases hr : (getopt pc optstring d).ret with
    | none => exact ⟨_, rfl⟩
    | some c =>
      obtain ⟨hb', hm'⟩ := getopt_measure pc optstring d hb c hr
      simp only
      by_cases ha : c = 'a'
      · simp only [ha, if_true]
        exact ih _ _ _ _ _ hb' (by omega)
      · by_cases ht : c = 't'
        · simp only [ht, if_true, show ('t' : Char) ≠ 'a' by decide, if_false]
          exact ih _ _ _ _ _ hb' (by omega)
        · by_cases ho : c = 'o'
          · simp only [ho, if_true, show ('o' : Char) ≠ 'a' by decide,
              show ('o' : Char) ≠ 't' by decide, if_false]
            obtain ⟨s, hs⟩ := getopt_ret_o pc d (ho ▸ hr)
            simp only [hs]
            obtain ⟨r, hr'⟩ := subopts_loop_total (s.length + 1) s v g out (by omega)
            simp only [hr']
            cases r with
            | abort g' out' => exact ⟨_, rfl⟩
            | next g' out' v' => exact ih _ _ _ _ _ hb' (by omega)
          · simp only [ha, ht, ho, if_false]
            exact ⟨_, rfl⟩

/-- The program always ends: the fuel is never used up and `optarg` is never null when the
suboptions are read. -/
theorem main_returns (pc : Bool) (argv : List CStr) : ∃ p, main pc argv = some p := by
  cases argv with
  | nil => exact ⟨_, by simp [main, getoptFuel, main_loop, getopt, GetoptData.init]; rfl⟩
  | cons a args =>
    exact main_loop_returns pc _ _ none _ [] [] (init_bounds a args) (by
      have := remaining_init (a :: args)
      simpa [getoptMeasure, GetoptData.init] using this)

end GetsuboptDemo

theorem getsubopt_valuep (s : CStr) (tokens : List CStr) (v w : Option CStr) (hs : s ≠ []) :
    getsubopt s tokens v = getsubopt s tokens w := by
  simp [getsubopt, hs]

namespace GetsuboptDemo

theorem subopts_loop_assigns (n : Nat) :
    ∀ (s : CStr) (v : Option CStr) (g : Globals) (out : List CStr) (g' : Globals)
      (out' : List CStr) (v' : Option CStr),
      subopts_loop n s v g out = some (.next g' out' v') →
      g' = (suboptAssigns n s).foldl Assign.perform g := by
  induction n with
  | zero => intro s v g out g' out' v' h; simp [subopts_loop] at h
  | succ n ih =>
    intro s v g out g' out' v' h
    simp only [subopts_loop] at h
    simp only [suboptAssigns]
    by_cases hs : s = []
    · simp only [hs, if_true, Option.some.injEq, Flow.next.injEq] at h
      simp [hs, h.1]
    · simp only [hs, if_false] at h ⊢
      rw [getsubopt_valuep s mount_opts none v hs]
      rw [List.foldl_append]
      split_ifs at h ⊢ with c1 c2 c3 c4
      · exact ih _ _ _ _ _ _ _ h
      · exact ih _ _ _ _ _ _ _ h
      · cases hv : (getsubopt s mount_opts v).valuep with
        | none => simp [hv] at h
        | some val =>
          simp only [hv] at h ⊢
          exact ih _ _ _ _ _ _ _ h
      · cases hv : (getsubopt s mount_opts v).valuep with
        | none => simp [hv] at h
        | some val =>
          simp only [hv] at h ⊢
          exact ih _ _ _ _ _ _ _ h
      · exact ih _ _ _ _ _ _ _ h

/-- A run that ends with `return 0` leaves the globals as the occurrences, carried out in
order, make them. -/
theorem main_loop_assigns (pc : Bool) (n : Nat) :
    ∀ (d : GetoptData) (v : Option CStr) (g : Globals) (out err : List CStr) (p : Proc),
      main_loop pc n d v g out err = some p → p.status = .exited 0 →
      p.globals = (flagAssigns pc n d).foldl Assign.perform g := by
  induction n with
  | zero => intro d v g out err p h; simp [main_loop] at h
  | succ n ih =>
    intro d v g out err p h hs
    simp only [main_loop] at h
    simp only [flagAssigns]
    cases hr : (getopt pc optstring d).ret with
    | none =>
      simp only [hr, Option.some.injEq] at h
      subst h
      rfl
    | some c =>
      simp only [hr] at h ⊢
      rw [List.foldl_append]
      by_cases ha : c = 'a'
      · simp only [ha, if_true] at h ⊢
        exact ih _ _ _ _ _ p h hs
      · by_cases ht : c = 't'
        · simp only [ht, if_true, show ('t' : Char) ≠ 'a' by decide, if_false] at h ⊢
          exact ih _ _ _ _ _ p h hs
        · by_cases ho : c = 'o'
          · simp only [ho, if_true, show ('o' : Char) ≠ 'a' by decide,
              show ('o' : Char) ≠ 't' by decide, if_false] at h ⊢
            cases hoa : (getopt pc optstring d).data.optarg with
            | none => simp [hoa] at h
            | some s =>
              simp only [hoa] at h ⊢
              cases hsl : subopts_loop (s.length + 1) s v g out with
              | none => simp [hsl] at h
              | some r =>
                cases r with
                | abort g' out' =>
                  simp only [hsl, Option.some.injEq] at h
                  subst h
                  simp at hs
                | next g' out' v' =>
                  simp only [hsl] at h
                  rw [← subopts_loop_assigns _ _ _ _ _ _ _ _ hsl]
                  exact ih _ _ _ _ _ p h hs
          · simp only [ha, ht, ho, if_false, Option.some.injEq] at h
            subst h
            simp at hs

theorem lastWins_foldl (l : List Assign) :
    LastWins (l.foldl Assign.perform Globals.init) l := by
  refine ⟨?_, ?_, ?_, ?_, ?_⟩ <;>
  · refine foldl_lastAssigned Assign.perform _ _ _ Globals.init ?_
    intro a _ g
    cases a <;> rfl

/-- An example of the occurrences of a command line: `-t a -o ro,rw -o rsize=1 -tb -orsize=2 x`,
with two flags written in one element with their value. -/
theorem occurrences_example :
    occurrences false
        ["prog".toList, "-t".toList, "a".toList, "-o".toList, "ro,rw".toList, "-o".toList,
          "rsize=1".toList, "-tb".toList, "-orsize=2".toList, "x".toList] =
      [.type (some "a".toList), .read_only 1, .read_only 0, .read_size 1,
        .type (some "b".toList), .read_size 2] := by
  decide

end GetsuboptDemo

theorem splitComma_cons (s : CStr) (hs : s ≠ []) :
    splitComma s =
      s.takeWhile (fun c => c != ',') :: splitComma ((s.dropWhile (fun c => c != ',')).drop 1) := by
  induction s with
  | nil => exact absurd rfl hs
  | cons c cs ih =>
    by_cases hc : c = ','
    · subst hc
      simp [splitComma]
    · have hb : (c != ',') = true := by simpa using hc
      simp only [splitComma, hc, if_false, List.takeWhile_cons, hb, if_true, List.dropWhile_cons]
      cases cs with
      | nil => simp [splitComma]
      | cons d ds => rw [ih (List.cons_ne_nil d ds)]

theorem getsubopt_eq (s : CStr) (tokens : List CStr) (v : Option CStr) (hs : s ≠ []) :
    getsubopt s tokens v =
      suboptResult (s.takeWhile (fun c => c != ',')) tokens
        ((s.dropWhile (fun c => c != ',')).drop 1) := by
  unfold getsubopt suboptResult
  refine (if_neg hs).trans ?_
  rfl

theorem tokenValue_eq (t : CStr) :
    (if (t.takeWhile (fun c => c != '=')).length < t.length then
        some (t.drop ((t.takeWhile (fun c => c != '=')).length + 1))
      else none) = tokenValue t := by
  induction t with
  | nil => simp [tokenValue]
  | cons c cs ih =>
    by_cases hc : c = '='
    · subst hc
      simp [tokenValue]
    · have hb : (c != '=') = true := by simpa using hc
      simp only [List.takeWhile_cons, hb, if_true, List.length_cons, tokenValue, hc, if_false,
        List.drop_succ_cons, Nat.add_lt_add_iff_right]
      exact ih

theorem tokenValue_none (t : CStr) (h : tokenValue t = none) : tokenName t = t := by
  induction t with
  | nil => rfl
  | cons c cs ih =>
    by_cases hc : c = '='
    · subst hc
      simp [tokenValue] at h
    · have hb : (c != '=') = true := by simpa using hc
      simp only [tokenValue, hc, if_false] at h
      simp only [tokenName, List.takeWhile_cons, hb, if_true, List.cons.injEq, true_and]
      exact ih h

namespace GetsuboptDemo

/-- The suboption loop on any value of `-o` none of whose tokens is a bare `rsize` or `wsize`:
it ends without `abort()`, having carried out the assignments of the tokens and printed the
lines of the unknown ones. -/
theorem subopts_loop_tokens (n : Nat) :
    ∀ (s : CStr) (v : Option CStr) (g : Globals) (out : List CStr), s.length < n →
      (∀ t ∈ splitComma s, valuelessSize t = false) →
      ∃ v', subopts_loop n s v g out =
        some (.next (((splitComma s).flatMap tokenAssigns).foldl Assign.perform g)
          (out ++ (splitComma s).filterMap tokenLine) v') := by
  induction n with
  | zero => intro s v g out h; omega
  | succ n ih =>
    intro s v g out hlen hval
    by_cases hs : s = []
    · subst hs
      exact ⟨v, by simp [subopts_loop, splitComma]⟩
    · have hsplit := splitComma_cons s hs
      have hg := getsubopt_eq s mount_opts v hs
      have hshort := getsubopt_shorter s mount_opts v hs
      rw [hg] at hshort
      generalize s.takeWhile (fun c => c != ',') = tok at hsplit hg hshort
      generalize (s.dropWhile (fun c => c != ',')).drop 1 = next at hsplit hg hshort
      have hnext : next.length < n := by
        have : (suboptResult tok mount_opts next).optionp = next := by
          unfold suboptResult
          split <;> rfl
        rw [this] at hshort
        omega
      have hvalnext : ∀ t ∈ splitComma next, valuelessSize t = false :=
        fun t ht => hval t (by rw [hsplit]; exact List.mem_cons_of_mem _ ht)
      have hvaltok : valuelessSize tok = false := hval tok (by rw [hsplit]; simp)
      have htv := tokenValue_eq tok
      rw [hsplit]
      simp only [subopts_loop, hs, if_false, hg, List.flatMap_cons, List.foldl_append,
        List.filterMap_cons]
      have htv' : (if (tokenName tok).length < tok.length then
          some (tok.drop ((tokenName tok).length + 1)) else none) = tokenValue tok := htv
      have hname : tok.takeWhile (fun c => c != '=') = tokenName tok := rfl
      simp only [suboptResult, hname]
      by_cases h1 : tokenName tok = ['r', 'o']
      · simp only [h1, mount_opts, matchToken, RO_OPTION, tokenAssigns, tokenLine,
          unknownToken, Assign.perform, if_true, List.foldl_cons, List.foldl_nil]
        simpa using ih next _ { g with read_only := 1 } out hnext hvalnext
      · by_cases h2 : tokenName tok = ['r', 'w']
        · simp only [h2, mount_opts, matchToken, RO_OPTION, RW_OPTION, tokenAssigns, tokenLine,
            unknownToken, Assign.perform, if_true, List.foldl_cons, List.foldl_nil]
          simpa using ih next _ { g with read_only := 0 } out hnext hvalnext
        · by_cases h3 : tokenName tok = ['r', 's', 'i', 'z', 'e']
          · cases hv : tokenValue tok with
            | none =>
              have := tokenValue_none tok hv
              rw [h3] at this
              simp [valuelessSize, ← this] at hvaltok
            | some val =>
              rw [hv] at htv'
              rw [h3] at htv'
              simp only [h3, mount_opts, matchToken, RO_OPTION, RW_OPTION, READ_SIZE_OPTION,
                tokenAssigns, tokenLine, unknownToken, Assign.perform, hv, htv']
              simpa using ih next _ { g with read_size := atoi val } out hnext hvalnext
          · by_cases h4 : tokenName tok = ['w', 's', 'i', 'z', 'e']
            · cases hv : tokenValue tok with
              | none =>
                have := tokenValue_none tok hv
                rw [h4] at this
                simp [valuelessSize, ← this] at hvaltok
              | some val =>
                rw [hv] at htv'
                rw [h4] at htv'
                simp only [h4, mount_opts, matchToken, RO_OPTION, RW_OPTION, READ_SIZE_OPTION,
                  WRITE_SIZE_OPTION, tokenAssigns, tokenLine, unknownToken, Assign.perform, hv,
                  htv']
                simpa using ih next _ { g with write_size := atoi val } out hnext hvalnext
            · have hm : matchToken (tokenName tok) mount_opts 0 = none :=
                matchToken_none _ _ 0 (by simp [mount_opts, h1, h2, h3, h4])
              simp only [hm, tokenAssigns, h1, h2, h3, h4, if_false, tokenLine, unknownToken,
                List.foldl_nil]
              simpa [unknownLine, h1, h2, h3, h4] using
                ih next (some tok) g (out ++ [unknownLine (some tok)]) hnext hvalnext

/-- The run on `-o s`, when the suboption loop on `s` ends without `abort()`. -/
theorem main_o_value (pc : Bool) (prog s : CStr) (g : Globals) (out : List CStr)
    (v : Option CStr)
    (h : subopts_loop (s.length + 1) s none Globals.init [] = some (.next g out v)) :
    main pc [prog, ['-', 'o'], s] =
      some { status := .exited 0, stdout := out, stderr := [], globals := g } := by
  obtain ⟨k, hfuel⟩ : ∃ k, getoptFuel [prog, ['-', 'o'], s] = k + 2 := by
    have h1 := GetoptDemo.length_le_sum [prog, ['-', 'o'], s]
    refine ⟨getoptFuel [prog, ['-', 'o'], s] - 2, ?_⟩
    simp only [getoptFuel] at *
    simp only [List.length_cons, List.length_nil] at h1
    omega
  have hinit : GetoptData.init [prog, ['-', 'o'], s] = scanAt [prog] [['-', 'o'], s] none 1 := rfl
  obtain ⟨f1, hf1, hg⟩ := getopt_flag_arg pc optstring optstring_ato_plain [prog] [] none 1 'o'
    ['o', ':'] s (by simp) (by simp) (by simp [optstring, strchr]) (by decide) (by decide)
    (by decide) (by decide) (by decide)
  obtain ⟨d, hend, _, _⟩ := getopt_end pc optstring optstring_ato_plain
    ([prog] ++ [['-', 'o'], s]) [] (some s) f1 (by simp) hf1 (by simp)
  have hoa : ('o' : Char) ≠ 'a' := by decide
  have hot : ('o' : Char) ≠ 't' := by decide
  rw [main, hfuel, hinit]
  simp only [main_loop, hg, hoa, hot, if_false, if_true, List.nil_append]
  rw [show (scanAt ([prog] ++ [['-', 'o'], s]) [] (some s) f1).optarg = some s from rfl]
  simp only [h, hend]

end GetsuboptDemo

theorem splitComma_no_comma (s : CStr) : ∀ t ∈ splitComma s, ',' ∉ t := by
  induction s with
  | nil => simp [splitComma]
  | cons c cs ih =>
    by_cases hc : c = ','
    · subst hc
      simpa [splitComma] using ih
    · simp only [splitComma, hc, if_false]
      cases hsp : splitComma cs with
      | nil => simp [Ne.symm hc]
      | cons t ts =>
        rw [hsp] at ih
        intro u hu
        rcases List.mem_cons.mp hu with rfl | hu
        · have := ih t (List.mem_cons_self _ _)
          simp [Ne.symm hc, this]
        · exact ih u (List.mem_cons_of_mem _ hu)

theorem splitComma_append (t rest : CStr) (h : ',' ∉ t) :
    splitComma (t ++ ',' :: rest) = t :: splitComma rest := by
  induction t with
  | nil => simp [splitComma]
  | cons c cs ih =>
    have hc : c ≠ ',' := fun e => h (by simp [e])
    have hcs : ',' ∉ cs := fun e => h (by simp [e])
    simp [splitComma, hc, ih hcs]

theorem splitComma_single (t : CStr) (h : ',' ∉ t) (hne : t ≠ []) : splitComma t = [t] := by
  induction t with
  | nil => exact absurd rfl hne
  | cons c cs ih =>
    have hc : c ≠ ',' := fun e => h (by simp [e])
    have hcs : ',' ∉ cs := fun e => h (by simp [e])
    cases cs with
    | nil => simp [splitComma, hc]
    | cons d ds =>
      have e := ih hcs (List.cons_ne_nil d ds)
      rw [splitComma, if_neg hc, e]

namespace GetsuboptDemo

theorem splitComma_joinComma (ts : List CStr) (h : ∀ t ∈ ts, ',' ∉ t ∧ t ≠ []) :
    splitComma (joinComma ts) = ts := by
  induction ts with
  | nil => rfl
  | cons t ts ih =>
    have ht := h t (List.mem_cons_self _ _)
    have hts : ∀ u ∈ ts, ',' ∉ u ∧ u ≠ [] := fun u hu => h u (List.mem_cons_of_mem _ hu)
    cases ts with
    | nil => simpa [joinComma] using splitComma_single t ht.1 ht.2
    | cons u us =>
      rw [joinComma, splitComma_append t _ ht.1, ih hts]

theorem unknownToken_nil : unknownToken [] = true := by
  decide

theorem tokenAssigns_unknown (t : CStr) (h : unknownToken t = true) : tokenAssigns t = [] := by
  simp only [unknownToken, decide_eq_true_eq] at h
  simp [tokenAssigns, h.1, h.2.1, h.2.2.1, h.2.2.2]

theorem tokenLine_known (t : CStr) (h : unknownToken t = false) : tokenLine t = none := by
  simp [tokenLine, h]

theorem flatMap_tokenAssigns_filter (ts : List CStr) :
    (ts.filter (fun t => !unknownToken t)).flatMap tokenAssigns = ts.flatMap tokenAssigns := by
  induction ts with
  | nil => rfl
  | cons t ts ih =>
    cases h : unknownToken t
    · simp [List.filter_cons, h, ih]
    · simp [List.filter_cons, h, ih, tokenAssigns_unknown t h]

theorem filterMap_tokenLine_filter (ts : List CStr) :
    (ts.filter (fun t => !unknownToken t)).filterMap tokenLine = [] := by
  induction ts with
  | nil => rfl
  | cons t ts ih =>
    cases h : unknownToken t
    · simp [List.filter_cons, h, ih, tokenLine_known t h]
    · simp [List.filter_cons, h, ih]

/-- The run on `-o s` for any value none of whose tokens is a bare `rsize` or `wsize`. -/
theorem main_tokens (pc : Bool) (prog s : CStr)
    (hval : ∀ t ∈ splitComma s, valuelessSize t = false) :
    main pc [prog, ['-', 'o'], s] =
      some { status := .exited 0, stdout := (splitComma s).filterMap tokenLine, stderr := [],
             globals := ((splitComma s).flatMap tokenAssigns).foldl Assign.perform
               Globals.init } := by
  obtain ⟨v, hv⟩ := subopts_loop_tokens (s.length + 1) s none Globals.init [] (by omega) hval
  simpa using main_o_value pc prog s _ _ v hv

/-- The same list without its unknown tokens is again a list of its own tokens. -/
theorem splitComma_known (s : CStr) :
    splitComma (joinComma ((splitComma s).filter (fun t => !unknownToken t))) =
      (splitComma s).filter (fun t => !unknownToken t) := by
  apply splitComma_joinComma
  intro t ht
  obtain ⟨hmem, hk⟩ := List.mem_filter.mp ht
  refine ⟨splitComma_no_comma s t hmem, ?_⟩
  rintro rfl
  simp [unknownToken_nil] at hk

end GetsuboptDemo

/-- Every diagnostic of `getoptShort` is one of the two messages of `getopt`, for `argv[0]`. -/
theorem getoptShort_diag (os : CStr) (pe : Bool) (d : GetoptData) :
    ∀ e ∈ (getoptShort os pe d).diag,
      ∃ c, e = invalidOptionMsg (d.argv.headD []) c ∨
        e = requiresArgumentMsg (d.argv.headD []) c := by
  intro e
  unfold getoptShort
  repeat' split
  all_goals
    intro he
    simp only [List.not_mem_nil, List.mem_singleton] at he
  all_goals first
    | (subst he; exact ⟨_, Or.inl rfl⟩)
    | (split at he <;> simp only [List.not_mem_nil, List.mem_singleton] at he <;>
        (subst he; exact ⟨_, Or.inr rfl⟩))

theorem getoptFetch_diag (ord : GetoptOrdering) (os : CStr) (pe : Bool) (d : GetoptData) :
    ∀ e ∈ (getoptFetch ord os pe d).diag,
      ∃ c, e = invalidOptionMsg (d.argv.headD []) c ∨
        e = requiresArgumentMsg (d.argv.headD []) c := by
  unfold getoptFetch
  split
  · simp
  · split_ifs
    · simp
    · simp
    · exact getoptShort_diag os pe _

theorem headD_of_inv (a : CStr) (d : GetoptData) (h : GetoptInv a d) : d.argv.headD [] = a := by
  obtain ⟨h1, _, _⟩ := h
  cases hd : d.argv with
  | nil => rw [hd] at h1; simp at h1
  | cons x xs => rw [hd] at h1; simpa using h1

/-- Every diagnostic of `getopt` is one of its two messages, for `argv[0]`. -/
theorem getopt_diag (a : CStr) (pc : Bool) (os : CStr) (d : GetoptData) (h : GetoptInv a d) :
    ∀ e ∈ (getopt pc os d).diag,
      ∃ c, e = invalidOptionMsg a c ∨ e = requiresArgumentMsg a c := by
  unfold getopt
  simp only
  split_ifs
  · simp
  · have := getoptShort_diag (skipOrderingMark os)
      (decide (List.head? (skipOrderingMark os) ≠ some ':')) { d with optarg := none }
    rw [show ({ d with optarg := none } : GetoptData).argv.headD [] = a from
      headD_of_inv a d h] at this
    exact this
  · have hinv := getoptAdvance_inv a (getoptOrdering pc os) { d with optarg := none } h
    have := getoptFetch_diag (getoptOrdering pc os) (skipOrderingMark os)
      (decide (List.head? (skipOrderingMark os) ≠ some ':'))
      (getoptAdvance (getoptOrdering pc os) { d with optarg := none })
    rw [headD_of_inv a _ hinv] at this
    exact this

namespace GetsuboptDemo

theorem subsOutput_eq_filterMap (subs : List Sub) :
    subsOutput subs = subs.filterMap Sub.expectedLine := by
  induction subs with
  | nil => rfl
  | cons s ss ih =>
    cases s <;>
      simp [subsOutput, Sub.output, List.filterMap_cons, ih, unknownLine, Sub.expectedLine]

theorem flagsOutput_eq_flatMap (flags : List Flag) :
    flagsOutput flags = flags.flatMap Flag.expectedLines := by
  induction flags with
  | nil => rfl
  | cons fl fls ih =>
    cases fl <;>
      simp [flagsOutput, Flag.output, Flag.expectedLines, ih, subsOutput_eq_filterMap]

theorem unknownLine_take (v : Option CStr) :
    (unknownLine v).take 19 = "Unknown suboption `".toList := by
  rfl

/-- The suboption loop writes nothing but `Unknown suboption` lines to `stdout`. -/
theorem subopts_loop_stdout (n : Nat) :
    ∀ (s : CStr) (v : Option CStr) (g : Globals) (out : List CStr) (r : Flow),
      (∀ l ∈ out, l.take 19 = "Unknown suboption `".toList) →
      subopts_loop n s v g out = some r →
      (∀ g' out' v', r = .next g' out' v' →
        ∀ l ∈ out', l.take 19 = "Unknown suboption `".toList) ∧
      (∀ g' out', r = .abort g' out' →
        ∀ l ∈ out', l.take 19 = "Unknown suboption `".toList) := by
  induction n with
  | zero => intro s v g out r _ h; simp [subopts_loop] at h
  | succ n ih =>
    intro s v g out r hout h
    simp only [subopts_loop] at h
    split_ifs at h
    · simp only [Option.some.injEq] at h
      subst h
      exact ⟨fun _ _ _ e => (by cases e; exact hout), fun _ _ e => (by cases e)⟩
    · exact ih _ _ _ _ r hout h
    · exact ih _ _ _ _ r hout h
    · split at h
      · simp only [Option.some.injEq] at h
        subst h
        exact ⟨fun _ _ _ e => (by cases e), fun _ _ e => (by cases e; exact hout)⟩
      · exact ih _ _ _ _ r hout h
    · split at h
      · simp only [Option.some.injEq] at h
        subst h
        exact ⟨fun _ _ _ e => (by cases e), fun _ _ e => (by cases e; exact hout)⟩
      · exact ih _ _ _ _ r hout h
    · refine ih _ _ _ _ r ?_ h
      intro l hl
      rcases List.mem_append.mp hl with hl | hl
      · exact hout l hl
      · simp only [List.mem_singleton] at hl
        subst hl
        exact unknownLine_take _

/-- What `main` writes: nothing but `Unknown suboption` lines to `stdout`, and nothing of its
own to `stderr`, which holds only diagnostics of `getopt`. -/
theorem main_loop_streams (pc : Bool) (a : CStr) (n : Nat) :
    ∀ (d : GetoptData) (v : Option CStr) (g : Globals) (out err : List CStr) (p : Proc),
      GetoptInv a d →
      (∀ l ∈ out, l.take 19 = "Unknown suboption `".toList) →
      (∀ e ∈ err, ∃ c, e = invalidOptionMsg a c ∨ e = requiresArgumentMsg a c) →
      main_loop pc n d v g out err = some p →
      (∀ l ∈ p.stdout, l.take 19 = "Unknown suboption `".toList) ∧
      (∀ e ∈ p.stderr, ∃ c, e = invalidOptionMsg a c ∨ e = requiresArgumentMsg a c) := by
  induction n with
  | zero => intro d v g out err p _ _ _ h; simp [main_loop] at h
  | succ n ih =>
    intro d v g out err p hinv hout herr h
    have hinv' := getopt_inv a pc optstring d hinv
    have hdiag := getopt_diag a pc optstring d hinv
    have herr' : ∀ e ∈ err ++ (getopt pc optstring d).diag,
        ∃ c, e = invalidOptionMsg a c ∨ e = requiresArgumentMsg a c := by
      intro e he
      rcases List.mem_append.mp he with he | he
      · exact herr e he
      · exact hdiag e he
    simp only [main_loop] at h
    split at h
    · simp only [Option.some.injEq] at h
      subst h
      exact ⟨hout, herr'⟩
    · split_ifs at h
      · exact ih _ _ _ _ _ p hinv' hout herr' h
      · exact ih _ _ _ _ _ p hinv' hout herr' h
      · split at h
        · simp at h
        · rename_i subopts hoa
          split at h
          · simp at h
          · rename_i g' out' hsl
            simp only [Option.some.injEq] at h
            subst h
            exact ⟨(subopts_loop_stdout _ _ _ _ _ _ hout hsl).2 _ _ rfl, herr'⟩
          · rename_i g' out' v' hsl
            exact ih _ _ _ _ _ p hinv'
              ((subopts_loop_stdout _ _ _ _ _ _ hout hsl).1 _ _ _ rfl) herr' h
      · simp only [Option.some.injEq] at h
        subst h
        exact ⟨hout, herr'⟩

theorem MountOpt.toSub_wf (m : MountOpt) : m.toSub.WF := by
  cases m <;> simp only [MountOpt.toSub, Sub.WF]
  · exact comma_not_mem_decimal _
  · exact comma_not_mem_decimal _

theorem subsOutput_mountOpts (ms : List MountOpt) : subsOutput (ms.map MountOpt.toSub) = [] := by
  induction ms with
  | nil => rfl
  | cons m ms ih => cases m <;> simp [subsOutput, MountOpt.toSub, Sub.output, ih]

theorem applySubs_mountOpts (ms : List MountOpt) (h : ∀ m ∈ ms, m.InRange) :
    applySubs Globals.init (ms.map MountOpt.toSub) =
      { do_all := 0, type := none,
        read_size := (lastAssigned MountOpt.toReadSize ms).getD 0,
        write_size := (lastAssigned MountOpt.toWriteSize ms).getD 0,
        read_only := (lastAssigned MountOpt.toReadOnly ms).getD 0 } := by
  rw [applySubs_eq_foldl, List.foldl_map]
  have h1 := foldl_lastAssigned (fun g m => Sub.apply g (MountOpt.toSub m)) Globals.do_all
    (fun _ => none) ms Globals.init
    (by intro m _ g; cases m <;> rfl)
  have h2 := foldl_lastAssigned (fun g m => Sub.apply g (MountOpt.toSub m)) Globals.type
    (fun _ => none) ms Globals.init
    (by intro m _ g; cases m <;> rfl)
  have h3 := foldl_lastAssigned (fun g m => Sub.apply g (MountOpt.toSub m)) Globals.read_size
    MountOpt.toReadSize ms Globals.init
    (by
      intro m hm g
      have hr := h m hm
      cases m with
      | rsize n => exact atoi_decimal n hr.1 hr.2
      | _ => rfl)
  have h4 := foldl_lastAssigned (fun g m => Sub.apply g (MountOpt.toSub m)) Globals.write_size
    MountOpt.toWriteSize ms Globals.init
    (by
      intro m hm g
      have hr := h m hm
      cases m with
      | wsize n => exact atoi_decimal n hr.1 hr.2
      | _ => rfl)
  have h5 := foldl_lastAssigned (fun g m => Sub.apply g (MountOpt.toSub m)) Globals.read_only
    MountOpt.toReadOnly ms Globals.init
    (by intro m _ g; cases m <;> rfl)
  have hn : ∀ l : List MountOpt, lastAssigned (fun _ => (none : Option Int)) l = none := by
    intro l; induction l <;> simp_all [lastAssigned]
  have hn' : ∀ l : List MountOpt,
      lastAssigned (fun _ => (none : Option (Option CStr))) l = none := by
    intro l; induction l <;> simp_all [lastAssigned]
  rw [hn] at h1
  rw [hn'] at h2
  generalize List.foldl (fun g m => Sub.apply g (MountOpt.toSub m)) Globals.init ms = G at *
  cases G
  simp only [Globals.init, Option.getD_none] at h1 h2 h3 h4 h5
  simp only [Globals.init, h1, h2, h3, h4, h5]

theorem main_o (pc : Bool) (prog : CStr) (subs : List Sub) (hwf : ∀ s ∈ subs, s.WF) :
    main pc [prog, ['-', 'o'], joinComma (subs.map Sub.text)] =
      some { status := .exited 0, stdout := subsOutput subs, stderr := [],
             globals := applySubs Globals.init subs } := by
  have h := main_flags pc prog [.o subs] [] (by simpa [Flag.WF] using hwf) (by simp)
  simpa [flagArgs, Flag.args, flagsOutput, Flag.output, applyFlags, Flag.apply] using h

theorem applySubs_read_size (subs : List Sub) (h : ∀ v, Sub.rsize v ∉ subs) (g : Globals) :
    (applySubs g subs).read_size = g.read_size := by
  induction subs generalizing g with
  | nil => rfl
  | cons s ss ih =>
    have hss : ∀ v, Sub.rsize v ∉ ss := fun v hv => h v (List.mem_cons_of_mem _ hv)
    cases s with
    | rsize v => exact absurd (List.mem_cons_self _ _) (h v)
    | _ => simp [applySubs, ih hss, Sub.apply]

theorem applySubs_write_size (subs : List Sub) (h : ∀ v, Sub.wsize v ∉ subs) (g : Globals) :
    (applySubs g subs).write_size = g.write_size := by
  induction subs generalizing g with
  | nil => rfl
  | cons s ss ih =>
    have hss : ∀ v, Sub.wsize v ∉ ss := fun v hv => h v (List.mem_cons_of_mem _ hv)
    cases s with
    | wsize v => exact absurd (List.mem_cons_self _ _) (h v)
    | _ => simp [applySubs, ih hss, Sub.apply]

theorem wf_insert (subs1 subs2 : List Sub) (s : Sub) (h1 : ∀ x ∈ subs1, x.WF)
    (h2 : ∀ x ∈ subs2, x.WF) (hs : s.WF) : ∀ x ∈ subs1 ++ s :: subs2, x.WF := by
  intro x hx
  rcases List.mem_append.mp hx with h | h
  · exact h1 x h
  · rcases List.mem_cons.mp h with rfl | h
    · exact hs
    · exact h2 x h

end GetsuboptDemo

/-! ## The claims about `getopt/main.c` -/

/-- C1. getopt-demo, success path: for every command line made of recognised options (`-a`,
`-b V`) followed by positional arguments that do not start with `-`, in either scanning mode,
standard output is exactly one line per option in command-line order followed by one
`Argument: X` line per positional argument in order, nothing is written to the error stream,
and the exit status is 0. -/
theorem C1_getopt_demo_success (posixly_correct : Bool) (prog : CStr)
    (opts : List GetoptDemo.Opt) (pos : List CStr) (hpos : ∀ p ∈ pos, p.head? ≠ some '-') :
    GetoptDemo.main posixly_correct (prog :: (GetoptDemo.optArgs opts ++ pos)) =
      some { status := .exited 0,
             stdout := opts.map GetoptDemo.Opt.line ++
               pos.map (fun x => "Argument: ".toList ++ x ++ "\n".toList),
             stderr := [] } :=
  GetoptDemo.main_success posixly_correct prog opts pos hpos

/-- The witness of C1: `-a -b foo x y`. -/
theorem C1_witness :
    (∀ p ∈ ["x".toList, "y".toList], p.head? ≠ some '-') ∧
    GetoptDemo.main false
        ["prog".toList, "-a".toList, "-b".toList, "foo".toList, "x".toList, "y".toList] =
      some { status := .exited 0,
             stdout := ["Option -a\n".toList, "Option -b with value 'foo'\n".toList,
               "Argument: x\n".toList, "Argument: y\n".toList],
             stderr := [] } :=
  ⟨by decide,
   C1_getopt_demo_success false "prog".toList [.a, .b "foo".toList] ["x".toList, "y".toList]
     (by decide)⟩

/-- C2. getopt-demo, rejection: for every command line in which, after any recognised
options, the parser meets an element whose option character is neither `a` nor `b` (and which
is not the terminator `--`), whatever follows, the program exits with status 1 and the error
stream holds the diagnostic of `getopt` followed by the usage line
`Usage: <argv[0]> [-a] [-b value]`.  More generally, for every command line whatsoever, as
soon as a call of `getopt` returns a character other than `a` and `b` (its `?` for a flag it
does not recognise), the program exits with status 1 and the usage line is the last thing
written to the error stream. -/
theorem C2_getopt_demo_rejection (posixly_correct : Bool) (prog : CStr)
    (opts : List GetoptDemo.Opt) (c : Char) (tl : CStr) (rest : List CStr)
    (ha : c ≠ 'a') (hb : c ≠ 'b') (hdd : ¬ (c = '-' ∧ tl = [])) :
    (∃ p, GetoptDemo.main posixly_correct
        (prog :: (GetoptDemo.optArgs opts ++ ('-' :: c :: tl) :: rest)) = some p ∧
      p.status = .exited 1 ∧
      p.stderr = [invalidOptionMsg prog c,
        "Usage: ".toList ++ prog ++ " [-a] [-b value]\n".toList]) ∧
    (∀ (pc : Bool) (argv : List CStr),
      (∃ x ∈ getoptReturns pc GetoptDemo.optstring (getoptFuel argv) (GetoptData.init argv),
        x ≠ 'a' ∧ x ≠ 'b') →
      ∃ p, GetoptDemo.main pc argv = some p ∧ p.status = .exited 1 ∧
        p.stderr.getLast? =
          some ("Usage: ".toList ++ argv.headD [] ++ " [-a] [-b value]\n".toList)) := by
  refine ⟨⟨_, GetoptDemo.main_invalid posixly_correct prog opts c tl rest ha hb hdd, rfl, rfl⟩,
    ?_⟩
  intro pc argv h
  cases argv with
  | nil => simp [getoptReturns_nil_argv] at h
  | cons a args =>
    exact GetoptDemo.main_loop_rejects pc a _ _ [] [] (init_inv a args) h

/-- The witness of C2: `-z`. -/
theorem C2_witness :
    (('z' : Char) ≠ 'a' ∧ ('z' : Char) ≠ 'b' ∧ ¬ (('z' : Char) = '-' ∧ ([] : CStr) = [])) ∧
    ∃ p, GetoptDemo.main false ["prog".toList, "-z".toList] = some p ∧
      p.status = .exited 1 ∧
      p.stderr = ["prog: invalid option -- 'z'\n".toList,
        "Usage: prog [-a] [-b value]\n".toList] :=
  ⟨by decide,
   (C2_getopt_demo_rejection false "prog".toList [] 'z' [] [] (by decide) (by decide)
     (by decide)).1⟩

/-- C10. getopt-demo, no rollback and no arguments on failure: when an unrecognised flag
follows `n` recognised options, the run exits with status 1 and standard output is exactly the
`n` option lines, in order; and every command line whatsoever gives a run, in which, when it
exits with status 1, no line of standard output starts with `Argument: `. -/
theorem C10_getopt_demo_failure_output (posixly_correct : Bool) (prog : CStr)
    (opts : List GetoptDemo.Opt) (c : Char) (tl : CStr) (rest : List CStr)
    (ha : c ≠ 'a') (hb : c ≠ 'b') (hdd : ¬ (c = '-' ∧ tl = [])) :
    (∃ p, GetoptDemo.main posixly_correct
        (prog :: (GetoptDemo.optArgs opts ++ ('-' :: c :: tl) :: rest)) = some p ∧
      p.status = .exited 1 ∧ p.stdout = opts.map GetoptDemo.Opt.line) ∧
    (∀ (pc : Bool) (argv : List CStr),
      ∃ p, GetoptDemo.main pc argv = some p ∧
        (p.status = .exited 1 → ∀ l ∈ p.stdout, l.take 10 ≠ "Argument: ".toList)) := by
  refine ⟨⟨_, GetoptDemo.main_invalid posixly_correct prog opts c tl rest ha hb hdd, rfl, rfl⟩,
    ?_⟩
  intro pc argv
  obtain ⟨p, hp⟩ := GetoptDemo.main_total pc argv
  exact ⟨p, hp, fun hs => GetoptDemo.main_loop_no_argument pc _ _ [] [] p (by simp) hp hs⟩

/-- The witness of C10: `-a -b foo -z x`. -/
theorem C10_witness :
    (('z' : Char) ≠ 'a' ∧ ('z' : Char) ≠ 'b' ∧ ¬ (('z' : Char) = '-' ∧ ([] : CStr) = [])) ∧
    ∃ p, GetoptDemo.main false
        ["prog".toList, "-a".toList, "-b".toList, "foo".toList, "-z".toList, "x".toList] =
          some p ∧
      p.status = .exited 1 ∧
      p.stdout = ["Option -a\n".toList, "Option -b with value 'foo'\n".toList] :=
  ⟨by decide,
   (C10_getopt_demo_failure_output false "prog".toList [.a, .b "foo".toList] 'z' []
     ["x".toList] (by decide) (by decide) (by decide)).1⟩

/-! ## The claims about `getsubopt/main.c` -/

/-- C3 (amended). getsubopt-demo, known suboptions: for every `-o` value that is a
comma-separated list of `ro`, `rw`, `rsize=N`, `wsize=N` with every `N` a decimal integer in
the range of `int`, the program exits 0 and prints nothing, and afterwards `read_only` is the
value of the last `ro` (1) or `rw` (0), `read_size` the `N` of the last `rsize=N` and
`write_size` the `N` of the last `wsize=N`, each 0 when no suboption sets it. -/
theorem C3_getsubopt_demo_known (posixly_correct : Bool) (prog : CStr)
    (ms : List GetsuboptDemo.MountOpt) (hrange : ∀ m ∈ ms, m.InRange) :
    GetsuboptDemo.main posixly_correct
        [prog, "-o".toList,
          GetsuboptDemo.joinComma (ms.map (fun m => m.toSub.text))] =
      some { status := .exited 0, stdout := [], stderr := [],
             globals :=
               { do_all := 0, type := none,
                 read_size := (lastAssigned GetsuboptDemo.MountOpt.toReadSize ms).getD 0,
                 write_size := (lastAssigned GetsuboptDemo.MountOpt.toWriteSize ms).getD 0,
                 read_only := (lastAssigned GetsuboptDemo.MountOpt.toReadOnly ms).getD 0 } } := by
  have h := GetsuboptDemo.main_o posixly_correct prog (ms.map GetsuboptDemo.MountOpt.toSub)
    (by
      intro s hs
      obtain ⟨m, _, rfl⟩ := List.mem_map.mp hs
      exact m.toSub_wf)
  rw [GetsuboptDemo.subsOutput_mountOpts, GetsuboptDemo.applySubs_mountOpts ms hrange,
    List.map_map] at h
  exact h

/-- The witness of C3: `-o rsize=4096,ro`. -/
theorem C3_witness :
    (∀ m ∈ [GetsuboptDemo.MountOpt.rsize 4096, GetsuboptDemo.MountOpt.ro], m.InRange) ∧
    GetsuboptDemo.main false ["prog".toList, "-o".toList, "rsize=4096,ro".toList] =
      some { status := .exited 0, stdout := [], stderr := [],
             globals := { do_all := 0, type := none, read_size := 4096, write_size := 0,
                          read_only := 1 } } :=
  ⟨by decide, C3_getsubopt_demo_known false "prog".toList [.rsize 4096, .ro] (by decide)⟩

/-- The counterexample to C3 as stated: `-o rsize=2147483648` exits 0, but `read_size` is an
`int` and ends as -2147483648, not as the decimal integer that was given. -/
theorem C3_counterexample :
    ∃ p, GetsuboptDemo.main false ["prog".toList, "-o".toList, "rsize=2147483648".toList] =
        some p ∧
      p.status = .exited 0 ∧ p.globals.read_size = -2147483648 ∧
      p.globals.read_size ≠ 2147483648 :=
  ⟨{ status := .exited 0, stdout := [], stderr := [],
     globals := { do_all := 0, type := none, read_size := -2147483648, write_size := 0,
                  read_only := 0 } },
   by decide, rfl, rfl, by decide⟩

/-- C4 (amended). getsubopt-demo, unknown suboption: for every value of `-o` whatsoever none of
whose tokens is an `rsize` or `wsize` without a value, the program exits 0 with nothing on the
error stream and prints, for each token whose name is none of `ro`, `rw`, `rsize`, `wsize` (an
empty token before a comma included), one `Unknown suboption` line with the text of that
token, in order, and nothing else.  Every other token of the list is applied, before and after
the unknown ones: each global ends as the last assignment among the tokens leaves it (`ro` and
`rw` set `read_only`, `rsize=V` and `wsize=V` set `read_size` and `write_size` to `atoi(V)`, an
unknown token sets nothing), 0 or null when no token sets it.  No global changes on account of
an unknown token: the same list without its unknown tokens prints nothing and ends with the
same globals. -/
theorem C4_getsubopt_demo_unknown (posixly_correct : Bool) (prog s : CStr)
    (hval : ∀ t ∈ splitComma s, GetsuboptDemo.valuelessSize t = false) :
    ∃ p, GetsuboptDemo.main posixly_correct [prog, "-o".toList, s] = some p ∧
      p.status = .exited 0 ∧
      p.stdout = (splitComma s).filterMap GetsuboptDemo.tokenLine ∧
      p.stderr = [] ∧
      GetsuboptDemo.LastWins p.globals ((splitComma s).flatMap GetsuboptDemo.tokenAssigns) ∧
      GetsuboptDemo.main posixly_correct
          [prog, "-o".toList, GetsuboptDemo.joinComma
            ((splitComma s).filter (fun t => !GetsuboptDemo.unknownToken t))] =
        some { status := .exited 0, stdout := [], stderr := [], globals := p.globals } := by
  refine ⟨_, GetsuboptDemo.main_tokens posixly_correct prog s hval, rfl, rfl, rfl,
    GetsuboptDemo.lastWins_foldl _, ?_⟩
  have h := GetsuboptDemo.main_tokens posixly_correct prog
    (GetsuboptDemo.joinComma ((splitComma s).filter (fun t => !GetsuboptDemo.unknownToken t)))
    (by
      rw [GetsuboptDemo.splitComma_known]
      intro t ht
      exact hval t (List.mem_of_mem_filter ht))
  rw [GetsuboptDemo.splitComma_known, GetsuboptDemo.filterMap_tokenLine_filter,
    GetsuboptDemo.flatMap_tokenAssigns_filter] at h
  exact h

/-- The witness of C4: `-o ro,bogus=1,,rsize=7,rw=x` against `-o ro,rsize=7,rw=x`. -/
theorem C4_witness :
    (∀ t ∈ splitComma "ro,bogus=1,,rsize=7,rw=x".toList,
      GetsuboptDemo.valuelessSize t = false) ∧
    ∃ p, GetsuboptDemo.main false
          ["prog".toList, "-o".toList, "ro,bogus=1,,rsize=7,rw=x".toList] = some p ∧
      p.status = .exited 0 ∧
      p.stdout = ["Unknown suboption `bogus=1'\n".toList, "Unknown suboption `'\n".toList] ∧
      p.stderr = [] ∧
      GetsuboptDemo.LastWins p.globals [.read_only 1, .read_size 7, .read_only 0] ∧
      GetsuboptDemo.main false ["prog".toList, "-o".toList, "ro,rsize=7,rw=x".toList] =
        some { status := .exited 0, stdout := [], stderr := [], globals := p.globals } :=
  ⟨by decide,
   C4_getsubopt_demo_unknown false "prog".toList "ro,bogus=1,,rsize=7,rw=x".toList (by decide)⟩

/-- The counterexample to C4 as stated: `-o bogus,rsize` contains an unknown suboption, yet the
program does not exit 0: after the message for `bogus` it aborts at `rsize`. -/
theorem C4_counterexample :
    ∃ p, GetsuboptDemo.main false ["prog".toList, "-o".toList, "bogus,rsize".toList] = some p ∧
      p.status = .aborted ∧ p.status ≠ .exited 0 :=
  ⟨{ status := .aborted, stdout := ["Unknown suboption `bogus'\n".toList], stderr := [],
     globals := GetsuboptDemo.Globals.init },
   by decide, rfl, by decide⟩

/-- C5. getsubopt-demo, missing suboption value: after any well-formed flags, when the `-o`
list has a bare `rsize` or `wsize` (at its end or before a comma) after well-formed
suboptions, the program aborts at that suboption whatever follows, instead of exiting 0; the
globals at that point are those with which the run whose list stops just before that
suboption exits 0, so the suboption assigns nothing. -/
theorem C5_getsubopt_demo_missing_value (posixly_correct : Bool) (prog : CStr)
    (flags : List GetsuboptDemo.Flag) (subs : List GetsuboptDemo.Sub) (k post : CStr)
    (rest : List CStr) (hflags : ∀ fl ∈ flags, fl.WF) (hsubs : ∀ s ∈ subs, s.WF)
    (hk : k = "rsize".toList ∨ k = "wsize".toList)
    (hpost : post = [] ∨ post.head? = some ',') :
    ∃ p q,
      GetsuboptDemo.main posixly_correct
          (prog :: (GetsuboptDemo.flagArgs flags ++
            "-o".toList ::
              (GetsuboptDemo.commaTerminated (subs.map GetsuboptDemo.Sub.text) ++ (k ++ post)) ::
                rest)) = some p ∧
      p.status = .aborted ∧
      GetsuboptDemo.main posixly_correct
          (prog :: (GetsuboptDemo.flagArgs flags ++
            ["-o".toList, GetsuboptDemo.joinComma (subs.map GetsuboptDemo.Sub.text)])) =
        some q ∧
      q.status = .exited 0 ∧ p.globals = q.globals := by
  have h := GetsuboptDemo.main_flags posixly_correct prog (flags ++ [.o subs]) []
    (by
      intro fl hfl
      rcases List.mem_append.mp hfl with h | h
      · exact hflags fl h
      · simp only [List.mem_singleton] at h
        subst h
        exact hsubs)
    (by simp)
  have hq : GetsuboptDemo.main posixly_correct
      (prog :: (GetsuboptDemo.flagArgs flags ++
        ["-o".toList, GetsuboptDemo.joinComma (subs.map GetsuboptDemo.Sub.text)])) =
      some { status := .exited 0,
             stdout := GetsuboptDemo.flagsOutput flags ++ GetsuboptDemo.subsOutput subs,
             stderr := [],
             globals := GetsuboptDemo.applySubs
               (GetsuboptDemo.applyFlags GetsuboptDemo.Globals.init flags) subs } := by
    simpa [GetsuboptDemo.flagArgs_append, GetsuboptDemo.flagArgs, GetsuboptDemo.Flag.args,
      GetsuboptDemo.flagsOutput_append, GetsuboptDemo.flagsOutput, GetsuboptDemo.Flag.output,
      GetsuboptDemo.applyFlags_append, GetsuboptDemo.applyFlags, GetsuboptDemo.Flag.apply]
      using h
  exact ⟨_, _, GetsuboptDemo.main_flags_abort posixly_correct prog flags subs k post rest
    hflags hsubs hk hpost, rfl, hq, rfl, rfl⟩

/-- The witness of C5: `-a -o ro,rsize=5,wsize,rw x` against `-a -o ro,rsize=5`. -/
theorem C5_witness :
    ((∀ fl ∈ [GetsuboptDemo.Flag.a], fl.WF) ∧
      (∀ s ∈ [GetsuboptDemo.Sub.ro, GetsuboptDemo.Sub.rsize "5".toList], s.WF) ∧
      ("wsize".toList = "rsize".toList ∨ "wsize".toList = "wsize".toList) ∧
      (",rw".toList = [] ∨ (",rw".toList).head? = some ',')) ∧
    ∃ p q,
      GetsuboptDemo.main false
          ["prog".toList, "-a".toList, "-o".toList, "ro,rsize=5,wsize,rw".toList, "x".toList] =
        some p ∧
      p.status = .aborted ∧
      GetsuboptDemo.main false ["prog".toList, "-a".toList, "-o".toList, "ro,rsize=5".toList] =
        some q ∧
      q.status = .exited 0 ∧ p.globals = q.globals :=
  ⟨by decide,
   C5_getsubopt_demo_missing_value false "prog".toList [.a] [.ro, .rsize "5".toList]
     "wsize".toList ",rw".toList ["x".toList] (by decide) (by decide) (by decide) (by decide)⟩

/-- C6 (amended). getsubopt-demo, unrecognised outer flag: for every command line in which,
after any well-formed flags, the parser meets an element whose option character is none of
`a`, `t`, `o` (and which is not the terminator `--`), whatever follows, the process is
aborted.  At that flag `main` prints nothing, neither a usage line nor a message of its own:
what it has written to standard output is exactly the `Unknown suboption` lines of the `-o`
lists before the flag (nothing when these have no unknown suboption).  But the error stream is
not empty: it holds exactly the diagnostic `<argv[0]>: invalid option -- '<c>'` that `getopt`
writes.  More generally, for every command line whatsoever, as soon as a call of `getopt`
returns a character other than `a`, `t` and `o`, the process is aborted (unless a suboption
has aborted it before); every line `main` has written to standard output is an
`Unknown suboption` line, and the error stream holds nothing but diagnostics of `getopt`
(`invalid option` or `option requires an argument`). -/
theorem C6_getsubopt_demo_unrecognised (posixly_correct : Bool) (prog : CStr)
    (flags : List GetsuboptDemo.Flag) (c : Char) (tl : CStr) (rest : List CStr)
    (hflags : ∀ fl ∈ flags, fl.WF) (ha : c ≠ 'a') (ht : c ≠ 't') (ho : c ≠ 'o')
    (hdd : ¬ (c = '-' ∧ tl = [])) :
    (∃ p, GetsuboptDemo.main posixly_correct
        (prog :: (GetsuboptDemo.flagArgs flags ++ ('-' :: c :: tl) :: rest)) = some p ∧
      p.status = .aborted ∧
      p.stdout = flags.flatMap GetsuboptDemo.Flag.expectedLines ∧
      p.stderr = [prog ++ ": invalid option -- '".toList ++ [c] ++ "'\n".toList]) ∧
    (∀ (pc : Bool) (argv : List CStr),
      (∃ x ∈ getoptReturns pc GetsuboptDemo.optstring (getoptFuel argv) (GetoptData.init argv),
        x ≠ 'a' ∧ x ≠ 't' ∧ x ≠ 'o') →
      ∃ p, GetsuboptDemo.main pc argv = some p ∧ p.status = .aborted ∧
        (∀ l ∈ p.stdout, l.take 19 = "Unknown suboption `".toList) ∧
        (∀ e ∈ p.stderr, ∃ x,
          e = argv.headD [] ++ ": invalid option -- '".toList ++ [x] ++ "'\n".toList ∨
          e = argv.headD [] ++ ": option requires an argument -- '".toList ++ [x] ++
            "'\n".toList)) := by
  constructor
  · refine ⟨_, GetsuboptDemo.main_flags_invalid posixly_correct prog flags c tl rest hflags ha ht
      ho hdd, rfl, ?_, rfl⟩
    exact GetsuboptDemo.flagsOutput_eq_flatMap flags
  · intro pc argv h
    cases argv with
    | nil => simp [getoptReturns_nil_argv] at h
    | cons a args =>
      obtain ⟨p, hp, hs⟩ := GetsuboptDemo.main_loop_aborts pc _ _ none _ [] [] h
      obtain ⟨hout, herr⟩ := GetsuboptDemo.main_loop_streams pc a _ _ none _ [] [] p
        (init_inv a args) (by simp) (by simp) hp
      exact ⟨p, hp, hs, hout, herr⟩

/-- The witness of C6: `-a -o ro,bogus -z x`. -/
theorem C6_witness :
    ((∀ fl ∈ [GetsuboptDemo.Flag.a,
        GetsuboptDemo.Flag.o [.ro, .unknown "bogus".toList]], fl.WF) ∧
      ('z' : Char) ≠ 'a' ∧ ('z' : Char) ≠ 't' ∧
      ('z' : Char) ≠ 'o' ∧ ¬ (('z' : Char) = '-' ∧ ([] : CStr) = [])) ∧
    ∃ p, GetsuboptDemo.main false
        ["prog".toList, "-a".toList, "-o".toList, "ro,bogus".toList, "-z".toList,
          "x".toList] = some p ∧
      p.status = .aborted ∧
      p.stdout = ["Unknown suboption `bogus'\n".toList] ∧
      p.stderr = ["prog: invalid option -- 'z'\n".toList] :=
  ⟨by decide,
   (C6_getsubopt_demo_unrecognised false "prog".toList [.a, .o [.ro, .unknown "bogus".toList]]
     'z' [] ["x".toList] (by decide) (by decide) (by decide) (by decide) (by decide)).1⟩

/-- The counterexample to C6 as stated: on `-z` the process is aborted, but not without an
explanatory message: the error stream holds `prog: invalid option -- 'z'`. -/
theorem C6_counterexample :
    ∃ p, GetsuboptDemo.main false ["prog".toList, "-z".toList] = some p ∧
      p.status = .aborted ∧ p.stderr = ["prog: invalid option -- 'z'\n".toList] ∧
      p.stderr ≠ [] :=
  ⟨{ status := .aborted, stdout := [], stderr := ["prog: invalid option -- 'z'\n".toList],
     globals := GetsuboptDemo.Globals.init },
   by decide, rfl, rfl, by decide⟩

/-- C7. getsubopt-demo, last occurrence wins: for every command line of well-formed flags
followed by positional arguments, the program exits 0 and the final value of each global is
the value given by the last assignment, in command-line order, that targets it (`-a` assigns
`do_all`, `-t V` assigns `type`, `ro`/`rw` assign `read_only`, `rsize=V`/`wsize=V` assign
`read_size`/`write_size`); a global that no occurrence targets keeps its initial 0 or null.
More generally, for every command line whatsoever on which the program ends with `return 0`,
the same holds of the occurrences as `getopt` and `getsubopt` report them. -/
theorem C7_getsubopt_demo_last_wins (posixly_correct : Bool) (prog : CStr)
    (flags : List GetsuboptDemo.Flag) (pos : List CStr)
    (hflags : ∀ fl ∈ flags, fl.WF) (hpos : ∀ p ∈ pos, p.head? ≠ some '-') :
    (∃ p, GetsuboptDemo.main posixly_correct (prog :: (GetsuboptDemo.flagArgs flags ++ pos)) =
        some p ∧
      p.status = .exited 0 ∧
      GetsuboptDemo.LastWins p.globals (GetsuboptDemo.assignments flags)) ∧
    (∀ (pc : Bool) (argv : List CStr) (p : GetsuboptDemo.Proc),
      GetsuboptDemo.main pc argv = some p → p.status = .exited 0 →
      GetsuboptDemo.LastWins p.globals (GetsuboptDemo.occurrences pc argv)) := by
  constructor
  · refine ⟨_, GetsuboptDemo.main_flags posixly_correct prog flags pos hflags hpos, rfl, ?_⟩
    simp only [GetsuboptDemo.applyFlags_assignments]
    exact GetsuboptDemo.lastWins_foldl _
  · intro pc argv p h hs
    rw [GetsuboptDemo.main_loop_assigns pc _ _ _ _ _ _ p h hs]
    exact GetsuboptDemo.lastWins_foldl _

/-- The witness of C7: `-t a -o ro,rw -o rsize=1 -t b -o rsize=2 x`. -/
theorem C7_witness :
    ((∀ fl ∈ [GetsuboptDemo.Flag.t "a".toList, GetsuboptDemo.Flag.o [.ro, .rw],
        GetsuboptDemo.Flag.o [.rsize "1".toList], GetsuboptDemo.Flag.t "b".toList,
        GetsuboptDemo.Flag.o [.rsize "2".toList]], fl.WF) ∧
      (∀ p ∈ ["x".toList], p.head? ≠ some '-')) ∧
    ∃ p, GetsuboptDemo.main false
        ["prog".toList, "-t".toList, "a".toList, "-o".toList, "ro,rw".toList, "-o".toList,
          "rsize=1".toList, "-t".toList, "b".toList, "-o".toList, "rsize=2".toList,
          "x".toList] = some p ∧
      p.status = .exited 0 ∧
      GetsuboptDemo.LastWins p.globals
        [.type (some "a".toList), .read_only 1, .read_only 0, .read_size 1,
          .type (some "b".toList), .read_size 2] :=
  ⟨by decide,
   (C7_getsubopt_demo_last_wins false "prog".toList
     [.t "a".toList, .o [.ro, .rw], .o [.rsize "1".toList], .t "b".toList,
       .o [.rsize "2".toList]] ["x".toList] (by decide) (by decide)).1⟩

/-- C9 (amended). getsubopt-demo, present but non-numeric value: for every `rsize=V` /
`wsize=V` suboption among well-formed suboptions whose value `V` is present (the empty string
included), the program does not abort at it and exits 0; when `V`, after the white space and
the optional sign that `atoi` skips, does not go on with a decimal digit, `read_size` /
`write_size` is 0 at the end (the result of `atoi`), unless a later suboption of the list sets
it again.  Only an absent value aborts: with the bare name in the place of the suboption,
whatever follows it in the list, the process is aborted. -/
theorem C9_getsubopt_demo_non_numeric (posixly_correct : Bool) (prog : CStr)
    (subs1 subs2 : List GetsuboptDemo.Sub) (v : CStr) (w : Bool)
    (h1 : ∀ s ∈ subs1, s.WF) (h2 : ∀ s ∈ subs2, s.WF) (hv : ',' ∉ v) :
    (∃ p, GetsuboptDemo.main posixly_correct
          [prog, "-o".toList, GetsuboptDemo.joinComma
            ((subs1 ++ GetsuboptDemo.sizeSub w v :: subs2).map GetsuboptDemo.Sub.text)] =
        some p ∧
      p.status = .exited 0 ∧
      (noLeadingInteger v = true → (∀ u, GetsuboptDemo.sizeSub w u ∉ subs2) →
        GetsuboptDemo.sizeGlobal w p.globals = 0)) ∧
    (∀ post : CStr, post = [] ∨ post.head? = some ',' →
      ∃ p, GetsuboptDemo.main posixly_correct
          [prog, "-o".toList,
            GetsuboptDemo.commaTerminated (subs1.map GetsuboptDemo.Sub.text) ++
              (GetsuboptDemo.sizeName w ++ post)] = some p ∧
        p.status = .aborted) := by
  constructor
  · cases w
    · refine ⟨_, GetsuboptDemo.main_o posixly_correct prog _
        (GetsuboptDemo.wf_insert subs1 subs2 (.rsize v) h1 h2 hv), rfl, ?_⟩
      intro hno hlater
      simp only [GetsuboptDemo.sizeGlobal, Bool.false_eq_true, if_false,
        GetsuboptDemo.applySubs_append, GetsuboptDemo.applySubs,
        GetsuboptDemo.applySubs_read_size subs2 hlater, GetsuboptDemo.Sub.apply]
      exact atoi_noLeadingInteger v hno
    · refine ⟨_, GetsuboptDemo.main_o posixly_correct prog _
        (GetsuboptDemo.wf_insert subs1 subs2 (.wsize v) h1 h2 hv), rfl, ?_⟩
      intro hno hlater
      simp only [GetsuboptDemo.sizeGlobal, if_true,
        GetsuboptDemo.applySubs_append, GetsuboptDemo.applySubs,
        GetsuboptDemo.applySubs_write_size subs2 hlater, GetsuboptDemo.Sub.apply]
      exact atoi_noLeadingInteger v hno
  · intro post hpost
    have hk : GetsuboptDemo.sizeName w = ['r', 's', 'i', 'z', 'e'] ∨
        GetsuboptDemo.sizeName w = ['w', 's', 'i', 'z', 'e'] := by
      cases w
      · exact Or.inl rfl
      · exact Or.inr rfl
    have h := GetsuboptDemo.main_flags_abort posixly_correct prog [] subs1
      (GetsuboptDemo.sizeName w) post [] (by simp) h1 hk hpost
    exact ⟨_, h, rfl⟩

/-- The witness of C9: `-o rsize=9,rsize=` -- an empty value -- and `-o rsize=9,rsize,ro`. -/
theorem C9_witness :
    ((∀ s ∈ [GetsuboptDemo.Sub.rsize "9".toList], s.WF) ∧
      (∀ s ∈ ([] : List GetsuboptDemo.Sub), s.WF) ∧ ',' ∉ ([] : CStr)) ∧
    ((∃ p, GetsuboptDemo.main false ["prog".toList, "-o".toList, "rsize=9,rsize=".toList] =
        some p ∧
      p.status = .exited 0 ∧
      (noLeadingInteger [] = true →
        (∀ u, GetsuboptDemo.sizeSub false u ∉ ([] : List GetsuboptDemo.Sub)) →
        p.globals.read_size = 0)) ∧
    (∀ post : CStr, post = [] ∨ post.head? = some ',' →
      ∃ p, GetsuboptDemo.main false
          ["prog".toList, "-o".toList, "rsize=9,".toList ++ ("rsize".toList ++ post)] =
            some p ∧
        p.status = .aborted)) :=
  ⟨by decide,
   C9_getsubopt_demo_non_numeric false "prog".toList [.rsize "9".toList] [] [] false
     (by decide) (by decide) (by decide)⟩

/-- The counterexample to C9 as stated: in `-o "rsize= 12,wsize"` the value of `rsize` is
present and starts with a space, not with a decimal integer; yet `read_size` becomes 12 and not
0, because `atoi` skips leading white space, and the program does not go on to exit 0: it
aborts at the bare `wsize` that follows. -/
theorem C9_counterexample :
    ∃ p, GetsuboptDemo.main false ["prog".toList, "-o".toList, "rsize= 12,wsize".toList] =
        some p ∧
      p.globals.read_size = 12 ∧ p.globals.read_size ≠ 0 ∧ p.status = .aborted ∧
      p.status ≠ .exited 0 :=
  ⟨{ status := .aborted, stdout := [], stderr := [],
     globals := { do_all := 0, type := none, read_size := 12, write_size := 0,
                  read_only := 0 } },
   by decide, rfl, by decide, rfl, by decide⟩

/-! ## The claim about `argp/1_minimal-program-using-argp/main.c` -/

/-- C8 (amended). minimal-argp rejects positional arguments: for every command line with at
least one argument that does not start with `-` and no argument that starts with `-?`, `--h`,
`--u` or `--p` (so no help, usage or program-name option), in either scanning mode, the
program exits with status 64, writes nothing to standard output and writes an error message
to the error stream; it does not reach the final `exit(0)`. -/
theorem C8_minimal_argp_rejects_positional (posixly_correct : Bool) (prog : CStr)
    (args : List CStr) (hpos : ∃ x ∈ args, x.head? ≠ some '-')
    (hopt : ∀ x ∈ args, x.take 2 ≠ "-?".toList ∧ x.take 3 ≠ "--h".toList ∧
      x.take 3 ≠ "--u".toList ∧ x.take 3 ≠ "--p".toList) :
    (MinimalArgp.main posixly_correct (prog :: args)).status = .exited 64 ∧
    (MinimalArgp.main posixly_correct (prog :: args)).stdout = [] ∧
    (MinimalArgp.main posixly_correct (prog :: args)).stderr ≠ [] := by
  obtain ⟨err, he, hne⟩ := Argp.scan_usageError posixly_correct prog args (Argp.basename prog)
    false hopt (Or.inr hpos)
  have : Argp.argp_parse posixly_correct (prog :: args) = .exited Argp.EX_USAGE [] err := he
  have hm : MinimalArgp.main posixly_correct (prog :: args) =
      { status := .exited 64, stdout := [], stderr := err } := by
    simp only [MinimalArgp.main, this]
    rfl
  rw [hm]
  exact ⟨rfl, rfl, hne⟩

/-- The witness of C8: `--bogus x`. -/
theorem C8_witness :
    ((∃ x ∈ ["--bogus".toList, "x".toList], x.head? ≠ some '-') ∧
      (∀ x ∈ ["--bogus".toList, "x".toList], x.take 2 ≠ "-?".toList ∧
        x.take 3 ≠ "--h".toList ∧ x.take 3 ≠ "--u".toList ∧ x.take 3 ≠ "--p".toList)) ∧
    ((MinimalArgp.main false ["prog".toList, "--bogus".toList, "x".toList]).status =
        .exited 64 ∧
      (MinimalArgp.main false ["prog".toList, "--bogus".toList, "x".toList]).stdout = [] ∧
      (MinimalArgp.main false ["prog".toList, "--bogus".toList, "x".toList]).stderr ≠ []) :=
  ⟨by decide,
   C8_minimal_argp_rejects_positional false "prog".toList ["--bogus".toList, "x".toList]
     (by decide) (by decide)⟩

/-- The counterexample to C8 as stated: `--help x` has a positional argument, yet the program
prints the help text to standard output, writes no error message and exits with status 0. -/
theorem C8_counterexample :
    (MinimalArgp.main false ["prog".toList, "--help".toList, "x".toList]).status = .exited 0 ∧
    (MinimalArgp.main false ["prog".toList, "--help".toList, "x".toList]).stderr = [] := by
  decide
